import Mathlib

/-!
A verification development for the concurrent trie-hash map (`thmap.c`).

The C code is embedded shallowly for sequential executions:

* Machine integers become `Nat` with explicit masking/modular reduction where
  the C code relies on fixed-width behaviour (the 32-bit `state` word of an
  intermediate node, the 32-bit hash values).
* The pointer structure of the trie becomes the inductive type `Slot`:
  a slot of an intermediate node is empty (a zero word), a leaf, or a child
  intermediate node.  Each embedded object also carries the allocator offset
  at which it lives (`off` fields), so that allocator accounting and the
  G/C staging performed by the C code are fully visible in the model.
* The caller-supplied allocator (`thmap_ops_t`) becomes an oracle function
  `ops : Nat → Nat → Nat` mapping the index of the allocation call and the
  requested length to the returned offset; `0` models allocation failure,
  exactly as in the C code.  `free` has no observable effect beyond the
  events it emits.
* Every operation returns, besides its C return value and the updated map,
  the list of observable events it performed (allocator calls, node
  lock/unlock, slot updates, DELETED marking, G/C staging) in program order.
  Lock acquisition always succeeds at once in a sequential execution, and
  the re-check retry branches of `find_edge_node_locked` (DELETED node or
  slot turned into an intermediate node) can never fire sequentially, so
  they do not appear in the model.
* The loops of the C code (the descent of `find_edge_node`, the expansion
  loop of `thmap_put`) become fuel-indexed recursion; `none` signals fuel
  exhaustion and is an artifact of the embedding, never a C behaviour.

The hash function `murmurhash3` lives in `utils.h`, outside the given
sources; per the specification it is an external collaborator producing an
independent 32-bit word for each seed, so the whole model is parametrised
by `H : List Nat → Nat → Nat` (key bytes and seed to hash word).  Keys are
byte lists; the C pair `(key, len)` is modelled by a list of `len` bytes,
so the length field of a leaf is the length of its key list.
-/

namespace ThmapModel

/-- A hash function: key bytes and a 32-bit seed (the hash word index) to a
hash word.  Only the low 32 bits are ever used; the model truncates at the
point where the C code stores the `uint32_t` result into the `uint64_t`
`hashval` field. -/
abbrev HashF : Type := List Nat → Nat → Nat

/-- Key bytes.  The C `(const void *key, size_t len)` pair is the list of the
`len` bytes that `memcmp`/`memcpy` read from `key`. -/
abbrev Key : Type := List Nat

/-! ### Constants from `thmap.c`

`ROOT_BITS`/`LEVEL_BITS` and the state-word masks are verbatim.  The byte
sizes are the LP64 values of `sizeof(thmap_leaf_t)`,
`offsetof(thmap_inode_t, slots[LEVEL_SIZE])` and
`offsetof(thmap_inode_t, slots[ROOT_SIZE])`; only their identities matter
for the accounting theorems, never the particular numbers. -/

def ROOT_BITS : Nat := 6

def ROOT_SIZE : Nat := 64

def ROOT_MASK : Nat := 63

def LEVEL_BITS : Nat := 4

def LEVEL_SIZE : Nat := 16

def LEVEL_MASK : Nat := 15

def HASHVAL_SHIFT : Nat := 5

def HASHVAL_MASK : Nat := 31

/-- Bit 31 of the node state word: the writer lock. -/
def NODE_LOCKED : Nat := 2 ^ 31

/-- Bit 30 of the node state word: the node has been deleted. -/
def NODE_DELETED : Nat := 2 ^ 30

/-- `NODE_COUNT(s) = s & 0x3fffffff`: the occupancy count of a state word. -/
def NODE_COUNT (s : Nat) : Nat := s &&& 0x3fffffff

/-- `sizeof(thmap_leaf_t)` (LP64). -/
def THMAP_LEAF_LEN : Nat := 24

/-- `THMAP_INODE_LEN = offsetof(thmap_inode_t, slots[LEVEL_SIZE])` (LP64). -/
def THMAP_INODE_LEN : Nat := 144

/-- `THMAP_ROOT_LEN = offsetof(thmap_inode_t, slots[ROOT_SIZE])` (LP64). -/
def THMAP_ROOT_LEN : Nat := 528

/-- The `THMAP_NOCOPY` flag bit.  Its numeric value lives in `thmap.h`,
which is not among the given sources; modelled from the spec as a single
flag bit tested with `thmap->flags & THMAP_NOCOPY`. -/
def THMAP_NOCOPY : Nat := 1

/-- `lock_node`: a successful CAS replaces the state word `s` by
`s | NODE_LOCKED`. -/
def lockSt (s : Nat) : Nat := s ||| NODE_LOCKED

/-- `unlock_node`: stores `s & ~NODE_LOCKED` (a 32-bit complement, so the
mask is `0x7fffffff`). -/
def unlockSt (s : Nat) : Nat := s &&& 0x7fffffff

/-! ### Hash-slot engine -/

/-- `thmap_query_t`: the per-descent record `{level, hashidx, hashval}`.
`hashidx` is a C `int` initialised to `-1`, hence `Int` here. -/
structure Query : Type where
  level : Nat
  hashidx : Int
  hashval : Nat
deriving DecidableEq, Repr

/-- `THMAP_QUERY_INIT(l)`. -/
def queryInit (l : Nat) : Query := ⟨l, -1, 0⟩

/-- `roundup2(x, m)`: round `x` up to a multiple of `m`.  The macro comes
from `utils.h`, which is not among the given sources; modelled from the
spec (`shift = round_up(nbits, LEVEL_BITS) & 31`), for the power-of-two
arguments it is used with. -/
def roundup2 (x m : Nat) : Nat := (x + m - 1) / m * m

/-- `hashval_getslot`: given the key, compute the hash word (unless already
cached for the wanted index) and return the slot for the current level,
together with the updated query record.  Mirrors `thmap.c` lines 188-207;
the `% 2 ^ 32` is the store of the `uint32_t` hash into the `uint64_t`
`hashval` field. -/
def hashval_getslot (H : HashF) (q : Query) (key : Key) : Nat × Query :=
  let nbits := ROOT_BITS + q.level * LEVEL_BITS
  let i : Int := (nbits >>> HASHVAL_SHIFT : Nat)
  let q1 : Query :=
    if q.hashidx ≠ i then
      { q with hashval := H key (nbits >>> HASHVAL_SHIFT) % 2 ^ 32, hashidx := i }
    else q
  if q.level = 0 then
    (q1.hashval &&& ROOT_MASK, q1)
  else
    ((q1.hashval >>> (roundup2 nbits LEVEL_BITS &&& HASHVAL_MASK)) &&& LEVEL_MASK, q1)

/-- The slot a key occupies at a given level, independent of any cache:
`hashval_getslot` on a freshly initialised query. -/
def slotAt (H : HashF) (key : Key) (level : Nat) : Nat :=
  (hashval_getslot H (queryInit level) key).1

/-! ### The specification's slot algorithm (for the refinement claim C7)

This definition follows the words of spec §4.2 only, not the source:
`nbits = ROOT_BITS + level*LEVEL_BITS`; `i = ⌊nbits/32⌋`; the hash word is
regenerated exactly when the cached index differs from `i`; at level 0 the
slot is `hashval & 0x3F`; otherwise `(hashval >> (round_up(nbits,4) & 31))
& 0xF`. -/
def specGetslot (H : HashF) (q : Query) (key : Key) : Nat × Query :=
  let nbits := 6 + q.level * 4
  let i : Int := (nbits / 32 : Nat)
  let q1 : Query :=
    if q.hashidx = i then q
    else { q with hashval := H key (nbits / 32) % 2 ^ 32, hashidx := i }
  if q.level = 0 then
    (q1.hashval &&& 0x3F, q1)
  else
    ((q1.hashval >>> (roundup2 nbits 4 &&& 31)) &&& 0xF, q1)

/-! ### Data model -/

/-- A slot word of an intermediate node: empty (zero), a tagged leaf
offset, or a child intermediate node offset.  The leaf/inode object behind
the offset is embedded in place; each carries the allocator offset at which
it lives.  A leaf stores its `key` field (`keyOff`, an offset to the owned
key copy, or the caller's key address in `THMAP_NOCOPY` mode), the key
bytes reachable through it, the value handle and its own offset. -/
inductive Slot (V : Type) : Type where
  | empty : Slot V
  | leaf (keyOff : Nat) (key : Key) (val : V) (off : Nat) : Slot V
  | inode (state : Nat) (parentOff : Nat) (off : Nat) (slots : List (Slot V)) : Slot V

/-- An intermediate node (`thmap_inode_t`), unpacked: state word, parent
offset, own offset, slot array. -/
structure INode (V : Type) : Type where
  st : Nat
  par : Nat
  off : Nat
  slots : List (Slot V)

def INode.toSlot {V : Type} (n : INode V) : Slot V :=
  .inode n.st n.par n.off n.slots

/-- A leaf record (`thmap_leaf_t`) together with its own offset. -/
structure LeafR (V : Type) : Type where
  keyOff : Nat
  key : Key
  val : V
  off : Nat

def LeafR.toSlot {V : Type} (lf : LeafR V) : Slot V :=
  .leaf lf.keyOff lf.key lf.val lf.off

/-- The map object (`struct thmap`).  `ops` is the allocation oracle:
`ops i len` is what the `i`-th call of `ops->alloc` returns when asked for
`len` bytes (`0` = failure); `acnt` counts the calls made so far.
`gcList` is the retirement queue as a LIFO list of `(addr, len)`. -/
structure Thmap (V : Type) : Type where
  baseptr : Nat
  root : INode V
  flags : Nat
  ops : Nat → Nat → Nat
  acnt : Nat
  gcList : List (Nat × Nat)

/-- Observable events of an execution, in program order. -/
inductive Ev : Type where
  | alloc (len off : Nat)
  | free (off len : Nat)
  | lock (off : Nat)
  | unlock (off : Nat)
  | markDeleted (off stateBefore : Nat)
  | slotClear (off slot : Nat)
  | slotSet (off slot : Nat)
  | publish (off slot : Nat)
  | stage (addr len : Nat)
deriving DecidableEq, Repr

/-- Read slot `i` of a slot array; out-of-range reads never happen in the
C code (the hash masks bound every index), `Slot.empty` is the junk value. -/
def nthSlot {V : Type} (slots : List (Slot V)) (i : Nat) : Slot V :=
  slots.getD i .empty

/-- A single `ops->alloc` call against the oracle. -/
def allocCall {V : Type} (m : Thmap V) (len : Nat) : Nat × Thmap V × List Ev :=
  (m.ops m.acnt len, { m with acnt := m.acnt + 1 }, [.alloc len (m.ops m.acnt len)])

/-- `stage_mem_gc`: push `(addr, len)` onto the retirement LIFO.  The
bookkeeping `malloc` of the `thmap_gc_t` record uses the process heap, not
the injected allocator, and is out of scope per the spec. -/
def stage_mem_gc {V : Type} (m : Thmap V) (addr len : Nat) : Thmap V × List Ev :=
  ({ m with gcList := (addr, len) :: m.gcList }, [.stage addr len])

/-- `key_cmp_p`: length comparison followed by `memcmp` of the bytes;
`lkey` is the byte list reachable through the leaf's key offset. -/
def key_cmp_p (lkey key : Key) : Bool :=
  key.length == lkey.length && key == lkey

/-- `leaf_create`: allocate and initialise a leaf; in copy mode also
allocate the key copy, freeing the leaf again if that fails.  `keyAddr` is
the caller's key pointer, stored verbatim in `THMAP_NOCOPY` mode. -/
def leaf_create {V : Type} (m : Thmap V) (keyAddr : Nat) (key : Key) (val : V) :
    Option (LeafR V) × Thmap V × List Ev :=
  let a := allocCall m THMAP_LEAF_LEN
  if a.1 = 0 then
    (none, a.2.1, a.2.2)
  else if m.flags &&& THMAP_NOCOPY = 0 then
    let b := allocCall a.2.1 key.length
    if b.1 = 0 then
      (none, b.2.1, a.2.2 ++ b.2.2 ++ [.free a.1 THMAP_LEAF_LEN])
    else
      (some ⟨b.1, key, val, a.1⟩, b.2.1, a.2.2 ++ b.2.2)
  else
    (some ⟨keyAddr, key, val, a.1⟩, a.2.1, a.2.2)

/-- `leaf_free` on a pre-allocated (unpublished) leaf: free the key copy
in copy mode, then the leaf record. -/
def leaf_free_call {V : Type} (m : Thmap V) (lf : LeafR V) : Thmap V × List Ev :=
  if m.flags &&& THMAP_NOCOPY = 0 then
    (m, [.free lf.keyOff lf.key.length, .free lf.off THMAP_LEAF_LEN])
  else
    (m, [.free lf.off THMAP_LEAF_LEN])

/-! ### Read path -/

/-- The descent loop of `find_edge_node` followed by `get_leaf` and
`key_cmp_p`, fused as in `thmap_get`: descend while the target slot holds
an intermediate node; at the edge, an empty slot (or, vacuously, any
inode-tagged word, which `get_leaf` also maps to `NULL`) is a miss, a leaf
is compared by key.  Fuel-indexed; `none` is fuel exhaustion. -/
def thmap_get_go {V : Type} (H : HashF) (key : Key) :
    Nat → List (Slot V) → Query → Option (Option V)
  | 0, _, _ => none
  | fuel + 1, slots, q =>
    let s := hashval_getslot H q key
    match nthSlot slots s.1 with
    | .inode _ _ _ slots2 =>
      thmap_get_go H key fuel slots2 ⟨s.2.level + 1, s.2.hashidx, s.2.hashval⟩
    | .empty => some none
    | .leaf _ k2 v2 _ => some (if key_cmp_p k2 key then some v2 else none)

/-- `thmap_get`. -/
def thmap_get {V : Type} (H : HashF) (fuel : Nat) (m : Thmap V) (key : Key) :
    Option (Option V) :=
  thmap_get_go H key fuel m.root.slots (queryInit 0)

/-! ### Write path -/

/-- `hashval_getleafslot`: slot of an existing leaf's key at `level`,
computed through a freshly initialised query. -/
def hashval_getleafslot {V : Type} (H : HashF) (lf : LeafR V) (level : Nat) : Nat :=
  (hashval_getslot H (queryInit level) lf.key).1

/-- The expansion loop (`descend:` label) of `thmap_put`.  `p` is the
already locked edge node whose target `slot` holds the colliding leaf
`other`; `q` is the query at `p`'s level.  One iteration: create a new
locked child (alloc failure frees the pre-allocated leaf and returns
`NULL`), insert `other` into it at its slot of the next level, publish the
child into `p`, unlock `p`, and either recurse on a renewed collision or
insert the new leaf.  Returns the C return value, the updated node to put
back in `p`'s place in the tree, the map and the events. -/
def thmap_put_descend {V : Type} (H : HashF) (key : Key) (val : V) (lf : LeafR V) :
    Nat → Thmap V → INode V → Nat → Query → LeafR V →
    Option (Option V × INode V × Thmap V × List Ev)
  | 0, _, _, _, _, _ => none
  | fuel + 1, m, p, slot, q, other =>
    let a := allocCall m THMAP_INODE_LEN
    if a.1 = 0 then
      let f := leaf_free_call a.2.1 lf
      some (none, ⟨unlockSt p.st, p.par, p.off, p.slots⟩, f.1,
        a.2.2 ++ f.2 ++ [.unlock p.off])
    else
      let q2 : Query := ⟨q.level + 1, q.hashidx, q.hashval⟩
      let oslot := hashval_getleafslot H other q2.level
      let child : INode V :=
        ⟨(NODE_LOCKED + 1) % 2 ^ 32, p.off, a.1,
          (List.replicate LEVEL_SIZE (Slot.empty : Slot V)).set oslot other.toSlot⟩
      let evs1 := a.2.2 ++ [Ev.slotSet a.1 oslot, Ev.publish p.off slot, Ev.unlock p.off]
      let s2 := hashval_getslot H q2 key
      if s2.1 = oslot then
        match thmap_put_descend H key val lf fuel a.2.1 child s2.1 s2.2 other with
        | none => none
        | some (r, child1, m2, evs2) =>
          some (r, ⟨unlockSt p.st, p.par, p.off, p.slots.set slot child1.toSlot⟩, m2,
            evs1 ++ evs2)
      else
        some (some val,
          ⟨unlockSt p.st, p.par, p.off, p.slots.set slot
            (Slot.inode (unlockSt ((child.st + 1) % 2 ^ 32)) p.off a.1
              (child.slots.set s2.1 lf.toSlot))⟩,
          a.2.1, evs1 ++ [Ev.slotSet a.1 s2.1, Ev.unlock a.1])

/-- The body of `thmap_put` after the leaf pre-allocation: descend to the
edge node (`find_edge_node_locked`; the sequential re-check branches are
vacuous), lock it, and insert / detect the duplicate / expand. -/
def thmap_put_go {V : Type} (H : HashF) (key : Key) (val : V) (lf : LeafR V) :
    Nat → Thmap V → INode V → Query → Option (Option V × INode V × Thmap V × List Ev)
  | 0, _, _, _ => none
  | fuel + 1, m, n, q =>
    let s := hashval_getslot H q key
    match nthSlot n.slots s.1 with
    | .inode st2 par2 off2 slots2 =>
      match thmap_put_go H key val lf fuel m ⟨st2, par2, off2, slots2⟩
          ⟨s.2.level + 1, s.2.hashidx, s.2.hashval⟩ with
      | none => none
      | some (r, child1, m1, evs) =>
        some (r, { n with slots := n.slots.set s.1 child1.toSlot }, m1, evs)
    | .empty =>
      some (some val,
        ⟨unlockSt ((lockSt n.st + 1) % 2 ^ 32), n.par, n.off, n.slots.set s.1 lf.toSlot⟩,
        m, [Ev.lock n.off, Ev.slotSet n.off s.1, Ev.unlock n.off])
    | .leaf ko2 k2 v2 lo2 =>
      if key_cmp_p k2 key then
        let f := leaf_free_call m lf
        some (some lf.val, ⟨unlockSt (lockSt n.st), n.par, n.off, n.slots⟩, f.1,
          [Ev.lock n.off] ++ f.2 ++ [Ev.unlock n.off])
      else
        match thmap_put_descend H key val lf fuel m ⟨lockSt n.st, n.par, n.off, n.slots⟩
            s.1 s.2 ⟨ko2, k2, v2, lo2⟩ with
        | none => none
        | some (r, n1, m1, evs) => some (r, n1, m1, Ev.lock n.off :: evs)

/-- `thmap_put`: pre-allocate the leaf (failure returns `NULL`), then run
the insertion from the root. -/
def thmap_put {V : Type} (H : HashF) (fuel : Nat) (m : Thmap V)
    (keyAddr : Nat) (key : Key) (val : V) :
    Option (Option V × Thmap V × List Ev) :=
  let c := leaf_create m keyAddr key val
  match c.1 with
  | none => some (none, c.2.1, c.2.2)
  | some lf =>
    match thmap_put_go H key val lf fuel c.2.1 c.2.1.root (queryInit 0) with
    | none => none
    | some (r, root1, m1, evs) => some (r, { m1 with root := root1 }, c.2.2 ++ evs)

/-! ### Delete path -/

/-- Result of the recursive delete at one node: the removed leaf (if the
key was found), the updated node, whether this node emptied and must be
contracted by its caller (it is then still locked, about to be marked
DELETED), the updated map and the events so far. -/
structure DelRes (V : Type) : Type where
  found : Option (LeafR V)
  node : INode V
  collapsed : Bool
  m : Thmap V
  evs : List Ev

/-- The body of `thmap_del`: descend to the edge (locking it), remove the
leaf if the key matches, and contract empty levels upward.  Each frame is
one node of the descent; the C code ascends through the `parent` back
offsets and recomputes the slot via `hashval_getslot` at the decremented
level, which (`hashval_getslot_eq`) equals the slot the descent came
through, used here.  The contraction step at a frame whose child emptied
performs, in order: lock this node (the parent), mark the child DELETED
(the event records the child's state word at that moment), unlock the
child, clear this node's slot (`node_remove`), and stage the child for
G/C — exactly the order of `thmap.c` lines 574-588. -/
def thmap_del_go {V : Type} (H : HashF) (key : Key) :
    Nat → Thmap V → INode V → Query → Option (DelRes V)
  | 0, _, _, _ => none
  | fuel + 1, m, n, q =>
    let s := hashval_getslot H q key
    match nthSlot n.slots s.1 with
    | .inode st2 par2 off2 slots2 =>
      match thmap_del_go H key fuel m ⟨st2, par2, off2, slots2⟩
          ⟨s.2.level + 1, s.2.hashidx, s.2.hashval⟩ with
      | none => none
      | some res =>
        if res.collapsed then
          let st1 := lockSt n.st - 1
          let g := stage_mem_gc res.m res.node.off THMAP_INODE_LEN
          let evs1 := res.evs ++
            [Ev.lock n.off, Ev.markDeleted res.node.off res.node.st,
             Ev.unlock res.node.off, Ev.slotClear n.off s.1] ++ g.2
          if s.2.level ≠ 0 ∧ NODE_COUNT st1 = 0 then
            some ⟨res.found, ⟨st1, n.par, n.off, n.slots.set s.1 Slot.empty⟩,
              true, g.1, evs1⟩
          else
            some ⟨res.found, ⟨unlockSt st1, n.par, n.off, n.slots.set s.1 Slot.empty⟩,
              false, g.1, evs1 ++ [Ev.unlock n.off]⟩
        else
          some ⟨res.found, { n with slots := n.slots.set s.1 res.node.toSlot },
            false, res.m, res.evs⟩
    | .leaf ko2 k2 v2 lo2 =>
      if key_cmp_p k2 key then
        let st1 := lockSt n.st - 1
        if s.2.level ≠ 0 ∧ NODE_COUNT st1 = 0 then
          some ⟨some ⟨ko2, k2, v2, lo2⟩, ⟨st1, n.par, n.off, n.slots.set s.1 Slot.empty⟩,
            true, m, [Ev.lock n.off, Ev.slotClear n.off s.1]⟩
        else
          some ⟨some ⟨ko2, k2, v2, lo2⟩,
            ⟨unlockSt st1, n.par, n.off, n.slots.set s.1 Slot.empty⟩,
            false, m, [Ev.lock n.off, Ev.slotClear n.off s.1, Ev.unlock n.off]⟩
      else
        some ⟨none, ⟨unlockSt (lockSt n.st), n.par, n.off, n.slots⟩, false, m,
          [Ev.lock n.off, Ev.unlock n.off]⟩
    | .empty =>
      some ⟨none, ⟨unlockSt (lockSt n.st), n.par, n.off, n.slots⟩, false, m,
        [Ev.lock n.off, Ev.unlock n.off]⟩

/-- `thmap_del`: run the removal from the root, then stage the leaf (and,
in copy mode, its key buffer) for G/C and return the stored value. -/
def thmap_del {V : Type} (H : HashF) (fuel : Nat) (m : Thmap V) (key : Key) :
    Option (Option V × Thmap V × List Ev) :=
  match thmap_del_go H key fuel m m.root (queryInit 0) with
  | none => none
  | some res =>
    match res.found with
    | none => some (none, { res.m with root := res.node }, res.evs)
    | some lf =>
      let m1 := { res.m with root := res.node }
      let g1 :=
        if m1.flags &&& THMAP_NOCOPY = 0 then
          stage_mem_gc m1 lf.keyOff lf.key.length
        else (m1, [])
      let g2 := stage_mem_gc g1.1 lf.off THMAP_LEAF_LEN
      some (some lf.val, g2.1, res.evs ++ g1.2 ++ g2.2)

/-! ### G/C drain and lifecycle -/

/-- `thmap_gc`: swap the retirement list out and free every record (the
`thmap_gc_t` bookkeeping records themselves are process-heap memory, out
of scope). -/
def thmap_gc {V : Type} (m : Thmap V) : Thmap V × List Ev :=
  ({ m with gcList := [] }, m.gcList.map fun al => Ev.free al.1 al.2)

/-- `thmap_create`: reject a misaligned base (low two bits set), install
the given ops or the default process-heap pair `dflt`, allocate and
zero the root node.  The `calloc` of the map object itself is process-heap
memory and modelled as always succeeding. -/
def thmap_create (V : Type) (dflt : Nat → Nat → Nat) (baseptr : Nat)
    (ops : Option (Nat → Nat → Nat)) (flags : Nat) :
    Option (Thmap V) × List Ev :=
  if baseptr &&& 3 ≠ 0 then (none, [])
  else
    let opsF := ops.getD dflt
    let rootOff := opsF 0 THMAP_ROOT_LEN
    if rootOff = 0 then (none, [.alloc THMAP_ROOT_LEN 0])
    else
      (some ⟨baseptr, ⟨0, 0, rootOff, List.replicate ROOT_SIZE Slot.empty⟩,
        flags, opsF, 1, []⟩,
       [.alloc THMAP_ROOT_LEN rootOff])

/-! ## Hash-slot lemmas -/

/-- The hash word index consulted at a level: `(ROOT_BITS + level*LEVEL_BITS) >> 5`. -/
def hIdx (level : Nat) : Nat := (ROOT_BITS + level * LEVEL_BITS) >>> HASHVAL_SHIFT

/-- The query record after a `hashval_getslot` call at a level. -/
def qFull (H : HashF) (key : Key) (level : Nat) : Query :=
  ⟨level, (hIdx level : Nat), H key (hIdx level) % 2 ^ 32⟩

/-- Cache consistency: the query caches no word, or the word it names. -/
def QOK (H : HashF) (key : Key) (q : Query) : Prop :=
  q.hashidx = -1 ∨ ∃ j : Nat, q.hashidx = (j : Int) ∧ q.hashval = H key j % 2 ^ 32

/-- The fanout of a level: 64 at the root, 16 below. -/
def fanout (l : Nat) : Nat := if l = 0 then ROOT_SIZE else LEVEL_SIZE

/-! ## Slot-array helpers -/

/-- A non-zero slot word. -/
def nonEmptyB {V : Type} : Slot V → Bool
  | .empty => false
  | _ => true

/-- The number of non-zero slots: what the occupancy count of a quiescent
node states. -/
def cntNE {V : Type} (slots : List (Slot V)) : Nat := slots.countP nonEmptyB

/-! ## Semantic contents and structural invariant -/

/-- A leaf with the given fields is reachable in a subtree. -/
inductive LeafIn {V : Type} : Slot V → Nat → Key → V → Nat → Prop where
  | here (ko : Nat) (k : Key) (v : V) (o : Nat) : LeafIn (.leaf ko k v o) ko k v o
  | deeper (st par off : Nat) (slots : List (Slot V)) (i ko : Nat) (k : Key) (v : V)
      (o : Nat) :
      LeafIn (nthSlot slots i) ko k v o → LeafIn (.inode st par off slots) ko k v o

/-- The subtree maps key `k` to value `v` (through some leaf). -/
def mapsTo {V : Type} (s : Slot V) (k : Key) (v : V) : Prop :=
  ∃ ko o, LeafIn s ko k v o

/-- The structural invariant of a quiescent (unlocked) subtree sitting at
level `l`: correct fanout, the state word is exactly the occupancy count,
non-root nodes are non-empty, children are well-formed one level down, and
every reachable leaf key hashes to the slot it sits under. -/
inductive WFs {V : Type} (H : HashF) : Nat → Slot V → Prop where
  | empty (l : Nat) : WFs H l .empty
  | leafW (l ko : Nat) (k : Key) (v : V) (o : Nat) : WFs H l (.leaf ko k v o)
  | inodeW (l st par off : Nat) (slots : List (Slot V)) :
      slots.length = fanout l →
      st = cntNE slots →
      (l = 0 ∨ 0 < cntNE slots) →
      (∀ i, WFs H (l + 1) (nthSlot slots i)) →
      (∀ i ko k v o, LeafIn (nthSlot slots i) ko k v o → slotAt H k l = i) →
      WFs H l (.inode st par off slots)

/-- Height bound: every slot chain from this subtree ends within `n` hops. -/
inductive HtLE {V : Type} : Slot V → Nat → Prop where
  | empty (n : Nat) : HtLE (Slot.empty : Slot V) n
  | leafH (ko : Nat) (k : Key) (v : V) (o n : Nat) : HtLE (.leaf ko k v o) n
  | inodeH (st par off : Nat) (slots : List (Slot V)) (n : Nat) :
      (∀ i, HtLE (nthSlot slots i) n) → HtLE (.inode st par off slots) (n + 1)

/-! ## Event extraction and allocator accounting -/

/-- The `(offset, length)` pairs of the `free` calls of an event list. -/
def freePairs (evs : List Ev) : List (Nat × Nat) :=
  evs.filterMap fun e => match e with | .free o len => some (o, len) | _ => none

/-- The `(offset, length)` pairs of the successful `alloc` calls. -/
def allocSuccPairs (evs : List Ev) : List (Nat × Nat) :=
  evs.filterMap fun e =>
    match e with
    | .alloc len off => if off = 0 then none else some (off, len)
    | _ => none

/-- The `(address, length)` pairs staged for G/C. -/
def stagePairs (evs : List Ev) : List (Nat × Nat) :=
  evs.filterMap fun e => match e with | .stage a len => some (a, len) | _ => none

mutual
/-- The allocator-owned blocks referenced by a subtree: each intermediate
node's record, each leaf record and, in copy mode, each owned key buffer.
(The root node's own allocation is accounted separately by its owner.) -/
def ownedS {V : Type} (copy : Bool) : Slot V → Multiset (Nat × Nat)
  | .empty => 0
  | .leaf ko k _ o =>
    if copy then {(o, THMAP_LEAF_LEN), (ko, k.length)} else {(o, THMAP_LEAF_LEN)}
  | .inode _ _ off slots => (off, THMAP_INODE_LEN) ::ₘ ownedL copy slots

def ownedL {V : Type} (copy : Bool) : List (Slot V) → Multiset (Nat × Nat)
  | [] => 0
  | s :: r => ownedS copy s + ownedL copy r
end

/-! ## Allocator bookkeeping of the insertion path -/

/-- Copy mode: the map owns its key buffers. -/
def bcopy {V : Type} (m : Thmap V) : Bool := m.flags &&& THMAP_NOCOPY == 0

/-! ## Heights of concrete trees -/

mutual
/-- Height of a subtree (number of intermediate-node levels). -/
def heightS {V : Type} : Slot V → Nat
  | .empty => 0
  | .leaf _ _ _ _ => 0
  | .inode _ _ _ slots => heightL slots + 1

def heightL {V : Type} : List (Slot V) → Nat
  | [] => 0
  | s :: r => max (heightS s) (heightL r)
end

/-- One contraction block of the delete trace: lock the parent, mark the
(locked, emptied) child DELETED, unlock the child, clear the parent's slot,
stage the child for retirement — the order of `thmap.c` lines 574-588. -/
def blockEvs (p c s : Nat) : List Ev :=
  [Ev.lock p, Ev.markDeleted c NODE_LOCKED, Ev.unlock c, Ev.slotClear p s,
   Ev.stage c THMAP_INODE_LEN]

/-! ## Sequences of operations -/

/-- Run `thmap_put` for each `(key, value)` pair in order. -/
def putList {V : Type} (H : HashF) (fuel : Nat) :
    Thmap V → List (Key × V) → Option (Thmap V)
  | m, [] => some m
  | m, kv :: rest =>
    match thmap_put H fuel m 0 kv.1 kv.2 with
    | none => none
    | some (_, m1, _) => putList H fuel m1 rest

/-- Run `thmap_del` for each key in order. -/
def delList {V : Type} (H : HashF) (fuel : Nat) :
    Thmap V → List Key → Option (Thmap V)
  | m, [] => some m
  | m, k :: rest =>
    match thmap_del H fuel m k with
    | none => none
    | some (_, m1, _) => delList H fuel m1 rest

/-! ## Concrete instances -/

/-- A hash whose word 0 is the first key byte (and so collides exactly on
equal leading bytes), for concrete runs. -/
def Hc : HashF := fun k _ => k.headD 0

/-- A concrete allocator oracle that never fails. -/
def opsC : Nat → Nat → Nat := fun i _ => 4 * (i + 1)

/-- A concrete allocator oracle that always fails. -/
def opsZ : Nat → Nat → Nat := fun _ _ => 0

/-- A fresh copy-mode map, as produced by `thmap_create`. -/
def mC0c : Thmap Nat :=
  ⟨0, ⟨0, 0, 4, List.replicate ROOT_SIZE Slot.empty⟩, 0, opsC, 1, []⟩

/-- A fresh `THMAP_NOCOPY` map. -/
def mC0n : Thmap Nat :=
  ⟨0, ⟨0, 0, 4, List.replicate ROOT_SIZE Slot.empty⟩, THMAP_NOCOPY, opsC, 1, []⟩

/-- A fresh map whose allocator always fails. -/
def mC0z : Thmap Nat :=
  ⟨0, ⟨0, 0, 4, List.replicate ROOT_SIZE Slot.empty⟩, 0, opsZ, 1, []⟩

/-- `mC0c` after inserting `[3] ↦ 5`. -/
def mC1c : Thmap Nat :=
  ⟨0, ⟨1, 0, 4, (List.replicate ROOT_SIZE Slot.empty).set 3
    (Slot.leaf 12 [3] 5 8)⟩, 0, opsC, 3, []⟩

/-- `mC1c` after a duplicate insert of `[3]`. -/
def mP1 : Thmap Nat := ⟨0, mC1c.root, 0, opsC, 5, []⟩

/-- `mC1c` after deleting `[3]`. -/
def mD1 : Thmap Nat :=
  ⟨0, ⟨0, 0, 4, List.replicate ROOT_SIZE Slot.empty⟩, 0, opsC, 3,
    [(8, 24), (12, 1)]⟩

/-- `mC0z` after the failed insert. -/
def mZ1 : Thmap Nat :=
  ⟨0, ⟨0, 0, 4, List.replicate ROOT_SIZE Slot.empty⟩, 0, opsZ, 2, []⟩

/-- `mC0c` after inserting `[3] ↦ 5` and `[4099] ↦ 7` (one expansion). -/
def mN2 : Thmap Nat :=
  ⟨0, ⟨1, 0, 4, (List.replicate ROOT_SIZE Slot.empty).set 3
    (Slot.inode 2 4 24 (((List.replicate LEVEL_SIZE Slot.empty).set 0
      (Slot.leaf 12 [3] 5 8)).set 1 (Slot.leaf 20 [4099] 7 16)))⟩,
   0, opsC, 6, []⟩

/-- `mC0c` after inserting `[3] ↦ 5` and `[65539] ↦ 7` (two expansions). -/
def mI2 : Thmap Nat :=
  ⟨0, ⟨1, 0, 4, (List.replicate ROOT_SIZE Slot.empty).set 3
    (Slot.inode 1 4 24 ((List.replicate LEVEL_SIZE Slot.empty).set 0
      (Slot.inode 2 24 28 (((List.replicate LEVEL_SIZE Slot.empty).set 0
        (Slot.leaf 12 [3] 5 8)).set 1 (Slot.leaf 20 [65539] 7 16)))))⟩,
   0, opsC, 7, []⟩

/-- `mI2` after deleting `[3]`. -/
def m3del : Thmap Nat :=
  ⟨0, ⟨1, 0, 4, (List.replicate ROOT_SIZE Slot.empty).set 3
    (Slot.inode 1 4 24 ((List.replicate LEVEL_SIZE Slot.empty).set 0
      (Slot.inode 1 24 28 ((List.replicate LEVEL_SIZE Slot.empty).set 1
        (Slot.leaf 20 [65539] 7 16)))))⟩,
   0, opsC, 7, [(8, 24), (12, 1)]⟩

/-- `mI2` after deleting both keys: back to an all-empty root, the four
allocated records on the retirement list. -/
def mF2 : Thmap Nat :=
  ⟨0, ⟨0, 0, 4, List.replicate ROOT_SIZE Slot.empty⟩, 0, opsC, 7,
    [(16, 24), (20, 1), (24, 144), (28, 144), (8, 24), (12, 1)]⟩

/-- `mC0n` after inserting `[3] ↦ 5` (`keyAddr` 11 stored verbatim). -/
def mC1n : Thmap Nat :=
  ⟨0, ⟨1, 0, 4, (List.replicate ROOT_SIZE Slot.empty).set 3
    (Slot.leaf 11 [3] 5 8)⟩, THMAP_NOCOPY, opsC, 2, []⟩

/-- `mC1n` after the colliding insert `[4099] ↦ 7`. -/
def mC2n : Thmap Nat :=
  ⟨0, ⟨1, 0, 4, (List.replicate ROOT_SIZE Slot.empty).set 3
    (Slot.inode 2 4 16 (((List.replicate LEVEL_SIZE Slot.empty).set 0
      (Slot.leaf 11 [3] 5 8)).set 1 (Slot.leaf 13 [4099] 7 12)))⟩,
   THMAP_NOCOPY, opsC, 4, []⟩

/-- `mC1n` after deleting `[3]` (only the leaf staged). -/
def mD1n : Thmap Nat :=
  ⟨0, ⟨0, 0, 4, List.replicate ROOT_SIZE Slot.empty⟩, THMAP_NOCOPY, opsC, 2,
    [(8, 24)]⟩

/-! ## Properties -/

/-! ## State-word arithmetic -/

theorem lor_two_pow_of_lt {s n : Nat} (h : s < 2 ^ n) : s ||| 2 ^ n = s + 2 ^ n := by
  apply Nat.eq_of_testBit_eq
  intro i
  rcases lt_trichotomy i n with hi | hi | hi
  · rw [Nat.testBit_lor, Nat.testBit_two_pow_of_ne (Nat.ne_of_gt hi), Bool.or_false,
      Nat.add_comm s, Nat.testBit_two_pow_add_gt hi]
  · subst hi
    rw [Nat.testBit_lor, Nat.testBit_two_pow_self, Nat.testBit_lt_two_pow h,
      Nat.add_comm s, Nat.testBit_two_pow_add_eq, Nat.testBit_lt_two_pow h]
    rfl
  · rw [Nat.testBit_lor, Nat.testBit_two_pow_of_ne (Nat.ne_of_lt hi),
      Nat.testBit_lt_two_pow (lt_of_lt_of_le h (Nat.pow_le_pow_right (by norm_num) hi.le)),
      Bool.or_false]
    refine (Nat.testBit_lt_two_pow ?_).symm
    have h2 : 2 ^ (n + 1) ≤ 2 ^ i := Nat.pow_le_pow_right (by norm_num) hi
    have h3 : 2 ^ (n + 1) = 2 ^ n + 2 ^ n := by rw [Nat.pow_succ]; omega
    omega

theorem unlockSt_eq (s : Nat) : unlockSt s = s % 2 ^ 31 := by
  rw [unlockSt, show (0x7fffffff : Nat) = 2 ^ 31 - 1 by norm_num,
    Nat.and_pow_two_sub_one_eq_mod]

theorem NODE_COUNT_eq (s : Nat) : NODE_COUNT s = s % 2 ^ 30 := by
  rw [NODE_COUNT, show (0x3fffffff : Nat) = 2 ^ 30 - 1 by norm_num,
    Nat.and_pow_two_sub_one_eq_mod]

theorem lockSt_eq {s : Nat} (h : s < 2 ^ 31) : lockSt s = 2 ^ 31 + s := by
  rw [lockSt, NODE_LOCKED, lor_two_pow_of_lt h, Nat.add_comm]

theorem unlockSt_lockSt {s : Nat} (h : s < 2 ^ 31) : unlockSt (lockSt s) = s := by
  rw [unlockSt_eq, lockSt_eq h, Nat.add_mod_left, Nat.mod_eq_of_lt h]

/-- `node_insert` at a locked node, then unlock: the count increments. -/
theorem unlock_inc {s : Nat} (h : s + 1 < 2 ^ 31) :
    unlockSt ((lockSt s + 1) % 2 ^ 32) = s + 1 := by
  rw [lockSt_eq (by omega), Nat.mod_eq_of_lt (by norm_num; omega), unlockSt_eq,
    Nat.add_assoc, Nat.add_mod_left, Nat.mod_eq_of_lt h]

/-- `node_remove` at a locked node: the still-locked decremented state. -/
theorem lock_dec {s : Nat} (h0 : 0 < s) (h : s < 2 ^ 31) :
    lockSt s - 1 = 2 ^ 31 + (s - 1) := by
  rw [lockSt_eq h]; omega

theorem unlock_dec {s : Nat} (h0 : 0 < s) (h : s < 2 ^ 31) :
    unlockSt (lockSt s - 1) = s - 1 := by
  rw [lock_dec h0 h, unlockSt_eq, Nat.add_mod_left, Nat.mod_eq_of_lt (by omega)]

theorem NODE_COUNT_lock_dec {s : Nat} (h0 : 0 < s) (h : s < 2 ^ 30) :
    NODE_COUNT (lockSt s - 1) = s - 1 := by
  rw [lock_dec h0 (by omega), NODE_COUNT_eq,
    show (2 ^ 31 : Nat) = 2 ^ 30 + 2 ^ 30 by norm_num, Nat.add_assoc, Nat.add_mod_left,
    Nat.add_mod_left, Nat.mod_eq_of_lt (by omega)]

theorem QOK_init (H : HashF) (key : Key) (l : Nat) : QOK H key (queryInit l) :=
  Or.inl rfl

theorem QOK_qFull (H : HashF) (key : Key) (l : Nat) : QOK H key (qFull H key l) :=
  Or.inr ⟨hIdx l, rfl, rfl⟩

theorem QOK_setLevel {H : HashF} {key : Key} {q : Query} (h : QOK H key q) (l : Nat) :
    QOK H key { q with level := l } := h

theorem neg_one_ne_natCast (n : Nat) : (-1 : Int) ≠ (n : Int) := by omega

/-- A cache-consistent query yields the pure slot value and the canonical
updated query: the cached hash word never changes the outcome. -/
theorem hashval_getslot_eq {H : HashF} {key : Key} {q : Query} (h : QOK H key q) :
    hashval_getslot H q key = (slotAt H key q.level, qFull H key q.level) := by
  obtain ⟨l, hi, hv⟩ := q
  by_cases hc : hi = (((ROOT_BITS + l * LEVEL_BITS) >>> HASHVAL_SHIFT : Nat) : Int)
  · rcases h with h1 | ⟨j, hj, hjv⟩
    · exact absurd (h1.symm.trans hc) (neg_one_ne_natCast _)
    · have hjn : j = (ROOT_BITS + l * LEVEL_BITS) >>> HASHVAL_SHIFT := by
        have h2 : (j : Int) = (((ROOT_BITS + l * LEVEL_BITS) >>> HASHVAL_SHIFT : Nat) : Int) :=
          hj.symm.trans hc
        exact_mod_cast h2
      simp only [Query.mk.injEq] at hjv
      simp only [hashval_getslot, slotAt, queryInit, qFull, hIdx, hc, hjv, hjn,
        neg_one_ne_natCast, ne_eq, not_true_eq_false, if_false, ite_not, if_true,
        not_false_eq_true, ite_true]
      split <;> rfl
  · simp only [hashval_getslot, slotAt, queryInit, qFull, hIdx, ne_eq, hc,
      not_false_eq_true, if_true, ite_true, ite_not, if_neg (neg_one_ne_natCast _)]
    split <;> rfl

/-- The slot index is always below the fanout of its level. -/
theorem slotAt_lt_fanout (H : HashF) (key : Key) (l : Nat) :
    slotAt H key l < fanout l := by
  by_cases h : l = 0
  · subst h
    simp only [slotAt, hashval_getslot, queryInit, fanout, if_pos rfl, ROOT_MASK, ROOT_SIZE]
    exact Nat.lt_succ_of_le Nat.and_le_right
  · simp only [slotAt, hashval_getslot, queryInit, fanout, if_neg h, LEVEL_MASK, LEVEL_SIZE]
    exact Nat.lt_succ_of_le Nat.and_le_right

theorem slotAt_lt_root (H : HashF) (key : Key) : slotAt H key 0 < ROOT_SIZE := by
  simpa [fanout] using slotAt_lt_fanout H key 0

theorem slotAt_lt_level (H : HashF) (key : Key) {l : Nat} (h : l ≠ 0) :
    slotAt H key l < LEVEL_SIZE := by
  simpa [fanout, if_neg h] using slotAt_lt_fanout H key l

theorem nthSlot_replicate {V : Type} (n i : Nat) :
    nthSlot (List.replicate n (Slot.empty : Slot V)) i = .empty := by
  simp only [nthSlot, List.getD_eq_getElem?_getD, List.getElem?_replicate]
  split <;> rfl

theorem nthSlot_set_self {V : Type} {slots : List (Slot V)} {i : Nat} (x : Slot V)
    (h : i < slots.length) : nthSlot (slots.set i x) i = x := by
  simp [nthSlot, List.getD_eq_getElem?_getD, List.getElem?_set_self h]

theorem nthSlot_set_ne {V : Type} {slots : List (Slot V)} {i j : Nat} (x : Slot V)
    (h : i ≠ j) : nthSlot (slots.set i x) j = nthSlot slots j := by
  simp [nthSlot, List.getD_eq_getElem?_getD, List.getElem?_set_ne h]

theorem nthSlot_of_ge {V : Type} {slots : List (Slot V)} {i : Nat}
    (h : slots.length ≤ i) : nthSlot slots i = .empty := by
  simp [nthSlot, List.getD_eq_getElem?_getD, List.getElem?_eq_none h]

theorem set_nthSlot_self {V : Type} {slots : List (Slot V)} {i : Nat}
    (h : i < slots.length) : slots.set i (nthSlot slots i) = slots := by
  apply List.ext_getElem?
  intro j
  by_cases hij : i = j
  · subst hij
    rw [List.getElem?_set_self h, nthSlot, List.getD_eq_getElem?_getD,
      List.getElem?_eq_getElem h]
    rfl
  · rw [List.getElem?_set_ne hij]

theorem nthSlot_mem {V : Type} {slots : List (Slot V)} {i : Nat}
    (h : i < slots.length) : nthSlot slots i ∈ slots := by
  rw [nthSlot, List.getD_eq_getElem?_getD, List.getElem?_eq_getElem h]
  exact List.getElem_mem h

theorem cntNE_replicate {V : Type} (n : Nat) :
    cntNE (List.replicate n (Slot.empty : Slot V)) = 0 := by
  rw [cntNE, List.countP_eq_zero]
  intro a ha
  rw [List.eq_of_mem_replicate ha]
  simp [nonEmptyB]

/-- Occupancy bound: never more than the length. -/
theorem cntNE_le_length {V : Type} (slots : List (Slot V)) :
    cntNE slots ≤ slots.length :=
  List.countP_le_length _

theorem cntNE_zero_iff {V : Type} {slots : List (Slot V)} :
    cntNE slots = 0 ↔ ∀ i, nthSlot slots i = .empty := by
  constructor
  · intro h i
    by_cases hi : i < slots.length
    · have := (List.countP_eq_zero.mp h) _ (nthSlot_mem hi)
      cases hx : nthSlot slots i with
      | empty => rfl
      | leaf ko k v o => rw [hx] at this; simp [nonEmptyB] at this
      | inode st par off s2 => rw [hx] at this; simp [nonEmptyB] at this
    · exact nthSlot_of_ge (le_of_not_lt hi)
  · intro h
    rw [cntNE, List.countP_eq_zero]
    intro a ha
    obtain ⟨i, hi, rfl⟩ := List.mem_iff_getElem.mp ha
    have h2 := h i
    rw [nthSlot, List.getD_eq_getElem?_getD, List.getElem?_eq_getElem hi] at h2
    simp only [Option.getD_some] at h2
    rw [h2]
    simp [nonEmptyB]

theorem cntNE_pos {V : Type} {slots : List (Slot V)} (h : 0 < cntNE slots) :
    ∃ i, i < slots.length ∧ nonEmptyB (nthSlot slots i) = true := by
  obtain ⟨a, ha, hp⟩ := List.countP_pos_iff.mp h
  obtain ⟨i, hi, rfl⟩ := List.mem_iff_getElem.mp ha
  refine ⟨i, hi, ?_⟩
  rw [nthSlot, List.getD_eq_getElem?_getD, List.getElem?_eq_getElem hi]
  exact hp

/-- Counting a slot update, in subtraction-free form. -/
theorem cntNE_set {V : Type} {slots : List (Slot V)} {i : Nat} (x : Slot V)
    (h : i < slots.length) :
    cntNE (slots.set i x) + (if nonEmptyB (nthSlot slots i) then 1 else 0) =
      cntNE slots + (if nonEmptyB x then 1 else 0) := by
  induction slots generalizing i with
  | nil => simp at h
  | cons a r ih =>
    cases i with
    | zero =>
      simp only [List.set_cons_zero, cntNE, List.countP_cons, nthSlot, List.getD_cons_zero]
      rw [Nat.add_right_comm]
    | succ j =>
      have hj : j < r.length := by simpa using h
      have h2 := ih hj
      simp only [cntNE, nthSlot] at h2
      simp only [List.set_cons_succ, cntNE, List.countP_cons, nthSlot, List.getD_cons_succ]
      omega

/-- An all-empty slot array is the zeroed array. -/
theorem eq_replicate_of_all_empty {V : Type} {slots : List (Slot V)}
    (h : ∀ i, nthSlot slots i = .empty) :
    slots = List.replicate slots.length (Slot.empty : Slot V) := by
  rw [List.eq_replicate_length]
  intro b hb
  obtain ⟨i, hi, rfl⟩ := List.mem_iff_getElem.mp hb
  have h2 := h i
  rwa [nthSlot, List.getD_eq_getElem?_getD, List.getElem?_eq_getElem hi] at h2

theorem LeafIn_nonEmpty {V : Type} {s : Slot V} {ko : Nat} {k : Key} {v : V} {o : Nat}
    (h : LeafIn s ko k v o) : nonEmptyB s = true := by
  cases h <;> rfl

theorem not_LeafIn_empty {V : Type} {ko : Nat} {k : Key} {v : V} {o : Nat} :
    ¬ LeafIn (Slot.empty : Slot V) ko k v o := by
  intro h
  exact absurd (LeafIn_nonEmpty h) (by simp [nonEmptyB])

theorem cntNE_pos_of_LeafIn {V : Type} {slots : List (Slot V)} {i ko : Nat} {k : Key}
    {v : V} {o : Nat} (h : LeafIn (nthSlot slots i) ko k v o) : 0 < cntNE slots := by
  by_cases hi : i < slots.length
  · exact List.countP_pos_iff.mpr ⟨_, nthSlot_mem hi, LeafIn_nonEmpty h⟩
  · rw [nthSlot_of_ge (le_of_not_lt hi)] at h
    exact absurd h not_LeafIn_empty

theorem HtLE_mono {V : Type} {s : Slot V} {n n2 : Nat} (h : HtLE s n) (hle : n ≤ n2) :
    HtLE s n2 := by
  induction h generalizing n2 with
  | empty => exact .empty _
  | leafH => exact .leafH _ _ _ _ _
  | inodeH st par off slots n hch ih =>
    obtain ⟨m, rfl⟩ := Nat.exists_eq_add_of_le hle
    have h2 : ∀ i, HtLE (nthSlot slots i) (n + m) := fun i => ih i (by omega)
    have h3 := HtLE.inodeH st par off slots (n + m) h2
    have he : n + 1 + m = n + m + 1 := by omega
    rw [he]
    exact h3

/-- A well-formed intermediate node with positive occupancy holds a leaf. -/
theorem WFs_leaf_of_pos {V : Type} {H : HashF} {l : Nat} {s : Slot V}
    (hwf : WFs H l s) :
    ∀ st par off slots, s = .inode st par off slots → 0 < cntNE slots →
      ∃ ko k v o, LeafIn s ko k v o := by
  induction hwf with
  | empty => intro _ _ _ _ h; cases h
  | leafW => intro _ _ _ _ h; cases h
  | inodeW l st par off slots hlen hst hne hch hpl ih =>
    intro st2 par2 off2 slots2 heq hpos
    cases heq
    obtain ⟨i, hi, hne2⟩ := cntNE_pos hpos
    cases hx : nthSlot slots i with
    | empty => rw [hx] at hne2; simp [nonEmptyB] at hne2
    | leaf ko k v o =>
      exact ⟨ko, k, v, o, .deeper _ _ _ _ i _ _ _ _ (by rw [hx]; exact .here ko k v o)⟩
    | inode st3 par3 off3 slots3 =>
      have hch2 := hch i
      rw [hx] at hch2
      have hpos3 : 0 < cntNE slots3 := by
        cases hch2 with
        | inodeW _ _ _ _ _ hlen3 hst3 hne3 hch3 hpl3 => exact hne3.resolve_left (by omega)
      obtain ⟨ko, k, v, o, hin⟩ := ih i st3 par3 off3 slots3 hx hpos3
      exact ⟨ko, k, v, o, .deeper _ _ _ _ i _ _ _ _ hin⟩

/-- In a well-formed all-level-empty tree there are no entries; conversely
a well-formed root with no entries has an all-empty slot array. -/
theorem WFs_root_collapsed {V : Type} {H : HashF} {st par off : Nat}
    {slots : List (Slot V)} (hwf : WFs H 0 (.inode st par off slots))
    (hnone : ∀ k v, ¬ mapsTo (Slot.inode st par off slots) k v) :
    st = 0 ∧ slots = List.replicate ROOT_SIZE (Slot.empty : Slot V) := by
  cases hwf with
  | inodeW _ _ _ _ _ hlen hst hne hch hpl =>
    have hz : cntNE slots = 0 := by
      by_contra hc
      have hpos : 0 < cntNE slots := Nat.pos_of_ne_zero hc
      obtain ⟨i, hi, hne2⟩ := cntNE_pos hpos
      cases hx : nthSlot slots i with
      | empty => rw [hx] at hne2; simp [nonEmptyB] at hne2
      | leaf ko k v o =>
        exact hnone k v ⟨ko, o, .deeper _ _ _ _ i _ _ _ _ (by rw [hx]; exact .here ko k v o)⟩
      | inode st3 par3 off3 slots3 =>
        have hch2 := hch i
        rw [hx] at hch2
        have hpos3 : 0 < cntNE slots3 := by
          cases hch2 with
          | inodeW _ _ _ _ _ hlen3 hst3 hne3 _ _ => exact hne3.resolve_left (by omega)
        obtain ⟨ko, k, v, o, hin⟩ := WFs_leaf_of_pos hch2 st3 par3 off3 slots3 rfl hpos3
        exact hnone k v ⟨ko, o, .deeper _ _ _ _ i _ _ _ _ (hx ▸ hin)⟩
    refine ⟨hst.trans hz, ?_⟩
    have h2 := eq_replicate_of_all_empty (cntNE_zero_iff.mp hz)
    rwa [hlen, fanout, if_pos rfl] at h2

/-! ## Inversions and uniqueness -/

theorem key_cmp_p_iff {lkey key : Key} : key_cmp_p lkey key = true ↔ key = lkey := by
  simp only [key_cmp_p, Bool.and_eq_true, beq_iff_eq]
  constructor
  · exact fun h => h.2
  · exact fun h => ⟨by rw [h], h⟩

theorem LeafIn_leaf_inv {V : Type} {ko2 ko : Nat} {k2 k : Key} {v2 v : V} {o2 o : Nat}
    (h : LeafIn (Slot.leaf ko2 k2 v2 o2) ko k v o) :
    ko = ko2 ∧ k = k2 ∧ v = v2 ∧ o = o2 := by
  cases h
  exact ⟨rfl, rfl, rfl, rfl⟩

theorem LeafIn_inode_inv {V : Type} {st par off : Nat} {slots : List (Slot V)}
    {ko : Nat} {k : Key} {v : V} {o : Nat}
    (h : LeafIn (Slot.inode st par off slots) ko k v o) :
    ∃ i, LeafIn (nthSlot slots i) ko k v o := by
  cases h with
  | deeper _ _ _ _ i _ _ _ _ hin => exact ⟨i, hin⟩

/-- Well-formedness places a key's entry uniquely: two leaves reachable for
the same key coincide in every field. -/
theorem LeafIn_unique {V : Type} {H : HashF} {l : Nat} {s : Slot V}
    (hwf : WFs H l s) :
    ∀ ko1 k v1 o1 ko2 v2 o2, LeafIn s ko1 k v1 o1 → LeafIn s ko2 k v2 o2 →
      ko1 = ko2 ∧ v1 = v2 ∧ o1 = o2 := by
  induction hwf with
  | empty => exact fun _ _ _ _ _ _ _ h => absurd h not_LeafIn_empty
  | leafW l ko k v o =>
    intro ko1 k1 v1 o1 ko2 v2 o2 h1 h2
    obtain ⟨rfl, rfl, rfl, rfl⟩ := LeafIn_leaf_inv h1
    obtain ⟨rfl, _, rfl, rfl⟩ := LeafIn_leaf_inv h2
    exact ⟨rfl, rfl, rfl⟩
  | inodeW l st par off slots hlen hst hne hch hpl ih =>
    intro ko1 k v1 o1 ko2 v2 o2 h1 h2
    obtain ⟨i1, hin1⟩ := LeafIn_inode_inv h1
    obtain ⟨i2, hin2⟩ := LeafIn_inode_inv h2
    have he1 := hpl i1 ko1 k v1 o1 hin1
    have he2 := hpl i2 ko2 k v2 o2 hin2
    rw [← he1, he2] at hin1
    exact ih i2 ko1 k v1 o1 ko2 v2 o2 hin1 hin2

/-! ## Lookup correctness -/

/-- If the key is present, any completed lookup descent returns its value. -/
theorem thmap_get_go_found {V : Type} {H : HashF} {key : Key} :
    ∀ (fuel l st par off : Nat) (slots : List (Slot V)) (q : Query) (ko : Nat)
      (v : V) (o : Nat) (r : Option V),
      WFs H l (.inode st par off slots) → QOK H key q → q.level = l →
      LeafIn (Slot.inode st par off slots) ko key v o →
      thmap_get_go H key fuel slots q = some r → r = some v := by
  intro fuel
  induction fuel with
  | zero => intro _ _ _ _ _ _ _ _ _ _ _ _ _ _ h; exact absurd h (by simp [thmap_get_go])
  | succ f ih =>
    intro l st par off slots q ko v o r hwf hq hlvl hin hrun
    obtain ⟨i0, hin0⟩ := LeafIn_inode_inv hin
    cases hwf with
    | inodeW _ _ _ _ _ hlen hst hne hch hpl =>
      have hi0 : i0 = slotAt H key l := (hpl i0 ko key v o hin0).symm
      subst hi0
      rw [thmap_get_go, hashval_getslot_eq hq, hlvl] at hrun
      try simp only at hrun
      cases hx : nthSlot slots (slotAt H key l) with
      | empty => rw [hx] at hin0; exact absurd hin0 not_LeafIn_empty
      | leaf ko2 k2 v2 o2 =>
        rw [hx] at hin0 hrun
        obtain ⟨rfl, hk, rfl, rfl⟩ := LeafIn_leaf_inv hin0
        have hrun2 : some (if key_cmp_p k2 key = true then some v else none) = some r := hrun
        rw [if_pos (key_cmp_p_iff.mpr hk)] at hrun2
        exact (Option.some_inj.mp hrun2).symm
      | inode st2 par2 off2 slots2 =>
        rw [hx] at hin0 hrun
        have hch2 := hch (slotAt H key l)
        rw [hx] at hch2
        exact ih (l + 1) st2 par2 off2 slots2 _ ko v o r hch2
          (QOK_setLevel (QOK_qFull H key l) _) rfl hin0 hrun

/-- If the key is absent from every slot, any completed descent misses. -/
theorem thmap_get_go_none {V : Type} {H : HashF} {key : Key} :
    ∀ (fuel : Nat) (slots : List (Slot V)) (q : Query) (r : Option V),
      (∀ i ko v o, ¬ LeafIn (nthSlot slots i) ko key v o) →
      thmap_get_go H key fuel slots q = some r → r = none := by
  intro fuel
  induction fuel with
  | zero => intro _ _ _ _ h; exact absurd h (by simp [thmap_get_go])
  | succ f ih =>
    intro slots q r habs hrun
    rw [thmap_get_go] at hrun
    try simp only at hrun
    cases hx : nthSlot slots (hashval_getslot H q key).1 with
    | empty => rw [hx] at hrun; exact (Option.some_inj.mp hrun).symm
    | leaf ko2 k2 v2 o2 =>
      rw [hx] at hrun
      have hrun2 : some (if key_cmp_p k2 key = true then some v2 else none) = some r := hrun
      by_cases hk : key_cmp_p k2 key = true
      · refine absurd ?_ (habs (hashval_getslot H q key).1 ko2 v2 o2)
        rw [hx, key_cmp_p_iff.mp hk]
        exact .here ko2 k2 v2 o2
      · rw [if_neg hk] at hrun2
        exact (Option.some_inj.mp hrun2).symm
    | inode st2 par2 off2 slots2 =>
      rw [hx] at hrun
      refine ih slots2 _ r ?_ hrun
      intro i ko v o hin
      exact habs (hashval_getslot H q key).1 ko v o
        (hx ▸ LeafIn.deeper st2 par2 off2 slots2 i ko key v o hin)

/-- With fuel at least the height, a descent completes. -/
theorem thmap_get_go_total {V : Type} {H : HashF} {key : Key} :
    ∀ (fuel st par off : Nat) (slots : List (Slot V)) (q : Query),
      HtLE (Slot.inode st par off slots) fuel →
      (thmap_get_go H key fuel slots q).isSome := by
  intro fuel
  induction fuel with
  | zero => intro _ _ _ _ _ h; cases h
  | succ f ih =>
    intro st par off slots q hht
    rw [thmap_get_go]
    try simp only
    cases hx : nthSlot slots (hashval_getslot H q key).1 with
    | empty => rfl
    | leaf ko2 k2 v2 o2 => rfl
    | inode st2 par2 off2 slots2 =>
      cases hht with
      | inodeH _ _ _ _ _ hch =>
        have h2 := hch (hashval_getslot H q key).1
        rw [hx] at h2
        exact ih st2 par2 off2 slots2 _ h2

/-- Lookup results are monotone in fuel. -/
theorem thmap_get_go_mono {V : Type} {H : HashF} {key : Key} :
    ∀ (fuel fuel2 : Nat) (slots : List (Slot V)) (q : Query) (r : Option V),
      fuel ≤ fuel2 → thmap_get_go H key fuel slots q = some r →
      thmap_get_go H key fuel2 slots q = some r := by
  intro fuel
  induction fuel with
  | zero => intro _ _ _ _ _ h; exact absurd h (by simp [thmap_get_go])
  | succ f ih =>
    intro fuel2 slots q r hle hrun
    obtain ⟨f2, rfl⟩ : ∃ f2, fuel2 = f2 + 1 := ⟨fuel2 - 1, by omega⟩
    rw [thmap_get_go] at hrun ⊢
    try simp only at hrun ⊢
    cases hx : nthSlot slots (hashval_getslot H q key).1 with
    | empty => rw [hx] at hrun; exact hrun
    | leaf ko2 k2 v2 o2 => rw [hx] at hrun; exact hrun
    | inode st2 par2 off2 slots2 =>
      rw [hx] at hrun
      exact ih f2 slots2 _ r (by omega) hrun

theorem freePairs_append (a b : List Ev) :
    freePairs (a ++ b) = freePairs a ++ freePairs b :=
  List.filterMap_append ..

theorem allocSuccPairs_append (a b : List Ev) :
    allocSuccPairs (a ++ b) = allocSuccPairs a ++ allocSuccPairs b :=
  List.filterMap_append ..

theorem stagePairs_append (a b : List Ev) :
    stagePairs (a ++ b) = stagePairs a ++ stagePairs b :=
  List.filterMap_append ..

theorem ownedL_replicate {V : Type} (copy : Bool) (n : Nat) :
    ownedL copy (List.replicate n (Slot.empty : Slot V)) = 0 := by
  induction n with
  | zero => rfl
  | succ k ih => rw [List.replicate_succ, ownedL, ownedS, ih]; rfl

/-- Accounting for a slot update, in subtraction-free form. -/
theorem ownedL_set {V : Type} {copy : Bool} {slots : List (Slot V)} {i : Nat}
    (x : Slot V) (h : i < slots.length) :
    ownedL copy (slots.set i x) + ownedS copy (nthSlot slots i) =
      ownedL copy slots + ownedS copy x := by
  induction slots generalizing i with
  | nil => simp at h
  | cons a r ih =>
    cases i with
    | zero =>
      simp only [List.set_cons_zero, ownedL, nthSlot, List.getD_cons_zero]
      abel
    | succ j =>
      have hj : j < r.length := by simpa using h
      have h2 := ih hj
      simp only [nthSlot] at h2
      simp only [List.set_cons_succ, ownedL, nthSlot, List.getD_cons_succ]
      calc ownedS copy a + ownedL copy (r.set j x) + ownedS copy (r.getD j Slot.empty)
          = ownedS copy a + (ownedL copy (r.set j x) + ownedS copy (r.getD j Slot.empty)) := by
            rw [add_assoc]
        _ = ownedS copy a + (ownedL copy r + ownedS copy x) := by rw [h2]
        _ = ownedS copy a + ownedL copy r + ownedS copy x := by rw [add_assoc]

/-! ## Slot-update reachability lemmas -/

theorem LeafIn_nthSlot_set {V : Type} {slots : List (Slot V)} {j : Nat} (x : Slot V)
    (hj : j < slots.length) (i ko : Nat) (k : Key) (v : V) (o : Nat) :
    LeafIn (nthSlot (slots.set j x) i) ko k v o ↔
      (i = j ∧ LeafIn x ko k v o) ∨ (i ≠ j ∧ LeafIn (nthSlot slots i) ko k v o) := by
  by_cases h : i = j
  · subst h
    rw [nthSlot_set_self x hj]
    constructor
    · exact fun h2 => Or.inl ⟨rfl, h2⟩
    · rintro (⟨_, h2⟩ | ⟨hc, _⟩)
      · exact h2
      · exact absurd rfl hc
  · rw [nthSlot_set_ne x (fun hc => h hc.symm)]
    constructor
    · exact fun h2 => Or.inr ⟨h, h2⟩
    · rintro (⟨hc, _⟩ | ⟨_, h2⟩)
      · exact absurd hc h
      · exact h2

theorem nthSlot_replicate_set {V : Type} {n a : Nat} (x : Slot V) (ha : a < n) (i : Nat) :
    nthSlot ((List.replicate n (Slot.empty : Slot V)).set a x) i =
      if i = a then x else .empty := by
  by_cases h : i = a
  · subst h
    rw [if_pos rfl, nthSlot_set_self x (by simpa using ha)]
  · rw [if_neg h, nthSlot_set_ne x (fun hc => h hc.symm), nthSlot_replicate]

/-! ## More state-word arithmetic for the expansion path -/

theorem cntNE_lt_two_pow_31 {V : Type} {slots : List (Slot V)} {l : Nat}
    (hlen : slots.length = fanout l) : cntNE slots < 2 ^ 31 := by
  have h1 := cntNE_le_length slots
  have h2 : fanout l ≤ 64 := by
    rw [fanout]; split <;> simp [ROOT_SIZE, LEVEL_SIZE]
  omega

theorem cntNE_lt_two_pow_30 {V : Type} {slots : List (Slot V)} {l : Nat}
    (hlen : slots.length = fanout l) : cntNE slots < 2 ^ 30 := by
  have h1 := cntNE_le_length slots
  have h2 : fanout l ≤ 64 := by
    rw [fanout]; split <;> simp [ROOT_SIZE, LEVEL_SIZE]
  omega

theorem node_create_st : (NODE_LOCKED + 1) % 2 ^ 32 = lockSt 1 := by
  rw [lockSt_eq (by norm_num)]; norm_num [NODE_LOCKED]

theorem node_create_insert_unlock :
    unlockSt (((NODE_LOCKED + 1) % 2 ^ 32 + 1) % 2 ^ 32) = 2 := by
  rw [unlockSt_eq]; norm_num [NODE_LOCKED]

/-! ## Decomposing reachability across a slot update -/

theorem mapsTo_inode_iff {V : Type} {a b c : Nat} {slots : List (Slot V)} {k : Key}
    {v : V} : mapsTo (Slot.inode a b c slots) k v ↔
      ∃ i ko o, LeafIn (nthSlot slots i) ko k v o := by
  constructor
  · rintro ⟨ko, o, hin⟩
    obtain ⟨i, hin2⟩ := LeafIn_inode_inv hin
    exact ⟨i, ko, o, hin2⟩
  · rintro ⟨i, ko, o, hin⟩
    exact ⟨ko, o, .deeper _ _ _ _ i _ _ _ _ hin⟩

theorem LeafIn_toSlot_leaf {V : Type} {lf : LeafR V} {ko : Nat} {k : Key} {v : V}
    {o : Nat} : LeafIn lf.toSlot ko k v o ↔
      ko = lf.keyOff ∧ k = lf.key ∧ v = lf.val ∧ o = lf.off := by
  constructor
  · intro h
    exact LeafIn_leaf_inv h
  · rintro ⟨rfl, rfl, rfl, rfl⟩
    exact .here _ _ _ _

theorem mapsTo_set_iff {V : Type} {a b c : Nat} {slots : List (Slot V)} {j : Nat}
    (x : Slot V) (hj : j < slots.length) (k : Key) (v : V) :
    mapsTo (Slot.inode a b c (slots.set j x)) k v ↔
      ((∃ ko o, LeafIn x ko k v o) ∨
        ∃ i, i ≠ j ∧ ∃ ko o, LeafIn (nthSlot slots i) ko k v o) := by
  rw [mapsTo_inode_iff]
  constructor
  · rintro ⟨i, ko, o, hin⟩
    rcases (LeafIn_nthSlot_set x hj i ko k v o).mp hin with ⟨rfl, h2⟩ | ⟨hne, h2⟩
    · exact Or.inl ⟨ko, o, h2⟩
    · exact Or.inr ⟨i, hne, ko, o, h2⟩
  · rintro (⟨ko, o, h2⟩ | ⟨i, hne, ko, o, h2⟩)
    · exact ⟨j, ko, o, (LeafIn_nthSlot_set x hj j ko k v o).mpr (Or.inl ⟨rfl, h2⟩)⟩
    · exact ⟨i, ko, o, (LeafIn_nthSlot_set x hj i ko k v o).mpr (Or.inr ⟨hne, h2⟩)⟩

theorem mapsTo_split {V : Type} {a b c : Nat} {slots : List (Slot V)} {j : Nat}
    (hj : j < slots.length) (k : Key) (v : V) :
    mapsTo (Slot.inode a b c slots) k v ↔
      ((∃ ko o, LeafIn (nthSlot slots j) ko k v o) ∨
        ∃ i, i ≠ j ∧ ∃ ko o, LeafIn (nthSlot slots i) ko k v o) := by
  conv_lhs => rw [show slots = slots.set j (nthSlot slots j) from (set_nthSlot_self hj).symm]
  exact mapsTo_set_iff _ hj k v

/-- Reachability in a freshly created expansion node holding one leaf. -/
theorem LeafIn_fresh_child {V : Type} {other : LeafR V} {oslot : Nat}
    (hos : oslot < LEVEL_SIZE) (i ko : Nat) (k : Key) (v : V) (o : Nat) :
    LeafIn (nthSlot ((List.replicate LEVEL_SIZE (Slot.empty : Slot V)).set oslot
        other.toSlot) i) ko k v o ↔
      (i = oslot ∧ ko = other.keyOff ∧ k = other.key ∧ v = other.val ∧ o = other.off) := by
  rw [nthSlot_replicate_set other.toSlot hos i]
  by_cases h : i = oslot
  · rw [if_pos h, LeafIn_toSlot_leaf]
    exact ⟨fun h2 => ⟨h, h2⟩, fun h2 => h2.2⟩
  · rw [if_neg h]
    constructor
    · exact fun h2 => absurd h2 not_LeafIn_empty
    · rintro ⟨hc, _⟩
      exact absurd hc h

theorem nonEmptyB_inodeToSlot {V : Type} (n : INode V) : nonEmptyB n.toSlot = true := rfl

/-- `hashval_getleafslot` is the cache-free slot of the leaf's key. -/
theorem hashval_getleafslot_eq_slotAt {V : Type} (H : HashF) (lf : LeafR V)
    (level : Nat) : hashval_getleafslot H lf level = slotAt H lf.key level := rfl

theorem cntNE_fresh_child {V : Type} {x : Slot V} (hx : nonEmptyB x = true) {oslot : Nat}
    (hos : oslot < LEVEL_SIZE) :
    cntNE ((List.replicate LEVEL_SIZE (Slot.empty : Slot V)).set oslot x) = 1 := by
  have h := @cntNE_set V (List.replicate LEVEL_SIZE (Slot.empty : Slot V))
    oslot x (by simpa using hos)
  rw [nthSlot_replicate, cntNE_replicate] at h
  rw [hx] at h
  simp only [nonEmptyB] at h
  norm_num at h
  omega

theorem nonEmptyB_toSlot {V : Type} (lf : LeafR V) : nonEmptyB lf.toSlot = true := rfl

theorem WFs_fresh_child {V : Type} {H : HashF} {other : LeafR V} {l par off : Nat} :
    WFs H (l + 1) (Slot.inode 1 par off
      ((List.replicate LEVEL_SIZE (Slot.empty : Slot V)).set
        (slotAt H other.key (l + 1)) other.toSlot)) := by
  have hos : slotAt H other.key (l + 1) < LEVEL_SIZE :=
    slotAt_lt_level H other.key (by omega)
  refine .inodeW _ _ _ _ _ ?_ ?_ ?_ ?_ ?_
  · rw [List.length_set, List.length_replicate, fanout, if_neg (by omega)]
  · rw [cntNE_fresh_child (nonEmptyB_toSlot other) hos]
  · right
    rw [cntNE_fresh_child (nonEmptyB_toSlot other) hos]
    exact Nat.one_pos
  · intro i
    rw [nthSlot_replicate_set other.toSlot hos i]
    split
    · exact .leafW _ _ _ _ _
    · exact .empty _
  · intro i ko k v o hin
    obtain ⟨rfl, _, rfl, _, _⟩ := (LeafIn_fresh_child hos i ko k v o).mp hin
    rfl

/-- Reachability in an expansion node holding the relocated colliding leaf
and the freshly inserted one. -/
theorem LeafIn_child_two {V : Type} {H : HashF} {other lf : LeafR V} {l : Nat}
    (hne2 : slotAt H lf.key (l + 1) ≠ slotAt H other.key (l + 1))
    (i ko : Nat) (k : Key) (v : V) (o : Nat) :
    LeafIn (nthSlot (((List.replicate LEVEL_SIZE (Slot.empty : Slot V)).set
        (slotAt H other.key (l + 1)) other.toSlot).set
        (slotAt H lf.key (l + 1)) lf.toSlot) i) ko k v o ↔
      ((i = slotAt H lf.key (l + 1) ∧ ko = lf.keyOff ∧ k = lf.key ∧ v = lf.val ∧
          o = lf.off) ∨
        (i = slotAt H other.key (l + 1) ∧ ko = other.keyOff ∧ k = other.key ∧
          v = other.val ∧ o = other.off)) := by
  have hos : slotAt H other.key (l + 1) < LEVEL_SIZE :=
    slotAt_lt_level H other.key (by omega)
  have hlen2 : slotAt H lf.key (l + 1) <
      ((List.replicate LEVEL_SIZE (Slot.empty : Slot V)).set
        (slotAt H other.key (l + 1)) other.toSlot).length := by
    rw [List.length_set, List.length_replicate]
    exact slotAt_lt_level H lf.key (by omega)
  rw [LeafIn_nthSlot_set lf.toSlot hlen2 i ko k v o]
  rw [LeafIn_fresh_child hos i ko k v o, LeafIn_toSlot_leaf]
  constructor
  · rintro (⟨rfl, h2⟩ | ⟨hne3, h3⟩)
    · exact Or.inl ⟨rfl, h2⟩
    · exact Or.inr h3
  · rintro (⟨rfl, h2⟩ | ⟨rfl, h2⟩)
    · exact Or.inl ⟨rfl, h2⟩
    · exact Or.inr ⟨fun hc => hne2 hc.symm, rfl, h2⟩

theorem WFs_child_two {V : Type} {H : HashF} {other lf : LeafR V} {l par off : Nat}
    (hne2 : slotAt H lf.key (l + 1) ≠ slotAt H other.key (l + 1)) :
    WFs H (l + 1) (Slot.inode 2 par off
      (((List.replicate LEVEL_SIZE (Slot.empty : Slot V)).set
        (slotAt H other.key (l + 1)) other.toSlot).set
        (slotAt H lf.key (l + 1)) lf.toSlot)) := by
  have hos : slotAt H other.key (l + 1) < LEVEL_SIZE :=
    slotAt_lt_level H other.key (by omega)
  have hls : slotAt H lf.key (l + 1) < LEVEL_SIZE :=
    slotAt_lt_level H lf.key (by omega)
  have hlen2 : slotAt H lf.key (l + 1) <
      ((List.replicate LEVEL_SIZE (Slot.empty : Slot V)).set
        (slotAt H other.key (l + 1)) other.toSlot).length := by
    rw [List.length_set, List.length_replicate]; exact hls
  have hcnt2 : cntNE (((List.replicate LEVEL_SIZE (Slot.empty : Slot V)).set
      (slotAt H other.key (l + 1)) other.toSlot).set
      (slotAt H lf.key (l + 1)) lf.toSlot) = 2 := by
    have h := @cntNE_set V ((List.replicate LEVEL_SIZE (Slot.empty : Slot V)).set
      (slotAt H other.key (l + 1)) other.toSlot) _ lf.toSlot hlen2
    rw [cntNE_fresh_child (nonEmptyB_toSlot other) hos,
      nthSlot_replicate_set other.toSlot hos, if_neg hne2, nonEmptyB_toSlot] at h
    simp only [nonEmptyB] at h
    norm_num at h
    omega
  refine .inodeW _ _ _ _ _ ?_ ?_ ?_ ?_ ?_
  · rw [List.length_set, List.length_set, List.length_replicate, fanout, if_neg (by omega)]
  · rw [hcnt2]
  · right; rw [hcnt2]; omega
  · intro i
    rcases (Decidable.em (i = slotAt H lf.key (l + 1))) with h | h
    · subst h
      rw [nthSlot_set_self lf.toSlot hlen2]
      exact .leafW _ _ _ _ _
    · rw [nthSlot_set_ne lf.toSlot (fun hc => h hc.symm),
        nthSlot_replicate_set other.toSlot hos]
      split
      · exact .leafW _ _ _ _ _
      · exact .empty _
  · intro i ko k v o hin
    rcases (LeafIn_child_two hne2 i ko k v o).mp hin with ⟨rfl, _, rfl, _⟩ | ⟨rfl, _, rfl, _⟩
    · rfl
    · rfl

set_option maxHeartbeats 2000000 in
/-- The functional specification of the expansion loop of `thmap_put`
(`descend:`): under the invariant of a locked edge node whose target slot
holds a colliding leaf, a completed run returns `NULL` only on allocation
failure (leaving the entries unchanged), otherwise the given value, having
added exactly the binding `key ↦ val`; the node put back in place is
well-formed and occupies the same position. -/
theorem thmap_put_descend_spec {V : Type} {H : HashF} {key : Key} {val : V}
    {lf : LeafR V} :
    ∀ (fuel l : Nat) (m : Thmap V) (p : INode V) (slot : Nat) (q : Query)
      (other : LeafR V) (r : Option V) (p1 : INode V) (m1 : Thmap V) (evs : List Ev),
      WFs H l (Slot.inode (cntNE p.slots) p.par p.off p.slots) →
      p.st = lockSt (cntNE p.slots) →
      nthSlot p.slots slot = other.toSlot →
      slot = slotAt H key l →
      key ≠ other.key →
      lf.key = key → lf.val = val →
      QOK H key q → q.level = l →
      thmap_put_descend H key val lf fuel m p slot q other = some (r, p1, m1, evs) →
      (r = none ∨ r = some val) ∧
      p1.par = p.par ∧ p1.off = p.off ∧
      WFs H l p1.toSlot ∧
      p1.st = cntNE p1.slots ∧
      p1.slots.length = p.slots.length ∧
      (∀ k1 v1, mapsTo p1.toSlot k1 v1 ↔
        ((r.isSome = true ∧ k1 = key ∧ v1 = val) ∨ mapsTo p.toSlot k1 v1)) ∧
      (r.isSome = true → LeafIn p1.toSlot lf.keyOff key val lf.off) ∧
      m1.ops = m.ops ∧ m1.gcList = m.gcList ∧ m1.flags = m.flags ∧
      m1.baseptr = m.baseptr := by
  intro fuel
  induction fuel with
  | zero =>
    intro l m p slot q other r p1 m1 evs _ _ _ _ _ _ _ _ _ h
    exact absurd h (by simp [thmap_put_descend])
  | succ f ih =>
    intro l m p slot q other r p1 m1 evs hwf hpst hslot hsl hkne hlfk hlfv hq hql hrun
    have hcntlt : cntNE p.slots < 2 ^ 31 := by
      cases hwf with
      | inodeW _ _ _ _ _ hlen _ _ _ _ => exact cntNE_lt_two_pow_31 hlen
    have hslt : slot < p.slots.length := by
      cases hwf with
      | inodeW _ _ _ _ _ hlen _ _ _ _ =>
        rw [hlen, hsl]; exact slotAt_lt_fanout H key l
    have hoth : slotAt H other.key l = slot := by
      cases hwf with
      | inodeW _ _ _ _ _ _ _ _ _ hpl =>
        exact hpl slot other.keyOff other.key other.val other.off
          (by rw [hslot]; exact .here _ _ _ _)
    rw [thmap_put_descend] at hrun
    simp only [allocCall] at hrun
    by_cases hz : m.ops m.acnt THMAP_INODE_LEN = 0
    · rw [if_pos hz] at hrun
      simp only [leaf_free_call] at hrun
      have hrun2 :
          some ((none : Option V), (⟨unlockSt p.st, p.par, p.off, p.slots⟩ : INode V),
            { m with acnt := m.acnt + 1 },
            [Ev.alloc THMAP_INODE_LEN (m.ops m.acnt THMAP_INODE_LEN)] ++
              (if ({ m with acnt := m.acnt + 1 } : Thmap V).flags &&& THMAP_NOCOPY = 0 then
                [Ev.free lf.keyOff lf.key.length, Ev.free lf.off THMAP_LEAF_LEN]
              else [Ev.free lf.off THMAP_LEAF_LEN]) ++ [Ev.unlock p.off]) =
            some (r, p1, m1, evs) := by
        rw [← hrun]
        split <;> rfl
      simp only [Option.some_inj, Prod.mk.injEq] at hrun2
      obtain ⟨hr, hp1, hm1, _⟩ := hrun2
      subst hr hp1 hm1
      have hst1 : unlockSt p.st = cntNE p.slots := by rw [hpst, unlockSt_lockSt hcntlt]
      refine ⟨Or.inl rfl, rfl, rfl, ?_, ?_, rfl, ?_, by simp, rfl, rfl, rfl, rfl⟩
      · show WFs H l (Slot.inode (unlockSt p.st) p.par p.off p.slots)
        rw [hst1]
        exact hwf
      · exact hst1
      · intro k1 v1
        simp only [Option.isSome_none, Bool.false_eq_true, false_and, false_or]
        exact ⟨fun ⟨ko, o, h2⟩ => ⟨ko, o, by cases h2 with
            | deeper _ _ _ _ i _ _ _ _ h3 => exact .deeper _ _ _ _ i _ _ _ _ h3⟩,
          fun ⟨ko, o, h2⟩ => ⟨ko, o, by cases h2 with
            | deeper _ _ _ _ i _ _ _ _ h3 => exact .deeper _ _ _ _ i _ _ _ _ h3⟩⟩
    · obtain ⟨hlen, hne0, hch, hpl⟩ :
          p.slots.length = fanout l ∧ (l = 0 ∨ 0 < cntNE p.slots) ∧
            (∀ i, WFs H (l + 1) (nthSlot p.slots i)) ∧
            (∀ i ko k v o, LeafIn (nthSlot p.slots i) ko k v o → slotAt H k l = i) := by
        cases hwf with
        | inodeW _ _ _ _ _ a b c d e => exact ⟨a, c, d, e⟩
      have hos : slotAt H other.key (l + 1) < LEVEL_SIZE :=
        slotAt_lt_level H other.key (by omega)
      have hcnt1 : cntNE ((List.replicate LEVEL_SIZE (Slot.empty : Slot V)).set
          (slotAt H other.key (l + 1)) other.toSlot) = 1 :=
        cntNE_fresh_child (nonEmptyB_toSlot other) hos
      have hst1 : unlockSt p.st = cntNE p.slots := by rw [hpst, unlockSt_lockSt hcntlt]
      have hothmaps : ∀ (k1 : Key) (v1 : V),
          (∃ ko o, LeafIn other.toSlot ko k1 v1 o) ↔
            k1 = other.key ∧ v1 = other.val := by
        intro k1 v1
        constructor
        · rintro ⟨ko, o, h2⟩
          obtain ⟨_, h3, h4, _⟩ := LeafIn_toSlot_leaf.mp h2
          exact ⟨h3, h4⟩
        · rintro ⟨rfl, rfl⟩
          exact ⟨other.keyOff, other.off, LeafIn_toSlot_leaf.mpr ⟨rfl, rfl, rfl, rfl⟩⟩
      rw [if_neg hz, hashval_getslot_eq (QOK_setLevel hq (q.level + 1))] at hrun
      simp only [hashval_getleafslot_eq_slotAt, hql] at hrun
      by_cases hcol : slotAt H key (l + 1) = slotAt H other.key (l + 1)
      · rw [if_pos hcol] at hrun
        cases hrec : thmap_put_descend H key val lf f { m with acnt := m.acnt + 1 }
            (⟨(NODE_LOCKED + 1) % 2 ^ 32, p.off, m.ops m.acnt THMAP_INODE_LEN,
              (List.replicate LEVEL_SIZE Slot.empty).set (slotAt H other.key (l + 1))
                other.toSlot⟩ : INode V) (slotAt H key (l + 1)) (qFull H key (l + 1))
            other with
        | none =>
          rw [hrec] at hrun
          exact absurd hrun (by simp)
        | some tup =>
          obtain ⟨r2, child1, m2, evs2⟩ := tup
          rw [hrec] at hrun
          simp only [Option.some_inj, Prod.mk.injEq] at hrun
          obtain ⟨hr, hp1, hm1, hevs⟩ := hrun
          have hwfc : WFs H (l + 1) (Slot.inode
              (cntNE ((List.replicate LEVEL_SIZE (Slot.empty : Slot V)).set
                (slotAt H other.key (l + 1)) other.toSlot))
              p.off (m.ops m.acnt THMAP_INODE_LEN)
              ((List.replicate LEVEL_SIZE Slot.empty).set (slotAt H other.key (l + 1))
                other.toSlot)) := by
            rw [hcnt1]
            exact WFs_fresh_child
          have hpstc : ((NODE_LOCKED + 1) % 2 ^ 32 : Nat) =
              lockSt (cntNE ((List.replicate LEVEL_SIZE (Slot.empty : Slot V)).set
                (slotAt H other.key (l + 1)) other.toSlot)) := by
            rw [hcnt1]
            exact node_create_st
          have hslotc : nthSlot ((List.replicate LEVEL_SIZE (Slot.empty : Slot V)).set
              (slotAt H other.key (l + 1)) other.toSlot) (slotAt H key (l + 1)) =
              other.toSlot := by
            rw [nthSlot_replicate_set other.toSlot hos, if_pos hcol]
          obtain ⟨hr2, hpar2, hoff2, hwf2, hst2, hlen2, hmaps2, hlf2, hops2, hgc2,
              hflags2, hbase2⟩ :=
            ih (l + 1) { m with acnt := m.acnt + 1 }
              ⟨(NODE_LOCKED + 1) % 2 ^ 32, p.off, m.ops m.acnt THMAP_INODE_LEN,
                (List.replicate LEVEL_SIZE Slot.empty).set (slotAt H other.key (l + 1))
                  other.toSlot⟩
              (slotAt H key (l + 1)) (qFull H key (l + 1)) other r2 child1 m2 evs2
              hwfc hpstc hslotc rfl hkne hlfk hlfv (QOK_qFull H key (l + 1)) rfl hrec
          subst hr hp1 hm1
          have hcnt' : cntNE (p.slots.set slot child1.toSlot) = cntNE p.slots := by
            have h := cntNE_set child1.toSlot hslt
            rw [hslot, nonEmptyB_toSlot, nonEmptyB_inodeToSlot] at h
            norm_num at h
            omega
          have hfreshmaps : ∀ (k1 : Key) (v1 : V), mapsTo
              ((⟨(NODE_LOCKED + 1) % 2 ^ 32, p.off, m.ops m.acnt THMAP_INODE_LEN,
                (List.replicate LEVEL_SIZE Slot.empty).set (slotAt H other.key (l + 1))
                  other.toSlot⟩ : INode V)).toSlot k1 v1 ↔
              k1 = other.key ∧ v1 = other.val := by
            intro k1 v1
            show mapsTo (Slot.inode ((NODE_LOCKED + 1) % 2 ^ 32) p.off
              (m.ops m.acnt THMAP_INODE_LEN)
              ((List.replicate LEVEL_SIZE Slot.empty).set (slotAt H other.key (l + 1))
                other.toSlot)) k1 v1 ↔ k1 = other.key ∧ v1 = other.val
            rw [mapsTo_inode_iff]
            constructor
            · rintro ⟨i, ko, o, hin⟩
              obtain ⟨_, _, h3, h4, _⟩ := (LeafIn_fresh_child hos i ko k1 v1 o).mp hin
              exact ⟨h3, h4⟩
            · rintro ⟨rfl, rfl⟩
              exact ⟨slotAt H other.key (l + 1), other.keyOff, other.off,
                (LeafIn_fresh_child hos _ _ _ _ _).mpr ⟨rfl, rfl, rfl, rfl, rfl⟩⟩
          refine ⟨hr2, rfl, rfl, ?_, ?_, ?_, ?_, ?_, hops2, hgc2, hflags2, hbase2⟩
          · show WFs H l (Slot.inode (unlockSt p.st) p.par p.off
              (p.slots.set slot child1.toSlot))
            refine .inodeW _ _ _ _ _ ?_ ?_ ?_ ?_ ?_
            · rw [List.length_set]; exact hlen
            · rw [hst1, hcnt']
            · rcases hne0 with h0 | h0
              · exact Or.inl h0
              · exact Or.inr (by rw [hcnt']; exact h0)
            · intro i
              by_cases hi : i = slot
              · subst hi
                rw [nthSlot_set_self child1.toSlot hslt]
                exact hwf2
              · rw [nthSlot_set_ne child1.toSlot (fun hc => hi hc.symm)]
                exact hch i
            · intro i ko k v o hin
              rcases (LeafIn_nthSlot_set child1.toSlot hslt i ko k v o).mp hin with
                ⟨rfl, h2⟩ | ⟨hne3, h2⟩
              · rcases (hmaps2 k v).mp ⟨ko, o, h2⟩ with ⟨_, rfl, rfl⟩ | h3
                · exact hsl.symm
                · obtain ⟨rfl, _⟩ := (hfreshmaps k v).mp h3
                  exact hoth
              · exact hpl i ko k v o h2
          · show unlockSt p.st = cntNE (p.slots.set slot child1.toSlot)
            rw [hst1, hcnt']
          · rw [List.length_set]
          · intro k1 v1
            have hmp : mapsTo (Slot.inode (unlockSt p.st) p.par p.off
                (p.slots.set slot child1.toSlot)) k1 v1 ↔
                (mapsTo child1.toSlot k1 v1 ∨
                  ∃ i, i ≠ slot ∧ ∃ ko o, LeafIn (nthSlot p.slots i) ko k1 v1 o) :=
              mapsTo_set_iff child1.toSlot hslt k1 v1
            have hsp : mapsTo p.toSlot k1 v1 ↔
                ((k1 = other.key ∧ v1 = other.val) ∨
                  ∃ i, i ≠ slot ∧ ∃ ko o, LeafIn (nthSlot p.slots i) ko k1 v1 o) := by
              show mapsTo (Slot.inode p.st p.par p.off p.slots) k1 v1 ↔ _
              rw [mapsTo_split hslt k1 v1, hslot, hothmaps k1 v1]
            show mapsTo (Slot.inode (unlockSt p.st) p.par p.off
                (p.slots.set slot child1.toSlot)) k1 v1 ↔
              (r2.isSome = true ∧ k1 = key ∧ v1 = val) ∨ mapsTo p.toSlot k1 v1
            constructor
            · intro hmt
              rcases hmp.mp hmt with hc | hrest
              · rcases (hmaps2 k1 v1).mp hc with ⟨hs, rfl, rfl⟩ | hfr
                · exact Or.inl ⟨hs, rfl, rfl⟩
                · obtain ⟨rfl, rfl⟩ := (hfreshmaps k1 v1).mp hfr
                  exact Or.inr (hsp.mpr (Or.inl ⟨rfl, rfl⟩))
              · exact Or.inr (hsp.mpr (Or.inr hrest))
            · intro hmt
              rcases hmt with ⟨hs, rfl, rfl⟩ | hPold
              · exact hmp.mpr (Or.inl ((hmaps2 _ _).mpr (Or.inl ⟨hs, rfl, rfl⟩)))
              · rcases hsp.mp hPold with ⟨rfl, rfl⟩ | hrest
                · exact hmp.mpr (Or.inl ((hmaps2 _ _).mpr
                    (Or.inr ((hfreshmaps _ _).mpr ⟨rfl, rfl⟩))))
                · exact hmp.mpr (Or.inr hrest)
          · intro hsome
            have h2 := hlf2 hsome
            exact .deeper _ _ _ _ slot _ _ _ _
              (by rw [nthSlot_set_self child1.toSlot hslt]; exact h2)
      · rw [if_neg hcol] at hrun
        simp only [Option.some_inj, Prod.mk.injEq] at hrun
        obtain ⟨hr, hp1, hm1, hevs⟩ := hrun
        subst hr hp1 hm1
        have hkeq : slotAt H lf.key (l + 1) = slotAt H key (l + 1) := by rw [hlfk]
        have hne2 : slotAt H lf.key (l + 1) ≠ slotAt H other.key (l + 1) := by
          rw [hkeq]; exact hcol
        have hls : slotAt H key (l + 1) < LEVEL_SIZE :=
          slotAt_lt_level H key (by omega)
        have hlenF : slotAt H key (l + 1) <
            ((List.replicate LEVEL_SIZE (Slot.empty : Slot V)).set
              (slotAt H other.key (l + 1)) other.toSlot).length := by
          rw [List.length_set, List.length_replicate]; exact hls
        have hwff := @WFs_child_two V H other lf l p.off
          (m.ops m.acnt THMAP_INODE_LEN) hne2
        rw [hkeq] at hwff
        have hstF : unlockSt (((NODE_LOCKED + 1) % 2 ^ 32 + 1) % 2 ^ 32) = 2 :=
          node_create_insert_unlock
        have hcntF : cntNE (p.slots.set slot (Slot.inode
            (unlockSt (((NODE_LOCKED + 1) % 2 ^ 32 + 1) % 2 ^ 32)) p.off
            (m.ops m.acnt THMAP_INODE_LEN)
            (((List.replicate LEVEL_SIZE Slot.empty).set (slotAt H other.key (l + 1))
              other.toSlot).set (slotAt H key (l + 1)) lf.toSlot))) =
            cntNE p.slots := by
          have h := cntNE_set (Slot.inode
            (unlockSt (((NODE_LOCKED + 1) % 2 ^ 32 + 1) % 2 ^ 32)) p.off
            (m.ops m.acnt THMAP_INODE_LEN)
            (((List.replicate LEVEL_SIZE Slot.empty).set (slotAt H other.key (l + 1))
              other.toSlot).set (slotAt H key (l + 1)) lf.toSlot)) hslt
          rw [hslot, nonEmptyB_toSlot] at h
          simp only [nonEmptyB, eq_self_iff_true, if_true] at h
          omega
        have hinF : ∀ i ko k v o, LeafIn (nthSlot (((List.replicate LEVEL_SIZE
            (Slot.empty : Slot V)).set (slotAt H other.key (l + 1)) other.toSlot).set
            (slotAt H key (l + 1)) lf.toSlot) i) ko k v o ↔
            ((i = slotAt H key (l + 1) ∧ ko = lf.keyOff ∧ k = lf.key ∧ v = lf.val ∧
                o = lf.off) ∨
              (i = slotAt H other.key (l + 1) ∧ ko = other.keyOff ∧ k = other.key ∧
                v = other.val ∧ o = other.off)) := by
          intro i ko k v o
          have h := @LeafIn_child_two V H other lf l hne2 i ko k v o
          rwa [hkeq] at h
        have hmapsF : ∀ (k1 : Key) (v1 : V), mapsTo (Slot.inode
            (unlockSt (((NODE_LOCKED + 1) % 2 ^ 32 + 1) % 2 ^ 32)) p.off
            (m.ops m.acnt THMAP_INODE_LEN)
            (((List.replicate LEVEL_SIZE Slot.empty).set (slotAt H other.key (l + 1))
              other.toSlot).set (slotAt H key (l + 1)) lf.toSlot)) k1 v1 ↔
            ((k1 = key ∧ v1 = val) ∨ (k1 = other.key ∧ v1 = other.val)) := by
          intro k1 v1
          rw [mapsTo_inode_iff]
          constructor
          · rintro ⟨i, ko, o, hin⟩
            rcases (hinF i ko k1 v1 o).mp hin with ⟨_, _, h3, h4, _⟩ | ⟨_, _, h3, h4, _⟩
            · exact Or.inl ⟨h3.trans hlfk, h4.trans hlfv⟩
            · exact Or.inr ⟨h3, h4⟩
          · rintro (⟨rfl, rfl⟩ | ⟨rfl, rfl⟩)
            · exact ⟨_, lf.keyOff, lf.off,
                (hinF _ _ _ _ _).mpr (Or.inl ⟨rfl, rfl, hlfk.symm, hlfv.symm, rfl⟩)⟩
            · exact ⟨_, other.keyOff, other.off,
                (hinF _ _ _ _ _).mpr (Or.inr ⟨rfl, rfl, rfl, rfl, rfl⟩)⟩
        refine ⟨Or.inr rfl, rfl, rfl, ?_, ?_, ?_, ?_, ?_, rfl, rfl, rfl, rfl⟩
        · show WFs H l (Slot.inode (unlockSt p.st) p.par p.off _)
          refine .inodeW _ _ _ _ _ ?_ ?_ ?_ ?_ ?_
          · rw [List.length_set]; exact hlen
          · rw [hst1, hcntF]
          · rcases hne0 with h0 | h0
            · exact Or.inl h0
            · exact Or.inr (by rw [hcntF]; exact h0)
          · intro i
            by_cases hi : i = slot
            · subst hi
              rw [nthSlot_set_self _ hslt, ← hstF]
              rw [hstF]
              exact hwff
            · rw [nthSlot_set_ne _ (fun hc => hi hc.symm)]
              exact hch i
          · intro i ko k v o hin
            rcases (LeafIn_nthSlot_set _ hslt i ko k v o).mp hin with
              ⟨rfl, h2⟩ | ⟨hne3, h2⟩
            · obtain ⟨i2, hin2⟩ := LeafIn_inode_inv h2
              rcases (hinF i2 ko k v o).mp hin2 with ⟨_, _, h3, _, _⟩ | ⟨_, _, h3, _, _⟩
              · rw [h3, hlfk]; exact hsl.symm
              · rw [h3]; exact hoth
            · exact hpl i ko k v o h2
        · show unlockSt p.st = _
          rw [hst1, hcntF]
        · rw [List.length_set]
        · intro k1 v1
          have hmp : mapsTo (Slot.inode (unlockSt p.st) p.par p.off
              (p.slots.set slot (Slot.inode
                (unlockSt (((NODE_LOCKED + 1) % 2 ^ 32 + 1) % 2 ^ 32)) p.off
                (m.ops m.acnt THMAP_INODE_LEN)
                (((List.replicate LEVEL_SIZE Slot.empty).set
                  (slotAt H other.key (l + 1)) other.toSlot).set
                  (slotAt H key (l + 1)) lf.toSlot)))) k1 v1 ↔
              (mapsTo (Slot.inode
                (unlockSt (((NODE_LOCKED + 1) % 2 ^ 32 + 1) % 2 ^ 32)) p.off
                (m.ops m.acnt THMAP_INODE_LEN)
                (((List.replicate LEVEL_SIZE Slot.empty).set
                  (slotAt H other.key (l + 1)) other.toSlot).set
                  (slotAt H key (l + 1)) lf.toSlot)) k1 v1 ∨
                ∃ i, i ≠ slot ∧ ∃ ko o, LeafIn (nthSlot p.slots i) ko k1 v1 o) :=
            mapsTo_set_iff _ hslt k1 v1
          have hsp : mapsTo p.toSlot k1 v1 ↔
              ((k1 = other.key ∧ v1 = other.val) ∨
                ∃ i, i ≠ slot ∧ ∃ ko o, LeafIn (nthSlot p.slots i) ko k1 v1 o) := by
            show mapsTo (Slot.inode p.st p.par p.off p.slots) k1 v1 ↔ _
            rw [mapsTo_split hslt k1 v1, hslot, hothmaps k1 v1]
          show mapsTo (Slot.inode (unlockSt p.st) p.par p.off _) k1 v1 ↔
            ((some val : Option V).isSome = true ∧ k1 = key ∧ v1 = val) ∨
              mapsTo p.toSlot k1 v1
          constructor
          · intro hmt
            rcases hmp.mp hmt with hc | hrest
            · rcases (hmapsF k1 v1).mp hc with ⟨rfl, rfl⟩ | ⟨rfl, rfl⟩
              · exact Or.inl ⟨rfl, rfl, rfl⟩
              · exact Or.inr (hsp.mpr (Or.inl ⟨rfl, rfl⟩))
            · exact Or.inr (hsp.mpr (Or.inr hrest))
          · intro hmt
            rcases hmt with ⟨_, rfl, rfl⟩ | hPold
            · exact hmp.mpr (Or.inl ((hmapsF _ _).mpr (Or.inl ⟨rfl, rfl⟩)))
            · rcases hsp.mp hPold with ⟨rfl, rfl⟩ | hrest
              · exact hmp.mpr (Or.inl ((hmapsF _ _).mpr (Or.inr ⟨rfl, rfl⟩)))
              · exact hmp.mpr (Or.inr hrest)
        · intro _
          refine .deeper _ _ _ _ slot _ _ _ _ ?_
          rw [nthSlot_set_self _ hslt]
          refine .deeper _ _ _ _ (slotAt H key (l + 1)) _ _ _ _ ?_
          rw [nthSlot_set_self _ hlenF]
          exact LeafIn_toSlot_leaf.mpr ⟨rfl, hlfk.symm, hlfv.symm, rfl⟩

/-- `thmap_put` body on a key that is already present: the tree is left
exactly as it was, and the returned value is the pre-allocated leaf's
`val` — `val = leaf_free(thmap, leaf)` frees the pre-allocated leaf and
hands back its value, i.e. the caller's argument, not the stored one. -/
theorem thmap_put_go_present {V : Type} {H : HashF} {key : Key} {val : V}
    {lf : LeafR V} :
    ∀ (fuel l : Nat) (m : Thmap V) (n : INode V) (q : Query) (ko : Nat) (v0 : V)
      (o : Nat) (r : Option V) (n1 : INode V) (m1 : Thmap V) (evs : List Ev),
      WFs H l n.toSlot →
      QOK H key q → q.level = l →
      LeafIn n.toSlot ko key v0 o →
      thmap_put_go H key val lf fuel m n q = some (r, n1, m1, evs) →
      r = some lf.val ∧ n1 = n ∧
      m1.ops = m.ops ∧ m1.gcList = m.gcList ∧ m1.flags = m.flags ∧
      m1.baseptr = m.baseptr := by
  intro fuel
  induction fuel with
  | zero =>
    intro l m n q ko v0 o r n1 m1 evs _ _ _ _ h
    exact absurd h (by simp [thmap_put_go])
  | succ f ih =>
    intro l m n q ko v0 o r n1 m1 evs hwf hq hql hin hrun
    obtain ⟨i0, hin0⟩ := LeafIn_inode_inv hin
    have hcnt : n.st = cntNE n.slots ∧ n.slots.length = fanout l ∧
        (∀ i, WFs H (l + 1) (nthSlot n.slots i)) ∧
        (∀ i ko2 k v o2, LeafIn (nthSlot n.slots i) ko2 k v o2 → slotAt H k l = i) := by
      cases hwf with
      | inodeW _ _ _ _ _ a b c d e => exact ⟨b, a, d, e⟩
    obtain ⟨hst0, hlen, hch, hpl⟩ := hcnt
    have hi0 : i0 = slotAt H key l := (hpl i0 ko key v0 o hin0).symm
    subst hi0
    have hslt : slotAt H key l < n.slots.length := by
      rw [hlen]; exact slotAt_lt_fanout H key l
    have hcntlt : cntNE n.slots < 2 ^ 31 := cntNE_lt_two_pow_31 hlen
    rw [thmap_put_go, hashval_getslot_eq hq, hql] at hrun
    try simp only at hrun
    cases hx : nthSlot n.slots (slotAt H key l) with
    | empty => rw [hx] at hin0; exact absurd hin0 not_LeafIn_empty
    | leaf ko2 k2 v2 o2 =>
      rw [hx] at hin0 hrun
      obtain ⟨rfl, hk, rfl, rfl⟩ := LeafIn_leaf_inv hin0
      simp only [] at hrun
      rw [if_pos (key_cmp_p_iff.mpr hk)] at hrun
      simp only [leaf_free_call] at hrun
      have hrun2 : some ((some lf.val : Option V),
          (⟨unlockSt (lockSt n.st), n.par, n.off, n.slots⟩ : INode V), m,
          [Ev.lock n.off] ++
            (if m.flags &&& THMAP_NOCOPY = 0 then
              [Ev.free lf.keyOff lf.key.length, Ev.free lf.off THMAP_LEAF_LEN]
            else [Ev.free lf.off THMAP_LEAF_LEN]) ++ [Ev.unlock n.off]) =
          some (r, n1, m1, evs) := by
        rw [← hrun]
        split <;> rfl
      simp only [Option.some_inj, Prod.mk.injEq] at hrun2
      obtain ⟨hr, hn1, hm1, _⟩ := hrun2
      subst hr hm1
      refine ⟨rfl, ?_, rfl, rfl, rfl, rfl⟩
      rw [← hn1]
      have : unlockSt (lockSt n.st) = n.st := by
        rw [unlockSt_lockSt (by rw [hst0]; exact hcntlt)]
      rw [this]
    | inode st2 par2 off2 slots2 =>
      rw [hx] at hin0 hrun
      have hch2 := hch (slotAt H key l)
      rw [hx] at hch2
      simp only [] at hrun
      split at hrun
      · exact absurd hrun (by simp)
      next r2 child1 m2 evs2 heq =>
        simp only [Option.some_inj, Prod.mk.injEq] at hrun
        obtain ⟨hr, hn1, hm1, _⟩ := hrun
        obtain ⟨hr2, hc1, hops2, hgc2, hflags2, hbase2⟩ :=
          ih (l + 1) m ⟨st2, par2, off2, slots2⟩ _ ko v0 o r2 child1 m2 evs2 hch2
            (QOK_setLevel (QOK_qFull H key l) _) rfl hin0 heq
        subst hr hm1 hc1
        refine ⟨hr2, ?_, hops2, hgc2, hflags2, hbase2⟩
        rw [← hn1]
        show INode.mk n.st n.par n.off (n.slots.set (slotAt H key l)
          (Slot.inode st2 par2 off2 slots2)) = n
        rw [← hx, set_nthSlot_self hslt]

/-- Reachability ignores the bookkeeping fields of a node. -/
theorem mapsTo_st {V : Type} {a b c a2 b2 c2 : Nat} {slots : List (Slot V)} {k : Key}
    {v : V} : mapsTo (Slot.inode a b c slots) k v ↔ mapsTo (Slot.inode a2 b2 c2 slots) k v := by
  rw [mapsTo_inode_iff, mapsTo_inode_iff]

set_option maxHeartbeats 1000000 in
/-- `thmap_put` body on an absent key: a completed run either fails
allocation (`NULL`, entries unchanged) or inserts exactly `key ↦ val` and
returns the given value; the rebuilt node is well-formed in place. -/
theorem thmap_put_go_absent {V : Type} {H : HashF} {key : Key} {val : V}
    {lf : LeafR V} :
    ∀ (fuel l : Nat) (m : Thmap V) (n : INode V) (q : Query) (r : Option V)
      (n1 : INode V) (m1 : Thmap V) (evs : List Ev),
      WFs H l n.toSlot →
      (∀ v0, ¬ mapsTo n.toSlot key v0) →
      lf.key = key → lf.val = val →
      QOK H key q → q.level = l →
      thmap_put_go H key val lf fuel m n q = some (r, n1, m1, evs) →
      (r = none ∨ r = some val) ∧
      n1.par = n.par ∧ n1.off = n.off ∧
      WFs H l n1.toSlot ∧
      n1.slots.length = n.slots.length ∧
      (∀ k1 v1, mapsTo n1.toSlot k1 v1 ↔
        ((r.isSome = true ∧ k1 = key ∧ v1 = val) ∨ mapsTo n.toSlot k1 v1)) ∧
      (r.isSome = true → LeafIn n1.toSlot lf.keyOff key val lf.off) ∧
      m1.ops = m.ops ∧ m1.gcList = m.gcList ∧ m1.flags = m.flags ∧
      m1.baseptr = m.baseptr := by
  intro fuel
  induction fuel with
  | zero =>
    intro l m n q r n1 m1 evs _ _ _ _ _ _ h
    exact absurd h (by simp [thmap_put_go])
  | succ f ih =>
    intro l m n q r n1 m1 evs hwf habs hlfk hlfv hq hql hrun
    obtain ⟨hst0, hlen, hne0, hch, hpl⟩ : n.st = cntNE n.slots ∧
        n.slots.length = fanout l ∧ (l = 0 ∨ 0 < cntNE n.slots) ∧
        (∀ i, WFs H (l + 1) (nthSlot n.slots i)) ∧
        (∀ i ko2 k v o2, LeafIn (nthSlot n.slots i) ko2 k v o2 → slotAt H k l = i) := by
      cases hwf with
      | inodeW _ _ _ _ _ a b c d e => exact ⟨b, a, c, d, e⟩
    have hslt : slotAt H key l < n.slots.length := by
      rw [hlen]; exact slotAt_lt_fanout H key l
    have hcnt30 : cntNE n.slots < 2 ^ 30 := cntNE_lt_two_pow_30 hlen
    rw [thmap_put_go, hashval_getslot_eq hq, hql] at hrun
    try simp only at hrun
    cases hx : nthSlot n.slots (slotAt H key l) with
    | empty =>
      rw [hx] at hrun
      simp only [Option.some_inj, Prod.mk.injEq] at hrun
      obtain ⟨hr, hn1, hm1, _⟩ := hrun
      subst hr hm1
      have hcnt' : cntNE (n.slots.set (slotAt H key l) lf.toSlot) = cntNE n.slots + 1 := by
        have h := cntNE_set lf.toSlot hslt
        rw [hx, nonEmptyB_toSlot] at h
        simp only [nonEmptyB] at h
        norm_num at h
        omega
      have hstv : unlockSt ((lockSt n.st + 1) % 2 ^ 32) = cntNE n.slots + 1 := by
        rw [hst0, unlock_inc (by omega)]
      refine ⟨Or.inr rfl, ?_, ?_, ?_, ?_, ?_, ?_, rfl, rfl, rfl, rfl⟩
      · rw [← hn1]
      · rw [← hn1]
      · rw [← hn1]
        show WFs H l (Slot.inode (unlockSt ((lockSt n.st + 1) % 2 ^ 32)) n.par n.off
          (n.slots.set (slotAt H key l) lf.toSlot))
        refine .inodeW _ _ _ _ _ ?_ ?_ ?_ ?_ ?_
        · rw [List.length_set]; exact hlen
        · rw [hstv, hcnt']
        · exact Or.inr (by rw [hcnt']; omega)
        · intro i
          by_cases hi : i = slotAt H key l
          · subst hi
            rw [nthSlot_set_self lf.toSlot hslt]
            exact .leafW _ _ _ _ _
          · rw [nthSlot_set_ne lf.toSlot (fun hc => hi hc.symm)]
            exact hch i
        · intro i ko k v o hin
          rcases (LeafIn_nthSlot_set lf.toSlot hslt i ko k v o).mp hin with
            ⟨rfl, h2⟩ | ⟨hne3, h2⟩
          · obtain ⟨_, h3, _, _⟩ := LeafIn_leaf_inv h2
            rw [h3, hlfk]
          · exact hpl i ko k v o h2
      · rw [← hn1]
        show (n.slots.set (slotAt H key l) lf.toSlot).length = n.slots.length
        rw [List.length_set]
      · intro k1 v1
        rw [← hn1]
        have hmp : mapsTo (Slot.inode (unlockSt ((lockSt n.st + 1) % 2 ^ 32)) n.par n.off
            (n.slots.set (slotAt H key l) lf.toSlot)) k1 v1 ↔
            ((∃ ko o, LeafIn lf.toSlot ko k1 v1 o) ∨
              ∃ i, i ≠ slotAt H key l ∧ ∃ ko o, LeafIn (nthSlot n.slots i) ko k1 v1 o) :=
          mapsTo_set_iff lf.toSlot hslt k1 v1
        have hsp : mapsTo n.toSlot k1 v1 ↔
            ((∃ ko o, LeafIn (nthSlot n.slots (slotAt H key l)) ko k1 v1 o) ∨
              ∃ i, i ≠ slotAt H key l ∧ ∃ ko o, LeafIn (nthSlot n.slots i) ko k1 v1 o) := by
          show mapsTo (Slot.inode n.st n.par n.off n.slots) k1 v1 ↔ _
          exact mapsTo_split hslt k1 v1
        show mapsTo (Slot.inode (unlockSt ((lockSt n.st + 1) % 2 ^ 32)) n.par n.off
          (n.slots.set (slotAt H key l) lf.toSlot)) k1 v1 ↔ _
        rw [hmp, hsp, hx]
        constructor
        · rintro (⟨ko, o, h2⟩ | hrest)
          · obtain ⟨_, h3, h4, _⟩ := LeafIn_leaf_inv h2
            exact Or.inl ⟨rfl, h3.trans hlfk, h4.trans hlfv⟩
          · exact Or.inr (Or.inr hrest)
        · rintro (⟨_, rfl, rfl⟩ | (⟨ko, o, h2⟩ | hrest))
          · exact Or.inl ⟨lf.keyOff, lf.off,
              LeafIn_toSlot_leaf.mpr ⟨rfl, hlfk.symm, hlfv.symm, rfl⟩⟩
          · exact absurd h2 not_LeafIn_empty
          · exact Or.inr hrest
      · intro _
        rw [← hn1]
        refine .deeper _ _ _ _ (slotAt H key l) _ _ _ _ ?_
        rw [nthSlot_set_self lf.toSlot hslt]
        exact LeafIn_toSlot_leaf.mpr ⟨rfl, hlfk.symm, hlfv.symm, rfl⟩
    | leaf ko2 k2 v2 o2 =>
      rw [hx] at hrun
      simp only [] at hrun
      have hk : ¬ (key_cmp_p k2 key = true) := by
        intro hk2
        exact habs v2 ⟨ko2, o2, .deeper _ _ _ _ (slotAt H key l) _ _ _ _
          (by rw [hx, key_cmp_p_iff.mp hk2]; exact .here ko2 k2 v2 o2)⟩
      rw [if_neg hk] at hrun
      split at hrun
      · exact absurd hrun (by simp)
      next r2 n2 m2 evs2 heq =>
        simp only [Option.some_inj, Prod.mk.injEq] at hrun
        obtain ⟨hr, hn1, hm1, _⟩ := hrun
        subst hr hn1 hm1
        have hwfp : WFs H l (Slot.inode
            (cntNE (⟨lockSt n.st, n.par, n.off, n.slots⟩ : INode V).slots)
            n.par n.off n.slots) := by
          show WFs H l (Slot.inode (cntNE n.slots) n.par n.off n.slots)
          rw [← hst0]
          exact hwf
        obtain ⟨hr2, hpar2, hoff2, hwf2, hst2, hlen2, hmaps2, hlf2, hops2, hgc2,
            hflags2, hbase2⟩ :=
          thmap_put_descend_spec f l m ⟨lockSt n.st, n.par, n.off, n.slots⟩
            (slotAt H key l) (qFull H key l) ⟨ko2, k2, v2, o2⟩ r2 n2 m2 evs2
            hwfp (by show lockSt n.st = _; rw [hst0]) (by rw [hx]; rfl) rfl
            (fun hc => hk (key_cmp_p_iff.mpr hc)) hlfk hlfv (QOK_qFull H key l) rfl heq
        refine ⟨hr2, hpar2, hoff2, hwf2, ?_, ?_, hlf2, hops2, hgc2, hflags2, hbase2⟩
        · rw [hlen2]
        · intro k1 v1
          rw [hmaps2 k1 v1]
          constructor
          · rintro (h2 | h2)
            · exact Or.inl h2
            · exact Or.inr (by
                show mapsTo (Slot.inode n.st n.par n.off n.slots) k1 v1
                exact mapsTo_st.mp h2)
          · rintro (h2 | h2)
            · exact Or.inl h2
            · exact Or.inr (by
                show mapsTo (Slot.inode (lockSt n.st) n.par n.off n.slots) k1 v1
                exact mapsTo_st.mp h2)
    | inode st2 par2 off2 slots2 =>
      rw [hx] at hrun
      have hch2 := hch (slotAt H key l)
      rw [hx] at hch2
      have habs2 : ∀ v0, ¬ mapsTo (Slot.inode st2 par2 off2 slots2) key v0 := by
        intro v0 hmt
        obtain ⟨ko, o, hin⟩ := hmt
        exact habs v0 ⟨ko, o, .deeper _ _ _ _ (slotAt H key l) _ _ _ _
          (by rw [hx]; exact hin)⟩
      simp only [] at hrun
      split at hrun
      · exact absurd hrun (by simp)
      next r2 child1 m2 evs2 heq =>
        simp only [Option.some_inj, Prod.mk.injEq] at hrun
        obtain ⟨hr, hn1, hm1, _⟩ := hrun
        subst hr hm1
        obtain ⟨hr2, hpar2, hoff2, hwf2, hlen2, hmaps2, hlf2, hops2, hgc2,
            hflags2, hbase2⟩ :=
          ih (l + 1) m ⟨st2, par2, off2, slots2⟩ _ r2 child1 m2 evs2 hch2 habs2
            hlfk hlfv (QOK_setLevel (QOK_qFull H key l) _) rfl heq
        have hcnt' : cntNE (n.slots.set (slotAt H key l) child1.toSlot) =
            cntNE n.slots := by
          have h := cntNE_set child1.toSlot hslt
          rw [hx, nonEmptyB_inodeToSlot] at h
          simp only [nonEmptyB] at h
          norm_num at h
          omega
        have hstn : n.st = cntNE (n.slots.set (slotAt H key l) child1.toSlot) := by
          rw [hcnt', hst0]
        refine ⟨hr2, ?_, ?_, ?_, ?_, ?_, ?_, hops2, hgc2, hflags2, hbase2⟩
        · rw [← hn1]
        · rw [← hn1]
        · rw [← hn1]
          show WFs H l (Slot.inode n.st n.par n.off
            (n.slots.set (slotAt H key l) child1.toSlot))
          refine .inodeW _ _ _ _ _ ?_ ?_ ?_ ?_ ?_
          · rw [List.length_set]; exact hlen
          · exact hstn
          · rcases hne0 with h0 | h0
            · exact Or.inl h0
            · exact Or.inr (by rw [hcnt']; exact h0)
          · intro i
            by_cases hi : i = slotAt H key l
            · subst hi
              rw [nthSlot_set_self child1.toSlot hslt]
              exact hwf2
            · rw [nthSlot_set_ne child1.toSlot (fun hc => hi hc.symm)]
              exact hch i
          · intro i ko k v o hin
            rcases (LeafIn_nthSlot_set child1.toSlot hslt i ko k v o).mp hin with
              ⟨rfl, h2⟩ | ⟨hne3, h2⟩
            · rcases (hmaps2 k v).mp ⟨ko, o, h2⟩ with ⟨_, rfl, rfl⟩ | h3
              · rfl
              · obtain ⟨ko3, o3, hin3⟩ := mapsTo_st.mp h3
                exact hpl (slotAt H key l) ko3 k v o3 (by rw [hx]; exact hin3)
            · exact hpl i ko k v o h2
        · rw [← hn1]
          show (n.slots.set (slotAt H key l) child1.toSlot).length = n.slots.length
          rw [List.length_set]
        · intro k1 v1
          rw [← hn1]
          have hmp : mapsTo (Slot.inode n.st n.par n.off
              (n.slots.set (slotAt H key l) child1.toSlot)) k1 v1 ↔
              (mapsTo child1.toSlot k1 v1 ∨
                ∃ i, i ≠ slotAt H key l ∧ ∃ ko o, LeafIn (nthSlot n.slots i) ko k1 v1 o) :=
            mapsTo_set_iff child1.toSlot hslt k1 v1

          have hsp : mapsTo n.toSlot k1 v1 ↔
              ((∃ ko o, LeafIn (Slot.inode st2 par2 off2 slots2) ko k1 v1 o) ∨
                ∃ i, i ≠ slotAt H key l ∧ ∃ ko o, LeafIn (nthSlot n.slots i) ko k1 v1 o) := by
            show mapsTo (Slot.inode n.st n.par n.off n.slots) k1 v1 ↔ _
            rw [mapsTo_split hslt k1 v1, hx]
          show mapsTo (Slot.inode n.st n.par n.off
            (n.slots.set (slotAt H key l) child1.toSlot)) k1 v1 ↔ _
          constructor
          · intro hmt
            rcases hmp.mp hmt with hc | hrest
            · rcases (hmaps2 k1 v1).mp hc with ⟨hs, rfl, rfl⟩ | h3
              · exact Or.inl ⟨hs, rfl, rfl⟩
              · exact Or.inr (hsp.mpr (Or.inl (mapsTo_st.mp h3)))
            · exact Or.inr (hsp.mpr (Or.inr hrest))
          · intro hmt
            rcases hmt with ⟨hs, rfl, rfl⟩ | hPold
            · exact hmp.mpr (Or.inl ((hmaps2 _ _).mpr (Or.inl ⟨hs, rfl, rfl⟩)))
            · rcases hsp.mp hPold with h3 | hrest
              · exact hmp.mpr (Or.inl ((hmaps2 k1 v1).mpr
                  (Or.inr (mapsTo_st.mp h3))))
              · exact hmp.mpr (Or.inr hrest)
        · intro hsome
          rw [← hn1]
          refine .deeper _ _ _ _ (slotAt H key l) _ _ _ _ ?_
          rw [nthSlot_set_self child1.toSlot hslt]
          exact hlf2 hsome

theorem hashval_getslot_lt_level {H : HashF} (key : Key) {q : Query}
    (h : ¬ q.level = 0) : (hashval_getslot H q key).1 < LEVEL_SIZE := by
  rw [hashval_getslot]
  simp only [if_neg h, LEVEL_MASK, LEVEL_SIZE]
  exact Nat.lt_succ_of_le Nat.and_le_right

theorem bcopy_acnt {V : Type} (m : Thmap V) (a : Nat) :
    bcopy ({ m with acnt := a }) = bcopy m := rfl

/-- `leaf_free_call` frees exactly the blocks the pre-allocated leaf owns. -/
theorem leaf_free_call_pairs {V : Type} (m : Thmap V) (lf : LeafR V) :
    (↑(freePairs (leaf_free_call m lf).2) : Multiset (Nat × Nat)) =
      ownedS (bcopy m) lf.toSlot ∧ (leaf_free_call m lf).1 = m := by
  rw [leaf_free_call]
  by_cases hc : m.flags &&& THMAP_NOCOPY = 0
  · rw [if_pos hc]
    refine ⟨?_, rfl⟩
    show (↑(freePairs [Ev.free lf.keyOff lf.key.length, Ev.free lf.off THMAP_LEAF_LEN])
      : Multiset (Nat × Nat)) = ownedS (bcopy m) lf.toSlot
    rw [show bcopy m = true by simp [bcopy, hc]]
    show ((lf.keyOff, lf.key.length) ::ₘ (lf.off, THMAP_LEAF_LEN) ::ₘ 0) =
      {(lf.off, THMAP_LEAF_LEN), (lf.keyOff, lf.key.length)}
    exact Multiset.cons_swap _ _ _
  · rw [if_neg hc]
    refine ⟨?_, rfl⟩
    show (↑(freePairs [Ev.free lf.off THMAP_LEAF_LEN]) : Multiset (Nat × Nat)) =
      ownedS (bcopy m) lf.toSlot
    rw [show bcopy m = false by simp [bcopy, hc]]
    rfl

theorem ownedS_inodeToSlot {V : Type} (copy : Bool) (n : INode V) :
    ownedS copy n.toSlot = (n.off, THMAP_INODE_LEN) ::ₘ ownedL copy n.slots := rfl

/-- Conservation of allocator blocks along the expansion loop: the blocks
owned by the rebuilt node plus everything freed equal the blocks owned
before plus everything newly allocated plus the pre-allocated leaf. -/
theorem thmap_put_descend_conserve {V : Type} {H : HashF} {key : Key} {val : V}
    {lf : LeafR V} :
    ∀ (fuel : Nat) (m : Thmap V) (p : INode V) (slot : Nat) (q : Query)
      (other : LeafR V) (r : Option V) (p1 : INode V) (m1 : Thmap V) (evs : List Ev),
      slot < p.slots.length →
      nthSlot p.slots slot = other.toSlot →
      thmap_put_descend H key val lf fuel m p slot q other = some (r, p1, m1, evs) →
      p1.off = p.off ∧
      ownedL (bcopy m) p1.slots + ↑(freePairs evs) =
        ownedL (bcopy m) p.slots + ↑(allocSuccPairs evs) + ownedS (bcopy m) lf.toSlot := by
  intro fuel
  induction fuel with
  | zero =>
    intro m p slot q other r p1 m1 evs _ _ h
    exact absurd h (by simp [thmap_put_descend])
  | succ f ih =>
    intro m p slot q other r p1 m1 evs hslt hslot hrun
    rw [thmap_put_descend] at hrun
    simp only [allocCall] at hrun
    by_cases hz : m.ops m.acnt THMAP_INODE_LEN = 0
    · rw [if_pos hz, hz] at hrun
      obtain ⟨hfp, hsame⟩ :=
        leaf_free_call_pairs ({ m with acnt := m.acnt + 1 } : Thmap V) lf
      have hrun2 : some ((none : Option V),
          (⟨unlockSt p.st, p.par, p.off, p.slots⟩ : INode V),
          (leaf_free_call ({ m with acnt := m.acnt + 1 } : Thmap V) lf).1,
          [Ev.alloc THMAP_INODE_LEN 0] ++
            (leaf_free_call ({ m with acnt := m.acnt + 1 } : Thmap V) lf).2 ++
            [Ev.unlock p.off]) = some (r, p1, m1, evs) := hrun
      simp only [Option.some_inj, Prod.mk.injEq] at hrun2
      obtain ⟨_, hp1, _, hevs⟩ := hrun2
      subst hp1 hevs
      refine ⟨rfl, ?_⟩
      rw [freePairs_append, freePairs_append, allocSuccPairs_append,
        allocSuccPairs_append]
      show ownedL (bcopy m) p.slots +
          ↑(freePairs [Ev.alloc THMAP_INODE_LEN 0] ++
            freePairs (leaf_free_call ({ m with acnt := m.acnt + 1 } : Thmap V) lf).2 ++
            freePairs [Ev.unlock p.off]) = _
      rw [show freePairs [Ev.alloc THMAP_INODE_LEN 0] = [] from rfl,
        show freePairs [Ev.unlock p.off] = [] from rfl,
        show allocSuccPairs [Ev.alloc THMAP_INODE_LEN 0] = [] from rfl,
        show allocSuccPairs [Ev.unlock p.off] = [] from rfl]
      have hfp2 : (↑(freePairs
          (leaf_free_call ({ m with acnt := m.acnt + 1 } : Thmap V) lf).2) :
          Multiset (Nat × Nat)) = ownedS (bcopy m) lf.toSlot := by
        rw [hfp]; rfl
      have hap : allocSuccPairs
          (leaf_free_call ({ m with acnt := m.acnt + 1 } : Thmap V) lf).2 = [] := by
        rw [leaf_free_call]
        split <;> rfl
      rw [hap]
      simp only [List.nil_append, List.append_nil]
      rw [hfp2]
      abel
    · rw [if_neg hz] at hrun
      try simp only [] at hrun
      have hos : hashval_getleafslot H other
          (⟨q.level + 1, q.hashidx, q.hashval⟩ : Query).level < LEVEL_SIZE := by
        show hashval_getleafslot H other (q.level + 1) < LEVEL_SIZE
        rw [hashval_getleafslot_eq_slotAt]
        exact slotAt_lt_level H other.key (by omega)
      split at hrun
      next hcol =>
        split at hrun
        · exact absurd hrun (by simp)
        next r2 child1 m2 evs2 heq =>
          simp only [Option.some_inj, Prod.mk.injEq] at hrun
          obtain ⟨hr, hp1, hm1, hevs⟩ := hrun
          subst hp1 hevs
          have hb1 : (hashval_getslot H
              (⟨q.level + 1, q.hashidx, q.hashval⟩ : Query) key).1 <
              ((List.replicate LEVEL_SIZE (Slot.empty : Slot V)).set
                (hashval_getleafslot H other (q.level + 1)) other.toSlot).length := by
            rw [List.length_set, List.length_replicate]
            exact hashval_getslot_lt_level key (by show ¬ (q.level + 1 = 0); omega)
          have hb2 : nthSlot ((List.replicate LEVEL_SIZE (Slot.empty : Slot V)).set
              (hashval_getleafslot H other (q.level + 1)) other.toSlot)
              (hashval_getslot H (⟨q.level + 1, q.hashidx, q.hashval⟩ : Query) key).1 =
              other.toSlot := by
            rw [nthSlot_replicate_set other.toSlot (by exact hos), if_pos hcol]
          obtain ⟨hoff, hihE⟩ := ih ({ m with acnt := m.acnt + 1 } : Thmap V)
            ⟨(NODE_LOCKED + 1) % 2 ^ 32, p.off, m.ops m.acnt THMAP_INODE_LEN,
              (List.replicate LEVEL_SIZE (Slot.empty : Slot V)).set
                (hashval_getleafslot H other (q.level + 1)) other.toSlot⟩
            (hashval_getslot H (⟨q.level + 1, q.hashidx, q.hashval⟩ : Query) key).1
            (hashval_getslot H (⟨q.level + 1, q.hashidx, q.hashval⟩ : Query) key).2
            other r2 child1 m2 evs2 hb1 hb2 heq
          simp only [] at hoff
          rw [bcopy_acnt] at hihE
          simp only [] at hihE
          have hbase : ownedL (bcopy m)
              ((List.replicate LEVEL_SIZE (Slot.empty : Slot V)).set
                (hashval_getleafslot H other (q.level + 1)) other.toSlot) =
              ownedS (bcopy m) other.toSlot := by
            have h2 := @ownedL_set V (bcopy m)
              (List.replicate LEVEL_SIZE (Slot.empty : Slot V))
              (hashval_getleafslot H other (q.level + 1)) other.toSlot
              (by simpa using hos)
            rw [nthSlot_replicate, ownedL_replicate,
              show ownedS (bcopy m) (Slot.empty : Slot V) = 0 from rfl,
              add_zero, zero_add] at h2
            exact h2
          rw [hbase] at hihE
          have hset := @ownedL_set V (bcopy m) p.slots slot child1.toSlot hslt
          rw [hslot] at hset
          refine ⟨rfl, ?_⟩
          show ownedL (bcopy m) (p.slots.set slot child1.toSlot) + ↑(freePairs
              ([Ev.alloc THMAP_INODE_LEN (m.ops m.acnt THMAP_INODE_LEN)] ++
                [Ev.slotSet (m.ops m.acnt THMAP_INODE_LEN)
                    (hashval_getleafslot H other (q.level + 1)),
                  Ev.publish p.off slot, Ev.unlock p.off] ++ evs2)) =
            ownedL (bcopy m) p.slots + ↑(allocSuccPairs
              ([Ev.alloc THMAP_INODE_LEN (m.ops m.acnt THMAP_INODE_LEN)] ++
                [Ev.slotSet (m.ops m.acnt THMAP_INODE_LEN)
                    (hashval_getleafslot H other (q.level + 1)),
                  Ev.publish p.off slot, Ev.unlock p.off] ++ evs2)) +
            ownedS (bcopy m) lf.toSlot
          rw [freePairs_append, freePairs_append, allocSuccPairs_append,
            allocSuccPairs_append]
          have hA : allocSuccPairs
              [Ev.alloc THMAP_INODE_LEN (m.ops m.acnt THMAP_INODE_LEN)] =
              [(m.ops m.acnt THMAP_INODE_LEN, THMAP_INODE_LEN)] := by
            simp [allocSuccPairs, hz]
          rw [show freePairs
              [Ev.alloc THMAP_INODE_LEN (m.ops m.acnt THMAP_INODE_LEN)] = [] from rfl,
            show freePairs [Ev.slotSet (m.ops m.acnt THMAP_INODE_LEN)
                (hashval_getleafslot H other (q.level + 1)),
              Ev.publish p.off slot, Ev.unlock p.off] = [] from rfl,
            show allocSuccPairs [Ev.slotSet (m.ops m.acnt THMAP_INODE_LEN)
                (hashval_getleafslot H other (q.level + 1)),
              Ev.publish p.off slot, Ev.unlock p.off] = [] from rfl,
            hA]
          simp only [List.nil_append, List.append_nil]
          rw [show ((↑([(m.ops m.acnt THMAP_INODE_LEN, THMAP_INODE_LEN)] ++
              allocSuccPairs evs2)) : Multiset (Nat × Nat)) =
              (m.ops m.acnt THMAP_INODE_LEN, THMAP_INODE_LEN) ::ₘ
                ↑(allocSuccPairs evs2) from rfl]
          have h1 : ownedS (bcopy m) child1.toSlot =
              (m.ops m.acnt THMAP_INODE_LEN, THMAP_INODE_LEN) ::ₘ
                ownedL (bcopy m) child1.slots := by
            rw [ownedS_inodeToSlot, hoff]
          have hext : ownedL (bcopy m) (p.slots.set slot child1.toSlot) +
                ↑(freePairs evs2) + ownedS (bcopy m) other.toSlot =
              (ownedL (bcopy m) p.slots +
                ((m.ops m.acnt THMAP_INODE_LEN, THMAP_INODE_LEN) ::ₘ
                  ↑(allocSuccPairs evs2)) +
                ownedS (bcopy m) lf.toSlot) + ownedS (bcopy m) other.toSlot := by
            calc ownedL (bcopy m) (p.slots.set slot child1.toSlot) +
                  ↑(freePairs evs2) + ownedS (bcopy m) other.toSlot
                = (ownedL (bcopy m) (p.slots.set slot child1.toSlot) +
                    ownedS (bcopy m) other.toSlot) + ↑(freePairs evs2) := by abel
              _ = (ownedL (bcopy m) p.slots + ownedS (bcopy m) child1.toSlot) +
                    ↑(freePairs evs2) := by rw [hset]
              _ = ownedL (bcopy m) p.slots +
                    ((m.ops m.acnt THMAP_INODE_LEN, THMAP_INODE_LEN) ::ₘ
                      (ownedL (bcopy m) child1.slots + ↑(freePairs evs2))) := by
                  rw [h1, add_assoc, Multiset.cons_add]
              _ = ownedL (bcopy m) p.slots +
                    ((m.ops m.acnt THMAP_INODE_LEN, THMAP_INODE_LEN) ::ₘ
                      (ownedS (bcopy m) other.toSlot + ↑(allocSuccPairs evs2) +
                        ownedS (bcopy m) lf.toSlot)) := by rw [hihE]
              _ = _ := by
                  rw [← Multiset.singleton_add, ← Multiset.singleton_add]
                  abel
          exact add_right_cancel hext
      next hcol =>
        simp only [Option.some_inj, Prod.mk.injEq] at hrun
        obtain ⟨hr, hp1, hm1, hevs⟩ := hrun
        subst hp1 hevs
        have hb1 : (hashval_getslot H
            (⟨q.level + 1, q.hashidx, q.hashval⟩ : Query) key).1 <
            ((List.replicate LEVEL_SIZE (Slot.empty : Slot V)).set
              (hashval_getleafslot H other (q.level + 1)) other.toSlot).length := by
          rw [List.length_set, List.length_replicate]
          exact hashval_getslot_lt_level key (by show ¬ (q.level + 1 = 0); omega)
        have hbase : ownedL (bcopy m)
            ((List.replicate LEVEL_SIZE (Slot.empty : Slot V)).set
              (hashval_getleafslot H other (q.level + 1)) other.toSlot) =
            ownedS (bcopy m) other.toSlot := by
          have h2 := @ownedL_set V (bcopy m)
            (List.replicate LEVEL_SIZE (Slot.empty : Slot V))
            (hashval_getleafslot H other (q.level + 1)) other.toSlot
            (by simpa using hos)
          rw [nthSlot_replicate, ownedL_replicate,
            show ownedS (bcopy m) (Slot.empty : Slot V) = 0 from rfl,
            add_zero, zero_add] at h2
          exact h2
        have h3 := @ownedL_set V (bcopy m)
          ((List.replicate LEVEL_SIZE (Slot.empty : Slot V)).set
            (hashval_getleafslot H other (q.level + 1)) other.toSlot)
          (hashval_getslot H (⟨q.level + 1, q.hashidx, q.hashval⟩ : Query) key).1
          lf.toSlot hb1
        rw [nthSlot_replicate_set other.toSlot (by exact hos), if_neg hcol] at h3
        have hinner : ownedL (bcopy m)
            (((List.replicate LEVEL_SIZE (Slot.empty : Slot V)).set
              (hashval_getleafslot H other (q.level + 1)) other.toSlot).set
              (hashval_getslot H (⟨q.level + 1, q.hashidx, q.hashval⟩ : Query) key).1
              lf.toSlot) =
            ownedS (bcopy m) other.toSlot + ownedS (bcopy m) lf.toSlot := by
          rw [hbase, show ownedS (bcopy m) (Slot.empty : Slot V) = 0 from rfl,
            add_zero] at h3
          exact h3
        have hset := @ownedL_set V (bcopy m) p.slots slot
          (Slot.inode (unlockSt (((NODE_LOCKED + 1) % 2 ^ 32 + 1) % 2 ^ 32)) p.off
            (m.ops m.acnt THMAP_INODE_LEN)
            (((List.replicate LEVEL_SIZE (Slot.empty : Slot V)).set
              (hashval_getleafslot H other (q.level + 1)) other.toSlot).set
              (hashval_getslot H (⟨q.level + 1, q.hashidx, q.hashval⟩ : Query) key).1
              lf.toSlot)) hslt
        rw [hslot] at hset
        refine ⟨rfl, ?_⟩
        show ownedL (bcopy m) (p.slots.set slot
            (Slot.inode (unlockSt (((NODE_LOCKED + 1) % 2 ^ 32 + 1) % 2 ^ 32)) p.off
              (m.ops m.acnt THMAP_INODE_LEN)
              (((List.replicate LEVEL_SIZE (Slot.empty : Slot V)).set
                (hashval_getleafslot H other (q.level + 1)) other.toSlot).set
                (hashval_getslot H
                  (⟨q.level + 1, q.hashidx, q.hashval⟩ : Query) key).1
                lf.toSlot))) + ↑(freePairs
            ([Ev.alloc THMAP_INODE_LEN (m.ops m.acnt THMAP_INODE_LEN)] ++
              [Ev.slotSet (m.ops m.acnt THMAP_INODE_LEN)
                  (hashval_getleafslot H other (q.level + 1)),
                Ev.publish p.off slot, Ev.unlock p.off] ++
              [Ev.slotSet (m.ops m.acnt THMAP_INODE_LEN)
                  (hashval_getslot H
                    (⟨q.level + 1, q.hashidx, q.hashval⟩ : Query) key).1,
                Ev.unlock (m.ops m.acnt THMAP_INODE_LEN)])) =
          ownedL (bcopy m) p.slots + ↑(allocSuccPairs
            ([Ev.alloc THMAP_INODE_LEN (m.ops m.acnt THMAP_INODE_LEN)] ++
              [Ev.slotSet (m.ops m.acnt THMAP_INODE_LEN)
                  (hashval_getleafslot H other (q.level + 1)),
                Ev.publish p.off slot, Ev.unlock p.off] ++
              [Ev.slotSet (m.ops m.acnt THMAP_INODE_LEN)
                  (hashval_getslot H
                    (⟨q.level + 1, q.hashidx, q.hashval⟩ : Query) key).1,
                Ev.unlock (m.ops m.acnt THMAP_INODE_LEN)])) +
          ownedS (bcopy m) lf.toSlot
        rw [freePairs_append, freePairs_append, allocSuccPairs_append,
          allocSuccPairs_append]
        have hA : allocSuccPairs
            [Ev.alloc THMAP_INODE_LEN (m.ops m.acnt THMAP_INODE_LEN)] =
            [(m.ops m.acnt THMAP_INODE_LEN, THMAP_INODE_LEN)] := by
          simp [allocSuccPairs, hz]
        rw [show freePairs
            [Ev.alloc THMAP_INODE_LEN (m.ops m.acnt THMAP_INODE_LEN)] = [] from rfl,
          show freePairs [Ev.slotSet (m.ops m.acnt THMAP_INODE_LEN)
              (hashval_getleafslot H other (q.level + 1)),
            Ev.publish p.off slot, Ev.unlock p.off] = [] from rfl,
          show freePairs [Ev.slotSet (m.ops m.acnt THMAP_INODE_LEN)
              (hashval_getslot H
                (⟨q.level + 1, q.hashidx, q.hashval⟩ : Query) key).1,
            Ev.unlock (m.ops m.acnt THMAP_INODE_LEN)] = [] from rfl,
          show allocSuccPairs [Ev.slotSet (m.ops m.acnt THMAP_INODE_LEN)
              (hashval_getleafslot H other (q.level + 1)),
            Ev.publish p.off slot, Ev.unlock p.off] = [] from rfl,
          show allocSuccPairs [Ev.slotSet (m.ops m.acnt THMAP_INODE_LEN)
              (hashval_getslot H
                (⟨q.level + 1, q.hashidx, q.hashval⟩ : Query) key).1,
            Ev.unlock (m.ops m.acnt THMAP_INODE_LEN)] = [] from rfl,
          hA]
        simp only [List.nil_append, List.append_nil]
        have hchild : ownedS (bcopy m)
            (Slot.inode (unlockSt (((NODE_LOCKED + 1) % 2 ^ 32 + 1) % 2 ^ 32)) p.off
              (m.ops m.acnt THMAP_INODE_LEN)
              (((List.replicate LEVEL_SIZE (Slot.empty : Slot V)).set
                (hashval_getleafslot H other (q.level + 1)) other.toSlot).set
                (hashval_getslot H
                  (⟨q.level + 1, q.hashidx, q.hashval⟩ : Query) key).1
                lf.toSlot)) =
            (m.ops m.acnt THMAP_INODE_LEN, THMAP_INODE_LEN) ::ₘ
              (ownedS (bcopy m) other.toSlot + ownedS (bcopy m) lf.toSlot) := by
          rw [ownedS, hinner]
        have hext2 : ownedL (bcopy m) (p.slots.set slot
              (Slot.inode (unlockSt (((NODE_LOCKED + 1) % 2 ^ 32 + 1) % 2 ^ 32)) p.off
                (m.ops m.acnt THMAP_INODE_LEN)
                (((List.replicate LEVEL_SIZE (Slot.empty : Slot V)).set
                  (hashval_getleafslot H other (q.level + 1)) other.toSlot).set
                  (hashval_getslot H
                    (⟨q.level + 1, q.hashidx, q.hashval⟩ : Query) key).1
                  lf.toSlot))) +
              ↑(freePairs ([] : List Ev)) + ownedS (bcopy m) other.toSlot =
            (ownedL (bcopy m) p.slots +
              ↑([(m.ops m.acnt THMAP_INODE_LEN, THMAP_INODE_LEN)] :
                List (Nat × Nat)) +
              ownedS (bcopy m) lf.toSlot) + ownedS (bcopy m) other.toSlot := by
          calc ownedL (bcopy m) (p.slots.set slot
                (Slot.inode (unlockSt (((NODE_LOCKED + 1) % 2 ^ 32 + 1) % 2 ^ 32)) p.off
                  (m.ops m.acnt THMAP_INODE_LEN)
                  (((List.replicate LEVEL_SIZE (Slot.empty : Slot V)).set
                    (hashval_getleafslot H other (q.level + 1)) other.toSlot).set
                    (hashval_getslot H
                      (⟨q.level + 1, q.hashidx, q.hashval⟩ : Query) key).1
                    lf.toSlot))) +
                ↑(freePairs ([] : List Ev)) + ownedS (bcopy m) other.toSlot
              = ownedL (bcopy m) p.slots +
                  ((m.ops m.acnt THMAP_INODE_LEN, THMAP_INODE_LEN) ::ₘ
                    (ownedS (bcopy m) other.toSlot + ownedS (bcopy m) lf.toSlot)) := by
                rw [show (↑(freePairs ([] : List Ev)) : Multiset (Nat × Nat)) = 0
                  from rfl, add_zero, ← hchild, hset]
            _ = _ := by
                rw [← Multiset.singleton_add,
                  show (↑([(m.ops m.acnt THMAP_INODE_LEN, THMAP_INODE_LEN)] :
                    List (Nat × Nat)) : Multiset (Nat × Nat)) =
                    {(m.ops m.acnt THMAP_INODE_LEN, THMAP_INODE_LEN)} from rfl]
                abel
        exact add_right_cancel hext2

set_option maxHeartbeats 1000000 in
/-- Conservation of allocator blocks for the whole `thmap_put` body: the
blocks owned by the rebuilt subtree plus everything freed equal the blocks
owned before plus everything newly allocated plus the pre-allocated leaf
(which is either installed, freed on duplicate, or freed on failure). -/
theorem thmap_put_go_conserve {V : Type} {H : HashF} {key : Key} {val : V}
    {lf : LeafR V} :
    ∀ (fuel l : Nat) (m : Thmap V) (n : INode V) (q : Query) (r : Option V)
      (n1 : INode V) (m1 : Thmap V) (evs : List Ev),
      WFs H l n.toSlot →
      QOK H key q → q.level = l →
      thmap_put_go H key val lf fuel m n q = some (r, n1, m1, evs) →
      n1.off = n.off ∧
      ownedL (bcopy m) n1.slots + ↑(freePairs evs) =
        ownedL (bcopy m) n.slots + ↑(allocSuccPairs evs) +
          ownedS (bcopy m) lf.toSlot := by
  intro fuel
  induction fuel with
  | zero =>
    intro l m n q r n1 m1 evs _ _ _ h
    exact absurd h (by simp [thmap_put_go])
  | succ f ih =>
    intro l m n q r n1 m1 evs hwf hq hql hrun
    obtain ⟨hst0, hlen, hch⟩ : n.st = cntNE n.slots ∧
        n.slots.length = fanout l ∧
        (∀ i, WFs H (l + 1) (nthSlot n.slots i)) := by
      cases hwf with
      | inodeW _ _ _ _ _ a b c d e => exact ⟨b, a, d⟩
    have hslt : slotAt H key l < n.slots.length := by
      rw [hlen]; exact slotAt_lt_fanout H key l
    rw [thmap_put_go, hashval_getslot_eq hq, hql] at hrun
    try simp only at hrun
    cases hx : nthSlot n.slots (slotAt H key l) with
    | empty =>
      rw [hx] at hrun
      simp only [Option.some_inj, Prod.mk.injEq] at hrun
      obtain ⟨hr, hn1, hm1, hevs⟩ := hrun
      subst hn1 hevs
      refine ⟨rfl, ?_⟩
      have hset := @ownedL_set V (bcopy m) n.slots (slotAt H key l) lf.toSlot hslt
      rw [hx, show ownedS (bcopy m) (Slot.empty : Slot V) = 0 from rfl,
        add_zero] at hset
      show ownedL (bcopy m) (n.slots.set (slotAt H key l) lf.toSlot) +
          ↑(freePairs [Ev.lock n.off, Ev.slotSet n.off (slotAt H key l),
            Ev.unlock n.off]) =
        ownedL (bcopy m) n.slots +
          ↑(allocSuccPairs [Ev.lock n.off, Ev.slotSet n.off (slotAt H key l),
            Ev.unlock n.off]) + ownedS (bcopy m) lf.toSlot
      rw [show freePairs [Ev.lock n.off, Ev.slotSet n.off (slotAt H key l),
            Ev.unlock n.off] = [] from rfl,
        show allocSuccPairs [Ev.lock n.off, Ev.slotSet n.off (slotAt H key l),
            Ev.unlock n.off] = [] from rfl,
        show ((↑([] : List (Nat × Nat))) : Multiset (Nat × Nat)) = 0 from rfl,
        add_zero, add_zero, hset]
    | leaf ko2 k2 v2 lo2 =>
      rw [hx] at hrun
      simp only [] at hrun
      by_cases hk : key_cmp_p k2 key
      · rw [if_pos hk] at hrun
        simp only [leaf_free_call] at hrun
        obtain ⟨hfp, -⟩ := leaf_free_call_pairs m lf
        have hrun2 : some ((some lf.val : Option V),
            (⟨unlockSt (lockSt n.st), n.par, n.off, n.slots⟩ : INode V), m,
            [Ev.lock n.off] ++
              (if m.flags &&& THMAP_NOCOPY = 0 then
                [Ev.free lf.keyOff lf.key.length, Ev.free lf.off THMAP_LEAF_LEN]
              else [Ev.free lf.off THMAP_LEAF_LEN]) ++ [Ev.unlock n.off]) =
            some (r, n1, m1, evs) := by
          rw [← hrun]
          split <;> rfl
        simp only [Option.some_inj, Prod.mk.injEq] at hrun2
        obtain ⟨hr, hn1, hm1, hevs⟩ := hrun2
        subst hn1 hevs
        refine ⟨rfl, ?_⟩
        rw [freePairs_append, freePairs_append, allocSuccPairs_append,
          allocSuccPairs_append,
          show freePairs [Ev.lock n.off] = [] from rfl,
          show freePairs [Ev.unlock n.off] = [] from rfl,
          show allocSuccPairs [Ev.lock n.off] = [] from rfl,
          show allocSuccPairs [Ev.unlock n.off] = [] from rfl]
        have hasn : allocSuccPairs
            (if m.flags &&& THMAP_NOCOPY = 0 then
              [Ev.free lf.keyOff lf.key.length, Ev.free lf.off THMAP_LEAF_LEN]
            else [Ev.free lf.off THMAP_LEAF_LEN]) = [] := by
          split <;> rfl
        rw [hasn]
        simp only [List.nil_append, List.append_nil]
        have hfp2 : (↑(freePairs
            (if m.flags &&& THMAP_NOCOPY = 0 then
              [Ev.free lf.keyOff lf.key.length, Ev.free lf.off THMAP_LEAF_LEN]
            else [Ev.free lf.off THMAP_LEAF_LEN])) : Multiset (Nat × Nat)) =
            ownedS (bcopy m) lf.toSlot := by
          rw [← hfp]
          simp only [leaf_free_call]
          split <;> rfl
        show ownedL (bcopy m) n.slots + ↑(freePairs
            (if m.flags &&& THMAP_NOCOPY = 0 then
              [Ev.free lf.keyOff lf.key.length, Ev.free lf.off THMAP_LEAF_LEN]
            else [Ev.free lf.off THMAP_LEAF_LEN])) =
          ownedL (bcopy m) n.slots + ↑([] : List (Nat × Nat)) +
            ownedS (bcopy m) lf.toSlot
        rw [hfp2, show ((↑([] : List (Nat × Nat))) : Multiset (Nat × Nat)) = 0
          from rfl, add_zero]
      · rw [if_neg hk] at hrun
        split at hrun
        · exact absurd hrun (by simp)
        next r2 n2 m2 evs2 heq =>
          simp only [Option.some_inj, Prod.mk.injEq] at hrun
          obtain ⟨hr, hn1, hm1, hevs⟩ := hrun
          subst hn1 hevs
          obtain ⟨hoff, hE⟩ := thmap_put_descend_conserve f m
            ⟨lockSt n.st, n.par, n.off, n.slots⟩ (slotAt H key l) (qFull H key l)
            ⟨ko2, k2, v2, lo2⟩ r2 n2 m2 evs2 hslt (by rw [hx]; rfl) heq
          refine ⟨hoff, ?_⟩
          rw [show freePairs (Ev.lock n.off :: evs2) = freePairs evs2 from rfl,
            show allocSuccPairs (Ev.lock n.off :: evs2) = allocSuccPairs evs2
              from rfl]
          exact hE
    | inode st2 par2 off2 slots2 =>
      rw [hx] at hrun
      have hch2 := hch (slotAt H key l)
      rw [hx] at hch2
      simp only [] at hrun
      split at hrun
      · exact absurd hrun (by simp)
      next r2 child1 m2 evs2 heq =>
        simp only [Option.some_inj, Prod.mk.injEq] at hrun
        obtain ⟨hr, hn1, hm1, hevs⟩ := hrun
        subst hn1 hevs
        obtain ⟨hoff, hE⟩ :=
          ih (l + 1) m ⟨st2, par2, off2, slots2⟩ _ r2 child1 m2 evs2 hch2
            (QOK_setLevel (QOK_qFull H key l) _) rfl heq
        simp only [] at hoff hE
        refine ⟨rfl, ?_⟩
        have hset := @ownedL_set V (bcopy m) n.slots (slotAt H key l)
          child1.toSlot hslt
        rw [hx] at hset
        show ownedL (bcopy m) (n.slots.set (slotAt H key l) child1.toSlot) +
            ↑(freePairs evs2) =
          ownedL (bcopy m) n.slots + ↑(allocSuccPairs evs2) +
            ownedS (bcopy m) lf.toSlot
        have hext : ownedL (bcopy m) (n.slots.set (slotAt H key l) child1.toSlot) +
              ↑(freePairs evs2) +
              ownedS (bcopy m) (Slot.inode st2 par2 off2 slots2) =
            (ownedL (bcopy m) n.slots + ↑(allocSuccPairs evs2) +
              ownedS (bcopy m) lf.toSlot) +
              ownedS (bcopy m) (Slot.inode st2 par2 off2 slots2) := by
          have h1 : ownedS (bcopy m) child1.toSlot =
              (off2, THMAP_INODE_LEN) ::ₘ ownedL (bcopy m) child1.slots := by
            rw [ownedS_inodeToSlot, hoff]
          calc ownedL (bcopy m) (n.slots.set (slotAt H key l) child1.toSlot) +
                ↑(freePairs evs2) +
                ownedS (bcopy m) (Slot.inode st2 par2 off2 slots2)
              = (ownedL (bcopy m) (n.slots.set (slotAt H key l) child1.toSlot) +
                  ownedS (bcopy m) (Slot.inode st2 par2 off2 slots2)) +
                  ↑(freePairs evs2) := by abel
            _ = (ownedL (bcopy m) n.slots + ownedS (bcopy m) child1.toSlot) +
                  ↑(freePairs evs2) := by rw [hset]
            _ = ownedL (bcopy m) n.slots + ((off2, THMAP_INODE_LEN) ::ₘ
                  (ownedL (bcopy m) child1.slots + ↑(freePairs evs2))) := by
                rw [h1, add_assoc, Multiset.cons_add]
            _ = ownedL (bcopy m) n.slots + ((off2, THMAP_INODE_LEN) ::ₘ
                  (ownedL (bcopy m) slots2 + ↑(allocSuccPairs evs2) +
                    ownedS (bcopy m) lf.toSlot)) := by rw [hE]
            _ = _ := by
                rw [show ownedS (bcopy m) (Slot.inode st2 par2 off2 slots2) =
                    (off2, THMAP_INODE_LEN) ::ₘ ownedL (bcopy m) slots2 from rfl,
                  ← Multiset.singleton_add, ← Multiset.singleton_add]
                abel
        exact add_right_cancel hext

/-- A successful leaf pre-allocation: nothing freed, the successful
allocations are exactly the blocks the leaf owns, all other map fields
untouched. -/
theorem leaf_create_some_pairs {V : Type} {m : Thmap V} {keyAddr : Nat}
    {key : Key} {val : V} {lf : LeafR V} {m2 : Thmap V} {evs0 : List Ev}
    (h : leaf_create m keyAddr key val = (some lf, m2, evs0)) :
    freePairs evs0 = [] ∧
    (↑(allocSuccPairs evs0) : Multiset (Nat × Nat)) =
      ownedS (bcopy m) lf.toSlot ∧
    m2.root = m.root ∧ m2.flags = m.flags ∧ m2.ops = m.ops ∧
    m2.gcList = m.gcList ∧ m2.baseptr = m.baseptr ∧
    lf.key = key ∧ lf.val = val := by
  rw [leaf_create] at h
  simp only [allocCall] at h
  by_cases h1 : m.ops m.acnt THMAP_LEAF_LEN = 0
  · rw [if_pos h1] at h
    simp only [Prod.mk.injEq] at h
    exact absurd h.1 (by simp)
  · rw [if_neg h1] at h
    by_cases h2 : m.flags &&& THMAP_NOCOPY = 0
    · rw [if_pos h2] at h
      by_cases h3 : m.ops (m.acnt + 1) key.length = 0
      · rw [if_pos h3] at h
        simp only [Prod.mk.injEq] at h
        exact absurd h.1 (by simp)
      · rw [if_neg h3] at h
        simp only [Prod.mk.injEq, Option.some_inj] at h
        obtain ⟨hlf, hm2, hevs0⟩ := h
        subst hlf hm2 hevs0
        refine ⟨rfl, ?_, rfl, rfl, rfl, rfl, rfl, rfl, rfl⟩
        have hAS : allocSuccPairs
            ([Ev.alloc THMAP_LEAF_LEN (m.ops m.acnt THMAP_LEAF_LEN)] ++
              [Ev.alloc key.length (m.ops (m.acnt + 1) key.length)]) =
            [(m.ops m.acnt THMAP_LEAF_LEN, THMAP_LEAF_LEN),
              (m.ops (m.acnt + 1) key.length, key.length)] := by
          simp [allocSuccPairs, h1, h3]
        rw [hAS, show bcopy m = true by simp [bcopy, h2]]
        rfl
    · rw [if_neg h2] at h
      simp only [Prod.mk.injEq, Option.some_inj] at h
      obtain ⟨hlf, hm2, hevs0⟩ := h
      subst hlf hm2 hevs0
      refine ⟨rfl, ?_, rfl, rfl, rfl, rfl, rfl, rfl, rfl⟩
      have hAS : allocSuccPairs
          [Ev.alloc THMAP_LEAF_LEN (m.ops m.acnt THMAP_LEAF_LEN)] =
          [(m.ops m.acnt THMAP_LEAF_LEN, THMAP_LEAF_LEN)] := by
        simp [allocSuccPairs, h1]
      rw [hAS, show bcopy m = false by simp [bcopy, h2]]
      rfl

/-- A failed leaf pre-allocation frees exactly what it successfully
allocated, and leaves the map unchanged except the call counter. -/
theorem leaf_create_none_pairs {V : Type} {m : Thmap V} {keyAddr : Nat}
    {key : Key} {val : V} {m2 : Thmap V} {evs0 : List Ev}
    (h : leaf_create m keyAddr key val = (none, m2, evs0)) :
    (↑(freePairs evs0) : Multiset (Nat × Nat)) = ↑(allocSuccPairs evs0) ∧
    m2.root = m.root ∧ m2.flags = m.flags ∧ m2.ops = m.ops ∧
    m2.gcList = m.gcList ∧ m2.baseptr = m.baseptr := by
  rw [leaf_create] at h
  simp only [allocCall] at h
  by_cases h1 : m.ops m.acnt THMAP_LEAF_LEN = 0
  · rw [if_pos h1] at h
    simp only [Prod.mk.injEq] at h
    obtain ⟨-, hm2, hevs0⟩ := h
    subst hm2 hevs0
    refine ⟨?_, rfl, rfl, rfl, rfl, rfl⟩
    simp [freePairs, allocSuccPairs, h1]
  · rw [if_neg h1] at h
    by_cases h2 : m.flags &&& THMAP_NOCOPY = 0
    · rw [if_pos h2] at h
      by_cases h3 : m.ops (m.acnt + 1) key.length = 0
      · rw [if_pos h3] at h
        simp only [Prod.mk.injEq] at h
        obtain ⟨-, hm2, hevs0⟩ := h
        subst hm2 hevs0
        refine ⟨?_, rfl, rfl, rfl, rfl, rfl⟩
        simp [freePairs, allocSuccPairs, h1, h3]
      · rw [if_neg h3] at h
        simp only [Prod.mk.injEq] at h
        exact absurd h.1 (by simp)
    · rw [if_neg h2] at h
      simp only [Prod.mk.injEq] at h
      exact absurd h.1 (by simp)

/-- Allocator conservation for a completed `thmap_put`: the blocks owned
by the new tree plus everything freed equal the blocks owned by the old
tree plus every successful allocation of the call. -/
theorem thmap_put_conserve {V : Type} {H : HashF} {fuel : Nat} {m : Thmap V}
    {keyAddr : Nat} {key : Key} {val : V} {r : Option V} {m1 : Thmap V}
    {evs : List Ev} (hwf : WFs H 0 m.root.toSlot)
    (hrun : thmap_put H fuel m keyAddr key val = some (r, m1, evs)) :
    ownedL (bcopy m) m1.root.slots + ↑(freePairs evs) =
      ownedL (bcopy m) m.root.slots + ↑(allocSuccPairs evs) := by
  rw [thmap_put] at hrun
  rcases hc : leaf_create m keyAddr key val with ⟨o, m2, evs0⟩
  rw [hc] at hrun
  cases o with
  | none =>
    simp only [Option.some_inj, Prod.mk.injEq] at hrun
    obtain ⟨hr, hm1, hevs⟩ := hrun
    subst hm1 hevs
    obtain ⟨hF, hroot, -, -, -, -⟩ := leaf_create_none_pairs hc
    rw [hroot, hF]
  | some lf =>
    simp only [] at hrun
    split at hrun
    · exact absurd hrun (by simp)
    next r2 root1 m3 evs2 heq =>
      simp only [Option.some_inj, Prod.mk.injEq] at hrun
      obtain ⟨hr, hm1, hevs⟩ := hrun
      subst hm1 hevs
      obtain ⟨hF0, hAS0, hroot, hflags, -, -, -, -, -⟩ := leaf_create_some_pairs hc
      have hwf2 : WFs H 0 m2.root.toSlot := by rw [hroot]; exact hwf
      obtain ⟨-, hE⟩ := thmap_put_go_conserve fuel 0 m2 m2.root (queryInit 0)
        r2 root1 m3 evs2 hwf2 (QOK_init H key 0) rfl heq
      have hbc : bcopy m2 = bcopy m := by rw [bcopy, bcopy, hflags]
      rw [hbc, hroot] at hE
      show ownedL (bcopy m) root1.slots + ↑(freePairs (evs0 ++ evs2)) =
        ownedL (bcopy m) m.root.slots + ↑(allocSuccPairs (evs0 ++ evs2))
      rw [freePairs_append, allocSuccPairs_append, hF0, List.nil_append,
        show ((↑(allocSuccPairs evs0 ++ allocSuccPairs evs2)) :
          Multiset (Nat × Nat)) = ↑(allocSuccPairs evs0) + ↑(allocSuccPairs evs2)
          from rfl, hAS0]
      calc ownedL (bcopy m) root1.slots + ↑(freePairs evs2)
          = ownedL (bcopy m) m.root.slots + ↑(allocSuccPairs evs2) +
              ownedS (bcopy m) lf.toSlot := hE
        _ = ownedL (bcopy m) m.root.slots +
              (ownedS (bcopy m) lf.toSlot + ↑(allocSuccPairs evs2)) := by abel

mutual
theorem HtLE_heightS {V : Type} : ∀ s : Slot V, HtLE s (heightS s)
  | .empty => .empty _
  | .leaf ko k v o => .leafH ko k v o _
  | .inode st par off slots =>
    .inodeH st par off slots _ (fun i => HtLE_heightL slots i)

theorem HtLE_heightL {V : Type} :
    ∀ (slots : List (Slot V)) (i : Nat), HtLE (nthSlot slots i) (heightL slots)
  | [], _ => .empty _
  | s :: r, 0 =>
    HtLE_mono (HtLE_heightS s) (by rw [heightL]; exact le_max_left _ _)
  | s :: r, i + 1 =>
    HtLE_mono (HtLE_heightL r i) (by rw [heightL]; exact le_max_right _ _)
end

/-- With fuel at least the tree height, `thmap_get` completes and returns
the stored value of a present key. -/
theorem thmap_get_found {V : Type} {H : HashF} {m : Thmap V} {key : Key}
    {v : V} (hwf : WFs H 0 m.root.toSlot) (hm : mapsTo m.root.toSlot key v)
    {fuel : Nat} (hfuel : heightS m.root.toSlot ≤ fuel) :
    thmap_get H fuel m key = some (some v) := by
  obtain ⟨ko, o, hin⟩ := hm
  have htot := @thmap_get_go_total V H key fuel m.root.st m.root.par m.root.off
    m.root.slots (queryInit 0)
    (HtLE_mono (HtLE_heightS (m.root.toSlot)) hfuel)
  obtain ⟨r, hr⟩ := Option.isSome_iff_exists.mp htot
  have := thmap_get_go_found fuel 0 m.root.st m.root.par m.root.off m.root.slots
    (queryInit 0) ko v o r hwf (QOK_init H key 0) rfl hin hr
  rw [thmap_get, hr, this]

/-- With fuel at least the tree height, `thmap_get` completes and misses
an absent key. -/
theorem thmap_get_none {V : Type} {H : HashF} {m : Thmap V} {key : Key}
    (habs : ∀ v, ¬ mapsTo m.root.toSlot key v)
    {fuel : Nat} (hfuel : heightS m.root.toSlot ≤ fuel) :
    thmap_get H fuel m key = some none := by
  have htot := @thmap_get_go_total V H key fuel m.root.st m.root.par m.root.off
    m.root.slots (queryInit 0)
    (HtLE_mono (HtLE_heightS (m.root.toSlot)) hfuel)
  obtain ⟨r, hr⟩ := Option.isSome_iff_exists.mp htot
  have hnone := thmap_get_go_none fuel m.root.slots (queryInit 0) r
    (fun i ko v o hin => habs v ⟨ko, o,
      LeafIn.deeper m.root.st m.root.par m.root.off m.root.slots i ko key v o hin⟩)
    hr
  rw [thmap_get, hr, hnone]

/-- `thmap_put` on an absent key: either an allocation failed (`NULL`,
entries unchanged) or the key was inserted and the given value returned. -/
theorem thmap_put_absent {V : Type} {H : HashF} {fuel : Nat} {m : Thmap V}
    {keyAddr : Nat} {key : Key} {val : V} {r : Option V} {m1 : Thmap V}
    {evs : List Ev} (hwf : WFs H 0 m.root.toSlot)
    (habs : ∀ v0, ¬ mapsTo m.root.toSlot key v0)
    (hrun : thmap_put H fuel m keyAddr key val = some (r, m1, evs)) :
    (r = none ∨ r = some val) ∧
    WFs H 0 m1.root.toSlot ∧
    (∀ k1 v1, mapsTo m1.root.toSlot k1 v1 ↔
      ((r.isSome = true ∧ k1 = key ∧ v1 = val) ∨ mapsTo m.root.toSlot k1 v1)) ∧
    m1.ops = m.ops ∧ m1.gcList = m.gcList ∧ m1.flags = m.flags ∧
    m1.baseptr = m.baseptr := by
  rw [thmap_put] at hrun
  rcases hc : leaf_create m keyAddr key val with ⟨o, m2, evs0⟩
  rw [hc] at hrun
  cases o with
  | none =>
    simp only [Option.some_inj, Prod.mk.injEq] at hrun
    obtain ⟨hr, hm1, hevs⟩ := hrun
    subst hr hm1
    obtain ⟨-, hroot, hflags, hops, hgc, hbase⟩ := leaf_create_none_pairs hc
    rw [hroot]
    exact ⟨Or.inl rfl, hwf,
      fun k1 v1 => by simp, hops, hgc, hflags, hbase⟩
  | some lf =>
    simp only [] at hrun
    split at hrun
    · exact absurd hrun (by simp)
    next r2 root1 m3 evs2 heq =>
      simp only [Option.some_inj, Prod.mk.injEq] at hrun
      obtain ⟨hr, hm1, hevs⟩ := hrun
      subst hr hm1
      obtain ⟨-, -, hroot, hflags, hops, hgc, hbase, hlfk, hlfv⟩ :=
        leaf_create_some_pairs hc
      have hwf2 : WFs H 0 m2.root.toSlot := by rw [hroot]; exact hwf
      have habs2 : ∀ v0, ¬ mapsTo m2.root.toSlot key v0 := by
        rw [hroot]; exact habs
      obtain ⟨hr2, -, -, hwf1, -, hmaps, -, hops3, hgc3, hflags3, hbase3⟩ :=
        thmap_put_go_absent fuel 0 m2 m2.root (queryInit 0) r2 root1 m3 evs2
          hwf2 habs2 hlfk hlfv (QOK_init H key 0) rfl heq
      refine ⟨hr2, hwf1, ?_, ?_, ?_, ?_, ?_⟩
      · intro k1 v1
        have h2 := hmaps k1 v1
        rw [hroot] at h2
        exact h2
      · show m3.ops = m.ops
        rw [hops3, hops]
      · show m3.gcList = m.gcList
        rw [hgc3, hgc]
      · show m3.flags = m.flags
        rw [hflags3, hflags]
      · show m3.baseptr = m.baseptr
        rw [hbase3, hbase]

/-- `thmap_put` on a present key: either an allocation failed (`NULL`) or
the ARGUMENT value is returned (`leaf_free` of the pre-allocated leaf
yields that leaf's `val`); the tree is unchanged either way. -/
theorem thmap_put_present {V : Type} {H : HashF} {fuel : Nat} {m : Thmap V}
    {keyAddr : Nat} {key : Key} {val v0 : V} {r : Option V} {m1 : Thmap V}
    {evs : List Ev} (hwf : WFs H 0 m.root.toSlot)
    (hm : mapsTo m.root.toSlot key v0)
    (hrun : thmap_put H fuel m keyAddr key val = some (r, m1, evs)) :
    (r = none ∨ r = some val) ∧ m1.root = m.root ∧
    m1.ops = m.ops ∧ m1.gcList = m.gcList ∧ m1.flags = m.flags ∧
    m1.baseptr = m.baseptr := by
  rw [thmap_put] at hrun
  rcases hc : leaf_create m keyAddr key val with ⟨o, m2, evs0⟩
  rw [hc] at hrun
  cases o with
  | none =>
    simp only [Option.some_inj, Prod.mk.injEq] at hrun
    obtain ⟨hr, hm1, hevs⟩ := hrun
    subst hr hm1
    obtain ⟨-, hroot, hflags, hops, hgc, hbase⟩ := leaf_create_none_pairs hc
    exact ⟨Or.inl rfl, hroot, hops, hgc, hflags, hbase⟩
  | some lf =>
    simp only [] at hrun
    split at hrun
    · exact absurd hrun (by simp)
    next r2 root1 m3 evs2 heq =>
      simp only [Option.some_inj, Prod.mk.injEq] at hrun
      obtain ⟨hr, hm1, hevs⟩ := hrun
      subst hr hm1
      obtain ⟨-, -, hroot, hflags, hops, hgc, hbase, hlfk, hlfv⟩ :=
        leaf_create_some_pairs hc
      have hwf2 : WFs H 0 m2.root.toSlot := by rw [hroot]; exact hwf
      obtain ⟨ko, o, hin⟩ := hm
      have hin2 : LeafIn m2.root.toSlot ko key v0 o := by rw [hroot]; exact hin
      obtain ⟨hr2, hn1, hops3, hgc3, hflags3, hbase3⟩ :=
        thmap_put_go_present fuel 0 m2 m2.root (queryInit 0) ko v0 o r2 root1
          m3 evs2 hwf2 (QOK_init H key 0) rfl hin2 heq
      refine ⟨Or.inr (by rw [hr2, hlfv]), ?_, ?_, ?_, ?_, ?_⟩
      · show root1 = m.root
        rw [hn1, hroot]
      · show m3.ops = m.ops
        rw [hops3, hops]
      · show m3.gcList = m.gcList
        rw [hgc3, hgc]
      · show m3.flags = m.flags
        rw [hflags3, hflags]
      · show m3.baseptr = m.baseptr
        rw [hbase3, hbase]

/-! ## The delete path -/

/-- `thmap_del` body on an absent key: the node (hence the tree) and the
map are returned unchanged; the only events are the edge lock/unlock. -/
theorem thmap_del_go_absent {V : Type} {H : HashF} {key : Key} :
    ∀ (fuel l : Nat) (m : Thmap V) (n : INode V) (q : Query) (res : DelRes V),
      WFs H l n.toSlot →
      QOK H key q → q.level = l →
      (∀ v0, ¬ mapsTo n.toSlot key v0) →
      thmap_del_go H key fuel m n q = some res →
      res.found = none ∧ res.node = n ∧ res.collapsed = false ∧ res.m = m ∧
      ∃ e, res.evs = [Ev.lock e, Ev.unlock e] := by
  intro fuel
  induction fuel with
  | zero =>
    intro l m n q res _ _ _ _ h
    exact absurd h (by simp [thmap_del_go])
  | succ f ih =>
    intro l m n q res hwf hq hql habs hrun
    obtain ⟨hst0, hlen, hch⟩ : n.st = cntNE n.slots ∧
        n.slots.length = fanout l ∧
        (∀ i, WFs H (l + 1) (nthSlot n.slots i)) := by
      cases hwf with
      | inodeW _ _ _ _ _ a b c d e => exact ⟨b, a, d⟩
    have hslt : slotAt H key l < n.slots.length := by
      rw [hlen]; exact slotAt_lt_fanout H key l
    have hcnt31 : cntNE n.slots < 2 ^ 31 := cntNE_lt_two_pow_31 hlen
    have hust : unlockSt (lockSt n.st) = n.st := by
      rw [hst0]; exact unlockSt_lockSt hcnt31
    rw [thmap_del_go, hashval_getslot_eq hq, hql] at hrun
    try simp only at hrun
    cases hx : nthSlot n.slots (slotAt H key l) with
    | empty =>
      rw [hx] at hrun
      have hres := Option.some_inj.mp hrun
      subst hres
      refine ⟨rfl, ?_, rfl, rfl, n.off, rfl⟩
      show (⟨unlockSt (lockSt n.st), n.par, n.off, n.slots⟩ : INode V) = n
      rw [hust]
    | leaf ko2 k2 v2 lo2 =>
      rw [hx] at hrun
      simp only [] at hrun
      have hk : ¬ key_cmp_p k2 key = true := by
        intro hk2
        exact habs v2 ⟨ko2, lo2, LeafIn.deeper n.st n.par n.off n.slots
          (slotAt H key l) ko2 key v2 lo2
          (by rw [hx, key_cmp_p_iff.mp hk2]; exact .here ko2 k2 v2 lo2)⟩
      rw [if_neg hk] at hrun
      have hres := Option.some_inj.mp hrun
      subst hres
      refine ⟨rfl, ?_, rfl, rfl, n.off, rfl⟩
      show (⟨unlockSt (lockSt n.st), n.par, n.off, n.slots⟩ : INode V) = n
      rw [hust]
    | inode st2 par2 off2 slots2 =>
      rw [hx] at hrun
      have hch2 := hch (slotAt H key l)
      rw [hx] at hch2
      simp only [] at hrun
      split at hrun
      · exact absurd hrun (by simp)
      next res2 heq =>
        have habs2 : ∀ v0, ¬ mapsTo (Slot.inode st2 par2 off2 slots2) key v0 := by
          rintro v0 ⟨ko, o, hin⟩
          exact habs v0 ⟨ko, o, LeafIn.deeper n.st n.par n.off n.slots
            (slotAt H key l) ko key v0 o (by rw [hx]; exact hin)⟩
        obtain ⟨hfound2, hnode2, hcol2, hm2, e2, hevs2⟩ :=
          ih (l + 1) m ⟨st2, par2, off2, slots2⟩ _ res2 hch2
            (QOK_setLevel (QOK_qFull H key l) _) rfl habs2 heq
        rw [hcol2] at hrun
        rw [if_neg (by simp)] at hrun
        have hres := Option.some_inj.mp hrun
        subst hres
        refine ⟨hfound2, ?_, rfl, hm2, e2, hevs2⟩
        show (⟨n.st, n.par, n.off,
          n.slots.set (slotAt H key l) res2.node.toSlot⟩ : INode V) = n
        rw [hnode2]
        show (⟨n.st, n.par, n.off, n.slots.set (slotAt H key l)
          (Slot.inode st2 par2 off2 slots2)⟩ : INode V) = n
        rw [← hx, set_nthSlot_self hslt]

theorem not_mapsTo_of_cntNE_zero {V : Type} {slots : List (Slot V)}
    (h : cntNE slots = 0) (a b c : Nat) (k : Key) (v : V) :
    ¬ mapsTo (Slot.inode a b c slots) k v := by
  rintro ⟨ko, o, hin⟩
  obtain ⟨i, hin2⟩ := LeafIn_inode_inv hin
  rw [cntNE_zero_iff.mp h i] at hin2
  exact not_LeafIn_empty hin2

theorem ownedL_eq_zero_of_cntNE_zero {V : Type} {copy : Bool}
    {slots : List (Slot V)} (h : cntNE slots = 0) : ownedL copy slots = 0 := by
  rw [eq_replicate_of_all_empty (cntNE_zero_iff.mp h)]
  exact ownedL_replicate copy slots.length

set_option maxHeartbeats 2000000 in
/-- `thmap_del` body on a present key: the stored leaf is removed and
returned; entries afterwards are exactly the entries before minus the key;
the node stays well-formed unless it emptied, in which case it is returned
still locked with the DELETED-eligible state word `NODE_LOCKED` (locked,
occupancy zero); the staged blocks match the retirement list; the events
are the lock/clear of the edge followed by one contraction block per
emptied level, each recording the child's state word `NODE_LOCKED`. -/
theorem thmap_del_go_found {V : Type} {H : HashF} {key : Key} :
    ∀ (fuel l : Nat) (m : Thmap V) (n : INode V) (q : Query) (res : DelRes V)
      (v : V),
      WFs H l n.toSlot →
      QOK H key q → q.level = l →
      mapsTo n.toSlot key v →
      thmap_del_go H key fuel m n q = some res →
      (∃ lf : LeafR V, res.found = some lf ∧ lf.key = key ∧ lf.val = v ∧
        ownedL (bcopy m) res.node.slots + ↑(stagePairs res.evs) +
          ownedS (bcopy m) lf.toSlot = ownedL (bcopy m) n.slots) ∧
      res.node.par = n.par ∧ res.node.off = n.off ∧
      res.node.slots.length = n.slots.length ∧
      (∀ k1 v1, mapsTo res.node.toSlot k1 v1 ↔
        (k1 ≠ key ∧ mapsTo n.toSlot k1 v1)) ∧
      (res.collapsed = false → WFs H l res.node.toSlot) ∧
      (res.collapsed = true →
        l ≠ 0 ∧ cntNE res.node.slots = 0 ∧ res.node.st = NODE_LOCKED) ∧
      res.m.ops = m.ops ∧ res.m.flags = m.flags ∧ res.m.baseptr = m.baseptr ∧
      res.m.acnt = m.acnt ∧
      (↑res.m.gcList : Multiset (Nat × Nat)) =
        ↑(stagePairs res.evs) + ↑m.gcList ∧
      freePairs res.evs = [] ∧ allocSuccPairs res.evs = [] ∧
      (∃ (c0 s0 : Nat) (blocks : List (Nat × Nat × Nat)) (tl : List Ev),
        res.evs = [Ev.lock c0, Ev.slotClear c0 s0] ++
          (blocks.flatMap fun b => blockEvs b.1 b.2.1 b.2.2) ++ tl ∧
        (res.collapsed = true → tl = []) ∧
        (res.collapsed = false → ∃ e, tl = [Ev.unlock e])) := by
  intro fuel
  induction fuel with
  | zero =>
    intro l m n q res v _ _ _ _ h
    exact absurd h (by simp [thmap_del_go])
  | succ f ih =>
    intro l m n q res v hwf hq hql hm hrun
    obtain ⟨hst0, hlen, hne0, hch, hpl⟩ : n.st = cntNE n.slots ∧
        n.slots.length = fanout l ∧ (l = 0 ∨ 0 < cntNE n.slots) ∧
        (∀ i, WFs H (l + 1) (nthSlot n.slots i)) ∧
        (∀ i ko2 k v2 o2, LeafIn (nthSlot n.slots i) ko2 k v2 o2 →
          slotAt H k l = i) := by
      cases hwf with
      | inodeW _ _ _ _ _ a b c d e => exact ⟨b, a, c, d, e⟩
    have hslt : slotAt H key l < n.slots.length := by
      rw [hlen]; exact slotAt_lt_fanout H key l
    have hcnt31 : cntNE n.slots < 2 ^ 31 := cntNE_lt_two_pow_31 hlen
    have hcnt30 : cntNE n.slots < 2 ^ 30 := cntNE_lt_two_pow_30 hlen
    obtain ⟨ko, o, hin⟩ := hm
    obtain ⟨i0, hin0⟩ := LeafIn_inode_inv hin
    have hi0 : i0 = slotAt H key l := (hpl i0 ko key v o hin0).symm
    subst hi0
    have hcntpos : 0 < cntNE n.slots := cntNE_pos_of_LeafIn hin0
    have hNC : NODE_COUNT (lockSt n.st - 1) = cntNE n.slots - 1 := by
      rw [hst0]; exact NODE_COUNT_lock_dec hcntpos hcnt30
    rw [thmap_del_go, hashval_getslot_eq hq, hql] at hrun
    try simp only at hrun
    rw [show (qFull H key l).level = l from rfl] at hrun
    have hcnt_set : cntNE (n.slots.set (slotAt H key l) Slot.empty) =
        cntNE n.slots - 1 := by
      have h := @cntNE_set V n.slots (slotAt H key l) Slot.empty hslt
      rw [LeafIn_nonEmpty hin0,
        show nonEmptyB (Slot.empty : Slot V) = false from rfl] at h
      simp at h
      omega
    have hwfset : ∀ st3, st3 = cntNE n.slots - 1 →
        (l = 0 ∨ 0 < cntNE n.slots - 1) →
        WFs H l (Slot.inode st3 n.par n.off
          (n.slots.set (slotAt H key l) Slot.empty)) := by
      intro st3 hst3 hne3
      refine .inodeW _ _ _ _ _ ?_ ?_ ?_ ?_ ?_
      · rw [List.length_set]; exact hlen
      · rw [hst3, hcnt_set]
      · rcases hne3 with h | h
        · exact Or.inl h
        · exact Or.inr (by rw [hcnt_set]; omega)
      · intro i
        by_cases hi : i = slotAt H key l
        · subst hi
          rw [nthSlot_set_self Slot.empty hslt]
          exact .empty _
        · rw [nthSlot_set_ne Slot.empty (fun hc => hi hc.symm)]
          exact hch i
      · intro i ko3 k3 v3 o3 hin3
        rcases (LeafIn_nthSlot_set Slot.empty hslt i ko3 k3 v3 o3).mp hin3
          with ⟨rfl, h4⟩ | ⟨hne4, h4⟩
        · exact absurd h4 not_LeafIn_empty
        · exact hpl i ko3 k3 v3 o3 h4
    have hmapsE : (∀ (k1 : Key) (v1 : V) (ko3 o3 : Nat),
        LeafIn (nthSlot n.slots (slotAt H key l)) ko3 k1 v1 o3 → k1 = key) →
        ∀ (a b c : Nat) (k1 : Key) (v1 : V),
        mapsTo (Slot.inode a b c (n.slots.set (slotAt H key l) Slot.empty))
          k1 v1 ↔ (k1 ≠ key ∧ mapsTo n.toSlot k1 v1) := by
      intro honly a b c k1 v1
      rw [mapsTo_set_iff Slot.empty hslt]
      constructor
      · rintro (⟨ko3, o3, h3⟩ | ⟨i, hi, ko3, o3, h3⟩)
        · exact absurd h3 not_LeafIn_empty
        · refine ⟨?_, ⟨ko3, o3, .deeper _ _ _ _ i _ _ _ _ h3⟩⟩
          intro hk1
          subst hk1
          exact hi (hpl i ko3 k1 v1 o3 h3).symm
      · rintro ⟨hne, ko3, o3, h3⟩
        obtain ⟨i1, h4⟩ := LeafIn_inode_inv h3
        refine Or.inr ⟨i1, ?_, ko3, o3, h4⟩
        intro hi1
        subst hi1
        exact hne (honly k1 v1 ko3 o3 h4)
    cases hx : nthSlot n.slots (slotAt H key l) with
    | empty => rw [hx] at hin0; exact absurd hin0 not_LeafIn_empty
    | leaf ko2 k2 v2 lo2 =>
      rw [hx] at hin0 hrun
      obtain ⟨hko2, hk2, hv2, ho2⟩ := LeafIn_leaf_inv hin0
      simp only [] at hrun
      rw [if_pos (key_cmp_p_iff.mpr hk2)] at hrun
      have honly : ∀ (k1 : Key) (v1 : V) (ko3 o3 : Nat),
          LeafIn (nthSlot n.slots (slotAt H key l)) ko3 k1 v1 o3 → k1 = key := by
        intro k1 v1 ko3 o3 h4
        rw [hx] at h4
        obtain ⟨-, hk3, -, -⟩ := LeafIn_leaf_inv h4
        exact hk3.trans hk2.symm
      have hmapsE2 := hmapsE honly
      have hsetO := @ownedL_set V (bcopy m) n.slots (slotAt H key l)
        Slot.empty hslt
      rw [hx, show ownedS (bcopy m) (Slot.empty : Slot V) = 0 from rfl,
        add_zero] at hsetO
      by_cases hgd : l ≠ 0 ∧ NODE_COUNT (lockSt n.st - 1) = 0
      · rw [if_pos hgd] at hrun
        have hres := Option.some_inj.mp hrun
        subst hres
        have hcnt1 : cntNE n.slots = 1 := by
          have h9 := hgd.2
          rw [hNC] at h9
          omega
        refine ⟨⟨⟨ko2, k2, v2, lo2⟩, rfl, hk2.symm, hv2.symm, ?_⟩,
          rfl, rfl, ?_, ?_, ?_, ?_, rfl, rfl, rfl, rfl, ?_, rfl, rfl, ?_⟩
        · show ownedL (bcopy m) (n.slots.set (slotAt H key l) Slot.empty) +
            ↑(stagePairs [Ev.lock n.off, Ev.slotClear n.off (slotAt H key l)]) +
            ownedS (bcopy m) (LeafR.toSlot ⟨ko2, k2, v2, lo2⟩) =
            ownedL (bcopy m) n.slots
          rw [show stagePairs [Ev.lock n.off,
              Ev.slotClear n.off (slotAt H key l)] = [] from rfl,
            show ((↑([] : List (Nat × Nat))) : Multiset (Nat × Nat)) = 0
              from rfl, add_zero]
          exact hsetO
        · show (n.slots.set (slotAt H key l) Slot.empty).length = n.slots.length
          rw [List.length_set]
        · intro k1 v1
          exact hmapsE2 _ _ _ k1 v1
        · intro h2
          exact absurd h2 (by simp)
        · intro _
          refine ⟨hgd.1, ?_, ?_⟩
          · show cntNE (n.slots.set (slotAt H key l) Slot.empty) = 0
            rw [hcnt_set, hcnt1]
          · show lockSt n.st - 1 = NODE_LOCKED
            rw [hst0, hcnt1, lockSt_eq (by norm_num),
              show NODE_LOCKED = 2 ^ 31 from rfl]
            norm_num
        · show (↑m.gcList : Multiset (Nat × Nat)) =
            ↑(stagePairs [Ev.lock n.off, Ev.slotClear n.off (slotAt H key l)]) +
              ↑m.gcList
          rw [show stagePairs [Ev.lock n.off,
              Ev.slotClear n.off (slotAt H key l)] = [] from rfl]
          exact (zero_add _).symm
        · refine ⟨n.off, slotAt H key l, [], [], ?_, fun _ => rfl, ?_⟩
          · rfl
          · intro h2
            exact absurd h2 (by simp)
      · rw [if_neg hgd] at hrun
        have hres := Option.some_inj.mp hrun
        subst hres
        have hst3 : unlockSt (lockSt n.st - 1) = cntNE n.slots - 1 := by
          rw [hst0]; exact unlock_dec hcntpos hcnt31
        refine ⟨⟨⟨ko2, k2, v2, lo2⟩, rfl, hk2.symm, hv2.symm, ?_⟩,
          rfl, rfl, ?_, ?_, ?_, ?_, rfl, rfl, rfl, rfl, ?_, rfl, rfl, ?_⟩
        · show ownedL (bcopy m) (n.slots.set (slotAt H key l) Slot.empty) +
            ↑(stagePairs [Ev.lock n.off, Ev.slotClear n.off (slotAt H key l),
              Ev.unlock n.off]) +
            ownedS (bcopy m) (LeafR.toSlot ⟨ko2, k2, v2, lo2⟩) =
            ownedL (bcopy m) n.slots
          rw [show stagePairs [Ev.lock n.off, Ev.slotClear n.off (slotAt H key l),
              Ev.unlock n.off] = [] from rfl,
            show ((↑([] : List (Nat × Nat))) : Multiset (Nat × Nat)) = 0
              from rfl, add_zero]
          exact hsetO
        · show (n.slots.set (slotAt H key l) Slot.empty).length = n.slots.length
          rw [List.length_set]
        · intro k1 v1
          exact hmapsE2 _ _ _ k1 v1
        · intro _
          show WFs H l (Slot.inode (unlockSt (lockSt n.st - 1)) n.par n.off
            (n.slots.set (slotAt H key l) Slot.empty))
          refine hwfset _ hst3 ?_
          rcases not_and_or.mp hgd with h | h
          · exact Or.inl (not_not.mp h)
          · rw [hNC] at h
            exact Or.inr (by omega)
        · intro h2
          exact absurd h2 (by simp)
        · show (↑m.gcList : Multiset (Nat × Nat)) =
            ↑(stagePairs [Ev.lock n.off, Ev.slotClear n.off (slotAt H key l),
              Ev.unlock n.off]) + ↑m.gcList
          rw [show stagePairs [Ev.lock n.off, Ev.slotClear n.off (slotAt H key l),
              Ev.unlock n.off] = [] from rfl]
          exact (zero_add _).symm
        · refine ⟨n.off, slotAt H key l, [], [Ev.unlock n.off], ?_, ?_, ?_⟩
          · rfl
          · intro h2
            exact absurd h2 (by simp)
          · exact fun _ => ⟨n.off, rfl⟩
    | inode st2 par2 off2 slots2 =>
      rw [hx] at hin0 hrun
      have hch2 := hch (slotAt H key l)
      rw [hx] at hch2
      simp only [] at hrun
      split at hrun
      · exact absurd hrun (by simp)
      next res2 heq =>
        obtain ⟨⟨lf2, hf2, hlfk2, hlfv2, hcons2⟩, hpar2, hoff2, hlen2, hmaps2,
            hwfF2, hcolT2, hops2, hflags2, hbase2, hacnt2, hgc2, hfp2, has2,
            c0, s0, blocks2, tl2, htr2, htrT2, htrF2⟩ :=
          ih (l + 1) m ⟨st2, par2, off2, slots2⟩ _ res2 v hch2
            (QOK_setLevel (QOK_qFull H key l) _) rfl ⟨ko, o, hin0⟩ heq
        simp only [] at hpar2 hoff2 hlen2 hcons2
        by_cases hcol2 : res2.collapsed = true
        · obtain ⟨-, hcnt20, hst2L⟩ := hcolT2 hcol2
          have honly : ∀ (k1 : Key) (v1 : V) (ko3 o3 : Nat),
              LeafIn (nthSlot n.slots (slotAt H key l)) ko3 k1 v1 o3 →
              k1 = key := by
            intro k1 v1 ko3 o3 h4
            by_contra hne
            rw [hx] at h4
            have hmt2 : mapsTo res2.node.toSlot k1 v1 :=
              (hmaps2 k1 v1).mpr ⟨hne, ⟨ko3, o3, h4⟩⟩
            exact not_mapsTo_of_cntNE_zero hcnt20 res2.node.st res2.node.par
              res2.node.off k1 v1 hmt2
          have hmapsE2 := hmapsE honly
          rw [hcol2] at hrun
          rw [if_pos rfl] at hrun
          simp only [stage_mem_gc] at hrun
          have hsetO := @ownedL_set V (bcopy m) n.slots (slotAt H key l)
            Slot.empty hslt
          rw [hx, show ownedS (bcopy m) (Slot.empty : Slot V) = 0 from rfl,
            add_zero] at hsetO
          have hz2 : ownedL (bcopy m) res2.node.slots = 0 :=
            ownedL_eq_zero_of_cntNE_zero hcnt20
          rw [hz2, zero_add] at hcons2
          have hcons3 : ownedL (bcopy m)
              (n.slots.set (slotAt H key l) Slot.empty) +
              ↑(stagePairs ((res2.evs ++ [Ev.lock n.off,
                Ev.markDeleted res2.node.off res2.node.st,
                Ev.unlock res2.node.off, Ev.slotClear n.off (slotAt H key l)]) ++
                [Ev.stage res2.node.off THMAP_INODE_LEN])) +
              ownedS (bcopy m) lf2.toSlot = ownedL (bcopy m) n.slots := by
            rw [stagePairs_append, stagePairs_append,
              show stagePairs [Ev.lock n.off,
                Ev.markDeleted res2.node.off res2.node.st,
                Ev.unlock res2.node.off, Ev.slotClear n.off (slotAt H key l)] =
                [] from rfl,
              show stagePairs [Ev.stage res2.node.off THMAP_INODE_LEN] =
                [(res2.node.off, THMAP_INODE_LEN)] from rfl, List.append_nil,
              hoff2]
            calc ownedL (bcopy m) (n.slots.set (slotAt H key l) Slot.empty) +
                  ↑(stagePairs res2.evs ++ [(off2, THMAP_INODE_LEN)]) +
                  ownedS (bcopy m) lf2.toSlot
                = ownedL (bcopy m) (n.slots.set (slotAt H key l) Slot.empty) +
                  ({(off2, THMAP_INODE_LEN)} +
                    (↑(stagePairs res2.evs) + ownedS (bcopy m) lf2.toSlot)) := by
                  rw [show ((↑(stagePairs res2.evs ++
                      [(off2, THMAP_INODE_LEN)])) : Multiset (Nat × Nat)) =
                      ↑(stagePairs res2.evs) + ↑([(off2, THMAP_INODE_LEN)] :
                        List (Nat × Nat)) from rfl,
                    show ((↑([(off2, THMAP_INODE_LEN)] : List (Nat × Nat))) :
                      Multiset (Nat × Nat)) = {(off2, THMAP_INODE_LEN)} from rfl]
                  abel
              _ = ownedL (bcopy m) (n.slots.set (slotAt H key l) Slot.empty) +
                  ({(off2, THMAP_INODE_LEN)} + ownedL (bcopy m) slots2) := by
                  rw [hcons2]
              _ = ownedL (bcopy m) (n.slots.set (slotAt H key l) Slot.empty) +
                  ownedS (bcopy m) (Slot.inode st2 par2 off2 slots2) := by
                  rw [show ownedS (bcopy m) (Slot.inode st2 par2 off2 slots2) =
                      (off2, THMAP_INODE_LEN) ::ₘ ownedL (bcopy m) slots2
                      from rfl, ← Multiset.singleton_add]
              _ = ownedL (bcopy m) n.slots := hsetO
          by_cases hgd : l ≠ 0 ∧ NODE_COUNT (lockSt n.st - 1) = 0
          · rw [if_pos hgd] at hrun
            have hres := Option.some_inj.mp hrun
            subst hres
            have hcnt1 : cntNE n.slots = 1 := by
              have h9 := hgd.2
              rw [hNC] at h9
              omega
            refine ⟨⟨lf2, hf2, hlfk2, hlfv2, hcons3⟩,
              rfl, rfl, ?_, ?_, ?_, ?_, hops2, hflags2, hbase2, hacnt2,
              ?_, ?_, ?_, ?_⟩
            · show (n.slots.set (slotAt H key l) Slot.empty).length =
                n.slots.length
              rw [List.length_set]
            · intro k1 v1
              exact hmapsE2 _ _ _ k1 v1
            · intro h2
              exact absurd h2 (by simp)
            · intro _
              refine ⟨hgd.1, ?_, ?_⟩
              · show cntNE (n.slots.set (slotAt H key l) Slot.empty) = 0
                rw [hcnt_set, hcnt1]
              · show lockSt n.st - 1 = NODE_LOCKED
                rw [hst0, hcnt1, lockSt_eq (by norm_num),
                  show NODE_LOCKED = 2 ^ 31 from rfl]
                norm_num
            · show (↑((res2.node.off, THMAP_INODE_LEN) :: res2.m.gcList) :
                Multiset (Nat × Nat)) = _
              rw [stagePairs_append, stagePairs_append,
                show stagePairs [Ev.lock n.off,
                  Ev.markDeleted res2.node.off res2.node.st,
                  Ev.unlock res2.node.off,
                  Ev.slotClear n.off (slotAt H key l)] = [] from rfl,
                show stagePairs [Ev.stage res2.node.off THMAP_INODE_LEN] =
                  [(res2.node.off, THMAP_INODE_LEN)] from rfl, List.append_nil]
              rw [show ((↑((res2.node.off, THMAP_INODE_LEN) :: res2.m.gcList)) :
                  Multiset (Nat × Nat)) = (res2.node.off, THMAP_INODE_LEN) ::ₘ
                  ↑res2.m.gcList from rfl, hgc2,
                show ((↑(stagePairs res2.evs ++
                    [(res2.node.off, THMAP_INODE_LEN)])) : Multiset (Nat × Nat)) =
                    ↑(stagePairs res2.evs) +
                    ↑([(res2.node.off, THMAP_INODE_LEN)] : List (Nat × Nat))
                    from rfl,
                show ((↑([(res2.node.off, THMAP_INODE_LEN)] : List (Nat × Nat))) :
                  Multiset (Nat × Nat)) = {(res2.node.off, THMAP_INODE_LEN)}
                  from rfl, ← Multiset.singleton_add]
              abel
            · show freePairs _ = []
              rw [freePairs_append, freePairs_append, hfp2]
              rfl
            · show allocSuccPairs _ = []
              rw [allocSuccPairs_append, allocSuccPairs_append, has2]
              rfl
            · refine ⟨c0, s0,
                blocks2 ++ [(n.off, res2.node.off, slotAt H key l)], [],
                ?_, fun _ => rfl, ?_⟩
              · show (res2.evs ++ [Ev.lock n.off,
                  Ev.markDeleted res2.node.off res2.node.st,
                  Ev.unlock res2.node.off,
                  Ev.slotClear n.off (slotAt H key l)]) ++
                  [Ev.stage res2.node.off THMAP_INODE_LEN] = _
                rw [htr2, htrT2 hcol2, hst2L]
                simp [List.flatMap_append, blockEvs, List.append_assoc]
              · intro h2
                exact absurd h2 (by simp)
          · rw [if_neg hgd] at hrun
            have hres := Option.some_inj.mp hrun
            subst hres
            have hst3 : unlockSt (lockSt n.st - 1) = cntNE n.slots - 1 := by
              rw [hst0]; exact unlock_dec hcntpos hcnt31
            have hcons4 : ownedL (bcopy m)
                (n.slots.set (slotAt H key l) Slot.empty) +
                ↑(stagePairs (((res2.evs ++ [Ev.lock n.off,
                  Ev.markDeleted res2.node.off res2.node.st,
                  Ev.unlock res2.node.off,
                  Ev.slotClear n.off (slotAt H key l)]) ++
                  [Ev.stage res2.node.off THMAP_INODE_LEN]) ++
                  [Ev.unlock n.off])) +
                ownedS (bcopy m) lf2.toSlot = ownedL (bcopy m) n.slots := by
              rw [stagePairs_append,
                show stagePairs [Ev.unlock n.off] = [] from rfl,
                List.append_nil]
              exact hcons3
            refine ⟨⟨lf2, hf2, hlfk2, hlfv2, hcons4⟩,
              rfl, rfl, ?_, ?_, ?_, ?_, hops2, hflags2, hbase2, hacnt2,
              ?_, ?_, ?_, ?_⟩
            · show (n.slots.set (slotAt H key l) Slot.empty).length =
                n.slots.length
              rw [List.length_set]
            · intro k1 v1
              exact hmapsE2 _ _ _ k1 v1
            · intro _
              show WFs H l (Slot.inode (unlockSt (lockSt n.st - 1)) n.par n.off
                (n.slots.set (slotAt H key l) Slot.empty))
              refine hwfset _ hst3 ?_
              rcases not_and_or.mp hgd with h | h
              · exact Or.inl (not_not.mp h)
              · rw [hNC] at h
                exact Or.inr (by omega)
            · intro h2
              exact absurd h2 (by simp)
            · show (↑((res2.node.off, THMAP_INODE_LEN) :: res2.m.gcList) :
                Multiset (Nat × Nat)) = _
              rw [stagePairs_append,
                show stagePairs [Ev.unlock n.off] = [] from rfl,
                List.append_nil, stagePairs_append, stagePairs_append,
                show stagePairs [Ev.lock n.off,
                  Ev.markDeleted res2.node.off res2.node.st,
                  Ev.unlock res2.node.off,
                  Ev.slotClear n.off (slotAt H key l)] = [] from rfl,
                show stagePairs [Ev.stage res2.node.off THMAP_INODE_LEN] =
                  [(res2.node.off, THMAP_INODE_LEN)] from rfl, List.append_nil]
              rw [show ((↑((res2.node.off, THMAP_INODE_LEN) :: res2.m.gcList)) :
                  Multiset (Nat × Nat)) = (res2.node.off, THMAP_INODE_LEN) ::ₘ
                  ↑res2.m.gcList from rfl, hgc2,
                show ((↑(stagePairs res2.evs ++
                    [(res2.node.off, THMAP_INODE_LEN)])) : Multiset (Nat × Nat)) =
                    ↑(stagePairs res2.evs) +
                    ↑([(res2.node.off, THMAP_INODE_LEN)] : List (Nat × Nat))
                    from rfl,
                show ((↑([(res2.node.off, THMAP_INODE_LEN)] : List (Nat × Nat))) :
                  Multiset (Nat × Nat)) = {(res2.node.off, THMAP_INODE_LEN)}
                  from rfl, ← Multiset.singleton_add]
              abel
            · show freePairs _ = []
              rw [freePairs_append, freePairs_append, freePairs_append, hfp2]
              rfl
            · show allocSuccPairs _ = []
              rw [allocSuccPairs_append, allocSuccPairs_append,
                allocSuccPairs_append, has2]
              rfl
            · refine ⟨c0, s0,
                blocks2 ++ [(n.off, res2.node.off, slotAt H key l)],
                [Ev.unlock n.off], ?_, ?_, ?_⟩
              · show ((res2.evs ++ [Ev.lock n.off,
                  Ev.markDeleted res2.node.off res2.node.st,
                  Ev.unlock res2.node.off,
                  Ev.slotClear n.off (slotAt H key l)]) ++
                  [Ev.stage res2.node.off THMAP_INODE_LEN]) ++
                  [Ev.unlock n.off] = _
                rw [htr2, htrT2 hcol2, hst2L]
                simp [List.flatMap_append, blockEvs, List.append_assoc]
              · intro h2
                exact absurd h2 (by simp)
              · exact fun _ => ⟨n.off, rfl⟩
        · have hcolF : res2.collapsed = false := by
            revert hcol2; cases res2.collapsed <;> simp
          have hwf2F := hwfF2 hcolF
          rw [hcolF] at hrun
          rw [if_neg (by simp)] at hrun
          have hres := Option.some_inj.mp hrun
          subst hres
          have hset2 := @ownedL_set V (bcopy m) n.slots (slotAt H key l)
            res2.node.toSlot hslt
          rw [hx] at hset2
          refine ⟨⟨lf2, hf2, hlfk2, hlfv2, ?_⟩,
            rfl, rfl, ?_, ?_, ?_, ?_, hops2, hflags2, hbase2, hacnt2,
            hgc2, hfp2, has2, ?_⟩
          · show ownedL (bcopy m)
              (n.slots.set (slotAt H key l) res2.node.toSlot) +
              ↑(stagePairs res2.evs) + ownedS (bcopy m) lf2.toSlot =
              ownedL (bcopy m) n.slots
            have hext : ownedL (bcopy m)
                (n.slots.set (slotAt H key l) res2.node.toSlot) +
                ↑(stagePairs res2.evs) + ownedS (bcopy m) lf2.toSlot +
                ownedS (bcopy m) (Slot.inode st2 par2 off2 slots2) =
                ownedL (bcopy m) n.slots +
                ownedS (bcopy m) (Slot.inode st2 par2 off2 slots2) := by
              calc ownedL (bcopy m)
                    (n.slots.set (slotAt H key l) res2.node.toSlot) +
                    ↑(stagePairs res2.evs) + ownedS (bcopy m) lf2.toSlot +
                    ownedS (bcopy m) (Slot.inode st2 par2 off2 slots2)
                  = (ownedL (bcopy m)
                      (n.slots.set (slotAt H key l) res2.node.toSlot) +
                      ownedS (bcopy m) (Slot.inode st2 par2 off2 slots2)) +
                      (↑(stagePairs res2.evs) +
                        ownedS (bcopy m) lf2.toSlot) := by abel
                _ = (ownedL (bcopy m) n.slots +
                      ownedS (bcopy m) res2.node.toSlot) +
                      (↑(stagePairs res2.evs) +
                        ownedS (bcopy m) lf2.toSlot) := by rw [hset2]
                _ = ownedL (bcopy m) n.slots + ((off2, THMAP_INODE_LEN) ::ₘ
                      (ownedL (bcopy m) res2.node.slots +
                        (↑(stagePairs res2.evs) +
                          ownedS (bcopy m) lf2.toSlot))) := by
                    rw [ownedS_inodeToSlot, hoff2, add_assoc,
                      Multiset.cons_add]
                _ = ownedL (bcopy m) n.slots + ((off2, THMAP_INODE_LEN) ::ₘ
                      ownedL (bcopy m) slots2) := by
                    rw [← add_assoc, hcons2]
                _ = _ := by
                    rw [show ownedS (bcopy m)
                        (Slot.inode st2 par2 off2 slots2) =
                        (off2, THMAP_INODE_LEN) ::ₘ ownedL (bcopy m) slots2
                        from rfl]
            exact add_right_cancel hext
          · show (n.slots.set (slotAt H key l) res2.node.toSlot).length =
              n.slots.length
            rw [List.length_set]
          · intro k1 v1
            show mapsTo (Slot.inode n.st n.par n.off
              (n.slots.set (slotAt H key l) res2.node.toSlot)) k1 v1 ↔ _
            rw [mapsTo_set_iff res2.node.toSlot hslt]
            constructor
            · rintro (⟨ko3, o3, h3⟩ | ⟨i, hi, ko3, o3, h3⟩)
              · obtain ⟨hne3, ko4, o4, h4⟩ := (hmaps2 k1 v1).mp ⟨ko3, o3, h3⟩
                obtain ⟨i4, h5⟩ := LeafIn_inode_inv h4
                refine ⟨hne3, ⟨ko4, o4,
                  .deeper _ _ _ _ (slotAt H key l) _ _ _ _ ?_⟩⟩
                rw [hx]
                exact .deeper _ _ _ _ i4 _ _ _ _ h5
              · refine ⟨?_, ⟨ko3, o3, .deeper _ _ _ _ i _ _ _ _ h3⟩⟩
                intro hk1
                subst hk1
                exact hi (hpl i ko3 k1 v1 o3 h3).symm
            · rintro ⟨hne, ko3, o3, h3⟩
              obtain ⟨i1, h4⟩ := LeafIn_inode_inv h3
              by_cases hi1 : i1 = slotAt H key l
              · subst hi1
                rw [hx] at h4
                obtain ⟨ko4, o4, h5⟩ := (hmaps2 k1 v1).mpr
                  ⟨hne, ⟨ko3, o3, h4⟩⟩
                exact Or.inl ⟨ko4, o4, h5⟩
              · exact Or.inr ⟨i1, hi1, ko3, o3, h4⟩
          · intro _
            show WFs H l (Slot.inode n.st n.par n.off
              (n.slots.set (slotAt H key l) res2.node.toSlot))
            have hcnt_eq : cntNE (n.slots.set (slotAt H key l)
                res2.node.toSlot) = cntNE n.slots := by
              have h := @cntNE_set V n.slots (slotAt H key l)
                res2.node.toSlot hslt
              rw [hx, show nonEmptyB (Slot.inode st2 par2 off2 slots2) = true
                from rfl, nonEmptyB_inodeToSlot] at h
              simp at h
              omega
            refine .inodeW _ _ _ _ _ ?_ ?_ ?_ ?_ ?_
            · rw [List.length_set]; exact hlen
            · rw [hcnt_eq]; exact hst0
            · rw [hcnt_eq]; exact hne0
            · intro i
              by_cases hi : i = slotAt H key l
              · subst hi
                rw [nthSlot_set_self res2.node.toSlot hslt]
                exact hwf2F
              · rw [nthSlot_set_ne res2.node.toSlot (fun hc => hi hc.symm)]
                exact hch i
            · intro i ko3 k3 v3 o3 hin3
              rcases (LeafIn_nthSlot_set res2.node.toSlot hslt i ko3 k3 v3
                o3).mp hin3 with ⟨rfl, h4⟩ | ⟨hne4, h4⟩
              · obtain ⟨hne3, ko4, o4, h5⟩ := (hmaps2 k3 v3).mp ⟨ko3, o3, h4⟩
                obtain ⟨i4, h6⟩ := LeafIn_inode_inv h5
                exact hpl (slotAt H key l) ko4 k3 v3 o4
                  (by rw [hx]; exact .deeper _ _ _ _ i4 _ _ _ _ h6)
              · exact hpl i ko3 k3 v3 o3 h4
          · intro h2
            exact absurd h2 (by simp)
          · exact ⟨c0, s0, blocks2, tl2, htr2,
              fun h2 => absurd h2 (by simp [hcolF]),
              fun _ => htrF2 hcolF⟩

/-- `thmap_del` on an absent key returns `NULL` and leaves the map
completely unchanged; the only events are the edge lock and unlock. -/
theorem thmap_del_absent {V : Type} {H : HashF} {fuel : Nat} {m : Thmap V}
    {key : Key} {r : Option V} {m1 : Thmap V} {evs : List Ev}
    (hwf : WFs H 0 m.root.toSlot)
    (habs : ∀ v0, ¬ mapsTo m.root.toSlot key v0)
    (hrun : thmap_del H fuel m key = some (r, m1, evs)) :
    r = none ∧ m1 = m ∧ ∃ e, evs = [Ev.lock e, Ev.unlock e] := by
  rw [thmap_del] at hrun
  split at hrun
  · exact absurd hrun (by simp)
  next res heq =>
    obtain ⟨hfound, hnode, hcol, hmm, e, hevs⟩ :=
      thmap_del_go_absent fuel 0 m m.root (queryInit 0) res hwf
        (QOK_init H key 0) rfl habs heq
    rw [hfound] at hrun
    simp only [Option.some_inj, Prod.mk.injEq] at hrun
    obtain ⟨hr, hm1, hevs2⟩ := hrun
    subst hr hm1 hevs2
    refine ⟨rfl, ?_, e, hevs⟩
    rw [hmm, hnode]

/-- `thmap_del` on a present key: the stored value is returned, exactly the
key's entry disappears, the root stays well-formed, the retirement list
gains exactly the staged blocks, the staged blocks equal everything the
tree gave up, and the events are the edge lock/clear, one contraction
block per emptied level (each recording state `NODE_LOCKED`), the final
unlock, and the staging of the leaf (and, in copy mode, the key copy). -/
theorem thmap_del_present {V : Type} {H : HashF} {fuel : Nat} {m : Thmap V}
    {key : Key} {v : V} {r : Option V} {m1 : Thmap V} {evs : List Ev}
    (hwf : WFs H 0 m.root.toSlot)
    (hm : mapsTo m.root.toSlot key v)
    (hrun : thmap_del H fuel m key = some (r, m1, evs)) :
    r = some v ∧
    WFs H 0 m1.root.toSlot ∧
    (∀ k1 v1, mapsTo m1.root.toSlot k1 v1 ↔
      (k1 ≠ key ∧ mapsTo m.root.toSlot k1 v1)) ∧
    m1.ops = m.ops ∧ m1.flags = m.flags ∧ m1.baseptr = m.baseptr ∧
    m1.acnt = m.acnt ∧
    (↑m1.gcList : Multiset (Nat × Nat)) = ↑(stagePairs evs) + ↑m.gcList ∧
    ownedL (bcopy m) m1.root.slots + ↑(stagePairs evs) =
      ownedL (bcopy m) m.root.slots ∧
    freePairs evs = [] ∧ allocSuccPairs evs = [] ∧
    (∃ (c0 s0 : Nat) (blocks : List (Nat × Nat × Nat)) (e : Nat)
        (tail2 : List Ev),
      evs = ([Ev.lock c0, Ev.slotClear c0 s0] ++
        (blocks.flatMap fun b => blockEvs b.1 b.2.1 b.2.2) ++ [Ev.unlock e]) ++
        tail2 ∧
      ∀ ev ∈ tail2, ∃ a len, ev = Ev.stage a len) := by
  rw [thmap_del] at hrun
  split at hrun
  · exact absurd hrun (by simp)
  next res heq =>
    obtain ⟨⟨lf, hf, hlfk, hlfv, hcons⟩, hpar, hoff, hlenR, hmaps, hwfF,
        hcolT, hops, hflags, hbase, hacnt, hgc, hfp, has,
        c0, s0, blocks, tl, htr, htrT, htrF⟩ :=
      thmap_del_go_found fuel 0 m m.root (queryInit 0) res v hwf
        (QOK_init H key 0) rfl hm heq
    have hcolF : res.collapsed = false := by
      cases hc2 : res.collapsed
      · rfl
      · exact absurd rfl (hcolT hc2).1
    obtain ⟨e, hte⟩ := htrF hcolF
    rw [hf] at hrun
    simp only [stage_mem_gc] at hrun
    by_cases hc : m.flags &&& THMAP_NOCOPY = 0
    · rw [if_pos (by show res.m.flags &&& THMAP_NOCOPY = 0; rw [hflags]; exact hc)]
        at hrun
      simp only [Option.some_inj, Prod.mk.injEq] at hrun
      obtain ⟨hr, hm1, hevs⟩ := hrun
      subst hr hm1 hevs
      have hbc : bcopy m = true := by simp [bcopy, hc]
      refine ⟨by rw [hlfv], hwfF hcolF, ?_, hops, hflags, hbase, hacnt,
        ?_, ?_, ?_, ?_, ?_⟩
      · intro k1 v1
        exact hmaps k1 v1
      · show ((↑((lf.off, THMAP_LEAF_LEN) :: (lf.keyOff, lf.key.length) ::
          res.m.gcList)) : Multiset (Nat × Nat)) =
          ↑(stagePairs ((res.evs ++ [Ev.stage lf.keyOff lf.key.length]) ++
            [Ev.stage lf.off THMAP_LEAF_LEN])) + ↑m.gcList
        rw [stagePairs_append, stagePairs_append,
          show stagePairs [Ev.stage lf.keyOff lf.key.length] =
            [(lf.keyOff, lf.key.length)] from rfl,
          show stagePairs [Ev.stage lf.off THMAP_LEAF_LEN] =
            [(lf.off, THMAP_LEAF_LEN)] from rfl]
        rw [show ((↑((lf.off, THMAP_LEAF_LEN) :: (lf.keyOff, lf.key.length) ::
            res.m.gcList)) : Multiset (Nat × Nat)) =
            {(lf.off, THMAP_LEAF_LEN)} + ({(lf.keyOff, lf.key.length)} +
              ↑res.m.gcList) from rfl,
          hgc,
          show ((↑((stagePairs res.evs ++ [(lf.keyOff, lf.key.length)]) ++
            [(lf.off, THMAP_LEAF_LEN)])) : Multiset (Nat × Nat)) =
            ↑(stagePairs res.evs) + {(lf.keyOff, lf.key.length)} +
              {(lf.off, THMAP_LEAF_LEN)} from rfl]
        abel
      · show ownedL (bcopy m) res.node.slots +
          ↑(stagePairs ((res.evs ++ [Ev.stage lf.keyOff lf.key.length]) ++
            [Ev.stage lf.off THMAP_LEAF_LEN])) =
          ownedL (bcopy m) m.root.slots
        rw [stagePairs_append, stagePairs_append,
          show stagePairs [Ev.stage lf.keyOff lf.key.length] =
            [(lf.keyOff, lf.key.length)] from rfl,
          show stagePairs [Ev.stage lf.off THMAP_LEAF_LEN] =
            [(lf.off, THMAP_LEAF_LEN)] from rfl,
          show ((↑((stagePairs res.evs ++ [(lf.keyOff, lf.key.length)]) ++
            [(lf.off, THMAP_LEAF_LEN)])) : Multiset (Nat × Nat)) =
            ↑(stagePairs res.evs) + {(lf.keyOff, lf.key.length)} +
              {(lf.off, THMAP_LEAF_LEN)} from rfl]
        rw [← hcons, hbc]
        rw [show ownedS true lf.toSlot = {(lf.off, THMAP_LEAF_LEN),
          (lf.keyOff, lf.key.length)} from rfl,
          show ({(lf.off, THMAP_LEAF_LEN), (lf.keyOff, lf.key.length)} :
            Multiset (Nat × Nat)) = {(lf.off, THMAP_LEAF_LEN)} +
            {(lf.keyOff, lf.key.length)} from rfl]
        abel
      · rw [freePairs_append, freePairs_append, hfp]
        rfl
      · rw [allocSuccPairs_append, allocSuccPairs_append, has]
        rfl
      · refine ⟨c0, s0, blocks, e,
          [Ev.stage lf.keyOff lf.key.length, Ev.stage lf.off THMAP_LEAF_LEN],
          ?_, ?_⟩
        · rw [htr, hte]
          simp [List.append_assoc]
        · intro ev hev
          simp only [List.mem_cons, List.not_mem_nil, or_false] at hev
          rcases hev with rfl | rfl
          · exact ⟨lf.keyOff, lf.key.length, rfl⟩
          · exact ⟨lf.off, THMAP_LEAF_LEN, rfl⟩
    · have hc2 : ¬ res.m.flags &&& THMAP_NOCOPY = 0 := by rw [hflags]; exact hc
      rw [if_neg hc2] at hrun
      simp only [Option.some_inj, Prod.mk.injEq] at hrun
      obtain ⟨hr, hm1, hevs⟩ := hrun
      subst hr hm1 hevs
      have hbc : bcopy m = false := by simp [bcopy, hc]
      refine ⟨by rw [hlfv], hwfF hcolF, ?_, hops, hflags, hbase, hacnt,
        ?_, ?_, ?_, ?_, ?_⟩
      · intro k1 v1
        exact hmaps k1 v1
      · show ((↑((lf.off, THMAP_LEAF_LEN) :: res.m.gcList)) :
          Multiset (Nat × Nat)) =
          ↑(stagePairs ((res.evs ++ []) ++ [Ev.stage lf.off THMAP_LEAF_LEN])) +
            ↑m.gcList
        rw [stagePairs_append, stagePairs_append,
          show stagePairs ([] : List Ev) = [] from rfl,
          show stagePairs [Ev.stage lf.off THMAP_LEAF_LEN] =
            [(lf.off, THMAP_LEAF_LEN)] from rfl, List.append_nil]
        rw [show ((↑((lf.off, THMAP_LEAF_LEN) :: res.m.gcList)) :
            Multiset (Nat × Nat)) = {(lf.off, THMAP_LEAF_LEN)} +
              ↑res.m.gcList from rfl,
          hgc,
          show ((↑(stagePairs res.evs ++ [(lf.off, THMAP_LEAF_LEN)])) :
            Multiset (Nat × Nat)) = ↑(stagePairs res.evs) +
              {(lf.off, THMAP_LEAF_LEN)} from rfl]
        abel
      · show ownedL (bcopy m) res.node.slots +
          ↑(stagePairs ((res.evs ++ []) ++ [Ev.stage lf.off THMAP_LEAF_LEN])) =
          ownedL (bcopy m) m.root.slots
        rw [stagePairs_append, stagePairs_append,
          show stagePairs ([] : List Ev) = [] from rfl,
          show stagePairs [Ev.stage lf.off THMAP_LEAF_LEN] =
            [(lf.off, THMAP_LEAF_LEN)] from rfl, List.append_nil,
          show ((↑(stagePairs res.evs ++ [(lf.off, THMAP_LEAF_LEN)])) :
            Multiset (Nat × Nat)) = ↑(stagePairs res.evs) +
              {(lf.off, THMAP_LEAF_LEN)} from rfl]
        rw [← hcons, hbc]
        rw [show ownedS false lf.toSlot =
          ({(lf.off, THMAP_LEAF_LEN)} : Multiset (Nat × Nat)) from rfl]
        abel
      · rw [freePairs_append, freePairs_append, hfp]
        rfl
      · rw [allocSuccPairs_append, allocSuccPairs_append, has]
        rfl
      · refine ⟨c0, s0, blocks, e, [Ev.stage lf.off THMAP_LEAF_LEN], ?_, ?_⟩
        · rw [htr, hte]
          simp [List.append_assoc]
        · intro ev hev
          simp only [List.mem_cons, List.not_mem_nil, or_false] at hev
          rcases hev with rfl
          exact ⟨lf.off, THMAP_LEAF_LEN, rfl⟩

/-! ## Allocation success and failure propagation -/

/-- With an allocator that never fails, the expansion loop installs the
new leaf (never returns `NULL`). -/
theorem thmap_put_descend_ok {V : Type} {H : HashF} {key : Key} {val : V}
    {lf : LeafR V} :
    ∀ (fuel : Nat) (m : Thmap V) (p : INode V) (slot : Nat) (q : Query)
      (other : LeafR V) (r : Option V) (p1 : INode V) (m1 : Thmap V)
      (evs : List Ev),
      (∀ i len, m.ops i len ≠ 0) →
      thmap_put_descend H key val lf fuel m p slot q other =
        some (r, p1, m1, evs) →
      r = some val := by
  intro fuel
  induction fuel with
  | zero =>
    intro m p slot q other r p1 m1 evs _ h
    exact absurd h (by simp [thmap_put_descend])
  | succ f ih =>
    intro m p slot q other r p1 m1 evs hops hrun
    rw [thmap_put_descend] at hrun
    simp only [allocCall] at hrun
    rw [if_neg (hops m.acnt THMAP_INODE_LEN)] at hrun
    try simp only [] at hrun
    split at hrun
    next hcol =>
      split at hrun
      · exact absurd hrun (by simp)
      next r2 child1 m2 evs2 heq =>
        simp only [Option.some_inj, Prod.mk.injEq] at hrun
        obtain ⟨hr, -, -, -⟩ := hrun
        rw [← hr]
        exact ih ({ m with acnt := m.acnt + 1 }) _ _ _ _ r2 child1 m2 evs2
          (fun i len => hops i len) heq
    next hcol =>
      simp only [Option.some_inj, Prod.mk.injEq] at hrun
      exact hrun.1.symm

/-- A completed expansion that returned non-`NULL` recorded no failing
allocator call. -/
theorem thmap_put_descend_no_alloc0 {V : Type} {H : HashF} {key : Key}
    {val : V} {lf : LeafR V} :
    ∀ (fuel : Nat) (m : Thmap V) (p : INode V) (slot : Nat) (q : Query)
      (other : LeafR V) (r : Option V) (p1 : INode V) (m1 : Thmap V)
      (evs : List Ev),
      thmap_put_descend H key val lf fuel m p slot q other =
        some (r, p1, m1, evs) →
      r.isSome = true →
      ∀ l0, Ev.alloc l0 0 ∉ evs := by
  intro fuel
  induction fuel with
  | zero =>
    intro m p slot q other r p1 m1 evs h
    exact absurd h (by simp [thmap_put_descend])
  | succ f ih =>
    intro m p slot q other r p1 m1 evs hrun hsome l0 hmem
    rw [thmap_put_descend] at hrun
    simp only [allocCall] at hrun
    by_cases hz : m.ops m.acnt THMAP_INODE_LEN = 0
    · rw [if_pos hz, hz] at hrun
      have hrun2 : some ((none : Option V),
          (⟨unlockSt p.st, p.par, p.off, p.slots⟩ : INode V),
          (leaf_free_call ({ m with acnt := m.acnt + 1 } : Thmap V) lf).1,
          [Ev.alloc THMAP_INODE_LEN 0] ++
            (leaf_free_call ({ m with acnt := m.acnt + 1 } : Thmap V) lf).2 ++
            [Ev.unlock p.off]) = some (r, p1, m1, evs) := hrun
      simp only [Option.some_inj, Prod.mk.injEq] at hrun2
      rw [← hrun2.1] at hsome
      exact absurd hsome (by simp)
    · rw [if_neg hz] at hrun
      try simp only [] at hrun
      split at hrun
      next hcol =>
        split at hrun
        · exact absurd hrun (by simp)
        next r2 child1 m2 evs2 heq =>
          simp only [Option.some_inj, Prod.mk.injEq] at hrun
          obtain ⟨hr, -, -, hevs⟩ := hrun
          rw [← hevs] at hmem
          rw [← hr] at hsome
          rcases List.mem_append.mp hmem with h1 | h2
          · rcases List.mem_append.mp h1 with h3 | h4
            · simp only [List.mem_singleton, Ev.alloc.injEq] at h3
              exact hz h3.2.symm
            · simp at h4
          · exact ih _ _ _ _ _ r2 child1 m2 evs2 heq hsome l0 h2
      next hcol =>
        simp only [Option.some_inj, Prod.mk.injEq] at hrun
        obtain ⟨-, -, -, hevs⟩ := hrun
        rw [← hevs] at hmem
        rcases List.mem_append.mp hmem with h1 | h2
        · rcases List.mem_append.mp h1 with h3 | h4
          · simp only [List.mem_singleton, Ev.alloc.injEq] at h3
            exact hz h3.2.symm
          · simp at h4
        · simp at h2

/-- With an allocator that never fails, the `thmap_put` body completes
with a non-`NULL` return. -/
theorem thmap_put_go_ok {V : Type} {H : HashF} {key : Key} {val : V}
    {lf : LeafR V} :
    ∀ (fuel : Nat) (m : Thmap V) (n : INode V) (q : Query) (r : Option V)
      (n1 : INode V) (m1 : Thmap V) (evs : List Ev),
      (∀ i len, m.ops i len ≠ 0) →
      thmap_put_go H key val lf fuel m n q = some (r, n1, m1, evs) →
      r.isSome = true := by
  intro fuel
  induction fuel with
  | zero =>
    intro m n q r n1 m1 evs _ h
    exact absurd h (by simp [thmap_put_go])
  | succ f ih =>
    intro m n q r n1 m1 evs hops hrun
    rw [thmap_put_go] at hrun
    try simp only at hrun
    cases hx : nthSlot n.slots (hashval_getslot H q key).1 with
    | empty =>
      rw [hx] at hrun
      simp only [Option.some_inj, Prod.mk.injEq] at hrun
      rw [← hrun.1]
      rfl
    | leaf ko2 k2 v2 lo2 =>
      rw [hx] at hrun
      simp only [] at hrun
      by_cases hk : key_cmp_p k2 key
      · rw [if_pos hk] at hrun
        have hrun2 : some ((some lf.val : Option V),
            (⟨unlockSt (lockSt n.st), n.par, n.off, n.slots⟩ : INode V),
            (leaf_free_call m lf).1,
            [Ev.lock n.off] ++ (leaf_free_call m lf).2 ++ [Ev.unlock n.off]) =
            some (r, n1, m1, evs) := hrun
        simp only [Option.some_inj, Prod.mk.injEq] at hrun2
        rw [← hrun2.1]
        rfl
      · rw [if_neg hk] at hrun
        split at hrun
        · exact absurd hrun (by simp)
        next r2 n2 m2 evs2 heq =>
          simp only [Option.some_inj, Prod.mk.injEq] at hrun
          rw [← hrun.1, thmap_put_descend_ok f m
            ⟨lockSt n.st, n.par, n.off, n.slots⟩ _ _ _ r2 n2 m2 evs2 hops heq]
          rfl
    | inode st2 par2 off2 slots2 =>
      rw [hx] at hrun
      simp only [] at hrun
      split at hrun
      · exact absurd hrun (by simp)
      next r2 child1 m2 evs2 heq =>
        simp only [Option.some_inj, Prod.mk.injEq] at hrun
        rw [← hrun.1]
        exact ih m ⟨st2, par2, off2, slots2⟩ _ r2 child1 m2 evs2 hops heq

/-- A completed `thmap_put` body that returned non-`NULL` recorded no
failing allocator call. -/
theorem thmap_put_go_no_alloc0 {V : Type} {H : HashF} {key : Key} {val : V}
    {lf : LeafR V} :
    ∀ (fuel : Nat) (m : Thmap V) (n : INode V) (q : Query) (r : Option V)
      (n1 : INode V) (m1 : Thmap V) (evs : List Ev),
      thmap_put_go H key val lf fuel m n q = some (r, n1, m1, evs) →
      r.isSome = true →
      ∀ l0, Ev.alloc l0 0 ∉ evs := by
  intro fuel
  induction fuel with
  | zero =>
    intro m n q r n1 m1 evs h
    exact absurd h (by simp [thmap_put_go])
  | succ f ih =>
    intro m n q r n1 m1 evs hrun hsome l0 hmem
    rw [thmap_put_go] at hrun
    try simp only at hrun
    cases hx : nthSlot n.slots (hashval_getslot H q key).1 with
    | empty =>
      rw [hx] at hrun
      simp only [Option.some_inj, Prod.mk.injEq] at hrun
      rw [← hrun.2.2.2] at hmem
      simp at hmem
    | leaf ko2 k2 v2 lo2 =>
      rw [hx] at hrun
      simp only [] at hrun
      by_cases hk : key_cmp_p k2 key
      · rw [if_pos hk] at hrun
        have hrun2 : some ((some lf.val : Option V),
            (⟨unlockSt (lockSt n.st), n.par, n.off, n.slots⟩ : INode V),
            (leaf_free_call m lf).1,
            [Ev.lock n.off] ++ (leaf_free_call m lf).2 ++ [Ev.unlock n.off]) =
            some (r, n1, m1, evs) := hrun
        simp only [Option.some_inj, Prod.mk.injEq] at hrun2
        rw [← hrun2.2.2.2] at hmem
        rcases List.mem_append.mp hmem with h1 | h2
        · rcases List.mem_append.mp h1 with h3 | h4
          · simp at h3
          · rw [leaf_free_call] at h4
            split at h4 <;> simp at h4
        · simp at h2
      · rw [if_neg hk] at hrun
        split at hrun
        · exact absurd hrun (by simp)
        next r2 n2 m2 evs2 heq =>
          simp only [Option.some_inj, Prod.mk.injEq] at hrun
          rw [← hrun.2.2.2] at hmem
          rw [← hrun.1] at hsome
          rcases List.mem_cons.mp hmem with h1 | h2
          · exact absurd h1 (by simp)
          · exact thmap_put_descend_no_alloc0 f m
              ⟨lockSt n.st, n.par, n.off, n.slots⟩ _ _ _ r2 n2 m2 evs2 heq
              hsome l0 h2
    | inode st2 par2 off2 slots2 =>
      rw [hx] at hrun
      simp only [] at hrun
      split at hrun
      · exact absurd hrun (by simp)
      next r2 child1 m2 evs2 heq =>
        simp only [Option.some_inj, Prod.mk.injEq] at hrun
        rw [← hrun.2.2.2] at hmem
        rw [← hrun.1] at hsome
        exact ih m ⟨st2, par2, off2, slots2⟩ _ r2 child1 m2 evs2 heq hsome
          l0 hmem

/-- With an allocator that never fails, `thmap_put` returns non-`NULL`. -/
theorem thmap_put_ok {V : Type} {H : HashF} {fuel : Nat} {m : Thmap V}
    {keyAddr : Nat} {key : Key} {val : V} {r : Option V} {m1 : Thmap V}
    {evs : List Ev} (hops : ∀ i len, m.ops i len ≠ 0)
    (hrun : thmap_put H fuel m keyAddr key val = some (r, m1, evs)) :
    r.isSome = true := by
  rw [thmap_put] at hrun
  rcases hc : leaf_create m keyAddr key val with ⟨o, m2, evs0⟩
  rw [hc] at hrun
  cases o with
  | none =>
    exfalso
    rw [leaf_create] at hc
    simp only [allocCall] at hc
    rw [if_neg (hops m.acnt THMAP_LEAF_LEN)] at hc
    by_cases h2 : m.flags &&& THMAP_NOCOPY = 0
    · rw [if_pos h2, if_neg (hops (m.acnt + 1) key.length)] at hc
      simp at hc
    · rw [if_neg h2] at hc
      simp at hc
  | some lf =>
    simp only [] at hrun
    split at hrun
    · exact absurd hrun (by simp)
    next r2 root1 m3 evs2 heq =>
      simp only [Option.some_inj, Prod.mk.injEq] at hrun
      rw [← hrun.1]
      have hops2 : ∀ i len, m2.ops i len ≠ 0 := by
        obtain ⟨-, -, -, -, hops5, -, -, -, -⟩ := leaf_create_some_pairs hc
        rw [hops5]
        exact hops
      exact thmap_put_go_ok fuel m2 m2.root (queryInit 0) r2 root1 m3 evs2
        hops2 heq

/-- A failing allocator call anywhere inside `thmap_put` forces the
`NULL` return. -/
theorem thmap_put_alloc0 {V : Type} {H : HashF} {fuel : Nat} {m : Thmap V}
    {keyAddr : Nat} {key : Key} {val : V} {r : Option V} {m1 : Thmap V}
    {evs : List Ev}
    (hrun : thmap_put H fuel m keyAddr key val = some (r, m1, evs))
    {l0 : Nat} (hmem : Ev.alloc l0 0 ∈ evs) : r = none := by
  rw [thmap_put] at hrun
  rcases hc : leaf_create m keyAddr key val with ⟨o, m2, evs0⟩
  rw [hc] at hrun
  cases o with
  | none =>
    simp only [Option.some_inj, Prod.mk.injEq] at hrun
    exact hrun.1.symm
  | some lf =>
    simp only [] at hrun
    split at hrun
    · exact absurd hrun (by simp)
    next r2 root1 m3 evs2 heq =>
      simp only [Option.some_inj, Prod.mk.injEq] at hrun
      obtain ⟨hr, -, hevs⟩ := hrun
      rw [← hevs] at hmem
      rw [← hr]
      by_contra hne
      have hsome : r2.isSome = true := Option.ne_none_iff_isSome.mp hne
      rcases List.mem_append.mp hmem with h1 | h2
      · -- the pre-allocation succeeded, so its events carry no zero offset
        rw [leaf_create] at hc
        simp only [allocCall] at hc
        by_cases hz1 : m.ops m.acnt THMAP_LEAF_LEN = 0
        · rw [if_pos hz1] at hc
          simp at hc
        · rw [if_neg hz1] at hc
          by_cases hz2 : m.flags &&& THMAP_NOCOPY = 0
          · rw [if_pos hz2] at hc
            by_cases hz3 : m.ops (m.acnt + 1) key.length = 0
            · rw [if_pos hz3] at hc
              simp at hc
            · rw [if_neg hz3] at hc
              simp only [Prod.mk.injEq] at hc
              rw [← hc.2.2] at h1
              rcases List.mem_append.mp h1 with h3 | h4
              · simp only [List.mem_singleton, Ev.alloc.injEq] at h3
                exact hz1 h3.2.symm
              · simp only [List.mem_singleton, Ev.alloc.injEq] at h4
                exact hz3 h4.2.symm
          · rw [if_neg hz2] at hc
            simp only [Prod.mk.injEq] at hc
            rw [← hc.2.2] at h1
            simp only [List.mem_singleton, Ev.alloc.injEq] at h1
            exact hz1 h1.2.symm
      · exact thmap_put_go_no_alloc0 fuel m2 m2.root (queryInit 0) r2 root1
          m3 evs2 heq hsome l0 h2

/-- A run of inserts with pairwise distinct, initially absent keys and a
never-failing allocator: afterwards the entries are exactly the pairs of
the list plus the old entries. -/
theorem putList_spec {V : Type} {H : HashF} {fuel : Nat} :
    ∀ (items : List (Key × V)) (m mN : Thmap V),
      WFs H 0 m.root.toSlot →
      (∀ kv ∈ items, ∀ v0, ¬ mapsTo m.root.toSlot kv.1 v0) →
      (items.map Prod.fst).Nodup →
      (∀ i len, m.ops i len ≠ 0) →
      putList H fuel m items = some mN →
      WFs H 0 mN.root.toSlot ∧ mN.ops = m.ops ∧ mN.flags = m.flags ∧
      mN.baseptr = m.baseptr ∧
      (∀ k1 v1, mapsTo mN.root.toSlot k1 v1 ↔
        ((k1, v1) ∈ items ∨ mapsTo m.root.toSlot k1 v1)) := by
  intro items
  induction items with
  | nil =>
    intro m mN hwf _ _ _ hrun
    have hmn := Option.some_inj.mp hrun
    subst hmn
    exact ⟨hwf, rfl, rfl, rfl, fun k1 v1 => by simp⟩
  | cons kv rest ih =>
    intro m mN hwf habs hnd hops hrun
    rw [putList] at hrun
    split at hrun
    · exact absurd hrun (by simp)
    next r1 m1 evs1 heq =>
      have habs0 : ∀ v0, ¬ mapsTo m.root.toSlot kv.1 v0 :=
        habs kv (List.mem_cons_self kv rest)
      obtain ⟨hr1, hwf1, hmaps1, hops1, hgc1, hflags1, hbase1⟩ :=
        thmap_put_absent hwf habs0 heq
      have hsome : r1.isSome = true := thmap_put_ok hops heq
      have hops1n : ∀ i len, m1.ops i len ≠ 0 := by
        rw [hops1]; exact hops
      have hnd1 : (rest.map Prod.fst).Nodup := (List.nodup_cons.mp hnd).2
      have habs1 : ∀ kv2 ∈ rest, ∀ v0, ¬ mapsTo m1.root.toSlot kv2.1 v0 := by
        intro kv2 hmem v0 hmt
        rcases (hmaps1 kv2.1 v0).mp hmt with ⟨-, hk, -⟩ | hmt0
        · have : kv2.1 ∈ rest.map Prod.fst := List.mem_map_of_mem _ hmem
          rw [hk] at this
          exact (List.nodup_cons.mp hnd).1 this
        · exact habs kv2 (List.mem_cons_of_mem kv hmem) v0 hmt0
      obtain ⟨hwfN, hopsN, hflagsN, hbaseN, hmapsN⟩ :=
        ih m1 mN hwf1 habs1 hnd1 hops1n hrun
      refine ⟨hwfN, hopsN.trans hops1, hflagsN.trans hflags1,
        hbaseN.trans hbase1, ?_⟩
      intro k1 v1
      rw [hmapsN k1 v1, hmaps1 k1 v1, hsome]
      constructor
      · rintro (h | ⟨-, rfl, rfl⟩ | h)
        · exact Or.inl (List.mem_cons_of_mem kv h)
        · exact Or.inl (List.mem_cons_self kv rest)
        · exact Or.inr h
      · rintro (h | h)
        · rcases List.mem_cons.mp h with rfl | h2
          · exact Or.inr (Or.inl ⟨rfl, rfl, rfl⟩)
          · exact Or.inl h2
        · exact Or.inr (Or.inr h)

/-- A run of deletes: afterwards no deleted key is present, the tree stays
well-formed, and the blocks the tree gave up sit on the retirement list
(the combined owned-plus-staged multiset is invariant). -/
theorem delList_spec {V : Type} {H : HashF} {fuel : Nat} :
    ∀ (keys : List Key) (m mN : Thmap V),
      WFs H 0 m.root.toSlot →
      delList H fuel m keys = some mN →
      WFs H 0 mN.root.toSlot ∧ mN.ops = m.ops ∧ mN.flags = m.flags ∧
      mN.baseptr = m.baseptr ∧
      (∀ k1 v1, mapsTo mN.root.toSlot k1 v1 →
        (k1 ∉ keys ∧ mapsTo m.root.toSlot k1 v1)) ∧
      ownedL (bcopy m) mN.root.slots + ↑mN.gcList =
        ownedL (bcopy m) m.root.slots + (↑m.gcList : Multiset (Nat × Nat)) := by
  intro keys
  induction keys with
  | nil =>
    intro m mN hwf hrun
    have hmn := Option.some_inj.mp hrun
    subst hmn
    exact ⟨hwf, rfl, rfl, rfl, fun k1 v1 h => ⟨by simp, h⟩, rfl⟩
  | cons k rest ih =>
    intro m mN hwf hrun
    rw [delList] at hrun
    split at hrun
    · exact absurd hrun (by simp)
    next r1 m1 evs1 heq =>
      by_cases hpres : ∃ v0, mapsTo m.root.toSlot k v0
      · obtain ⟨v0, hmt0⟩ := hpres
        obtain ⟨hr1, hwf1, hmaps1, hops1, hflags1, hbase1, hacnt1, hgc1,
            hcons1, -, -, -⟩ := thmap_del_present hwf hmt0 heq
        obtain ⟨hwfN, hopsN, hflagsN, hbaseN, hmapsN, hconsN⟩ :=
          ih m1 mN hwf1 hrun
        have hbc1 : bcopy m1 = bcopy m := by rw [bcopy, bcopy, hflags1]
        refine ⟨hwfN, hopsN.trans hops1, hflagsN.trans hflags1,
          hbaseN.trans hbase1, ?_, ?_⟩
        · intro k1 v1 hmt
          obtain ⟨hnin, hmt1⟩ := hmapsN k1 v1 hmt
          obtain ⟨hne, hmt2⟩ := (hmaps1 k1 v1).mp hmt1
          exact ⟨by simp [hne, hnin], hmt2⟩
        · rw [hbc1] at hconsN
          calc ownedL (bcopy m) mN.root.slots + ↑mN.gcList
              = ownedL (bcopy m) m1.root.slots + ↑m1.gcList := hconsN
            _ = ownedL (bcopy m) m1.root.slots +
                (↑(stagePairs evs1) + ↑m.gcList) := by rw [hgc1]
            _ = (ownedL (bcopy m) m1.root.slots + ↑(stagePairs evs1)) +
                ↑m.gcList := by rw [add_assoc]
            _ = ownedL (bcopy m) m.root.slots + ↑m.gcList := by rw [hcons1]
      · have habs : ∀ v0, ¬ mapsTo m.root.toSlot k v0 := by
          intro v0 hmt
          exact hpres ⟨v0, hmt⟩
        obtain ⟨hr1, hm1, -⟩ := thmap_del_absent hwf habs heq
        subst hm1
        obtain ⟨hwfN, hopsN, hflagsN, hbaseN, hmapsN, hconsN⟩ :=
          ih m1 mN hwf hrun
        refine ⟨hwfN, hopsN, hflagsN, hbaseN, ?_, hconsN⟩
        intro k1 v1 hmt
        obtain ⟨hnin, hmt1⟩ := hmapsN k1 v1 hmt
        refine ⟨?_, hmt1⟩
        intro hk1
        rcases List.mem_cons.mp hk1 with rfl | h2
        · exact habs v1 hmt1
        · exact hnin h2

/-! ## The lifecycle ends: creation and G/C -/

/-- The fresh zero-initialised root node is well-formed and empty. -/
theorem WFs_fresh_root {V : Type} {H : HashF} (par off : Nat) :
    WFs H 0 (Slot.inode 0 par off
      (List.replicate ROOT_SIZE (Slot.empty : Slot V))) := by
  refine .inodeW _ _ _ _ _ ?_ ?_ ?_ ?_ ?_
  · rw [List.length_replicate]; rfl
  · rw [cntNE_replicate]
  · exact Or.inl rfl
  · intro i
    rw [nthSlot_replicate]
    exact .empty _
  · intro i ko k v o hin
    rw [nthSlot_replicate] at hin
    exact absurd hin not_LeafIn_empty

theorem no_mapsTo_fresh_root {V : Type} (st par off : Nat) (k : Key) (v : V) :
    ¬ mapsTo (Slot.inode st par off
      (List.replicate ROOT_SIZE (Slot.empty : Slot V))) k v := by
  rintro ⟨ko, o, hin⟩
  obtain ⟨i, hin2⟩ := LeafIn_inode_inv hin
  rw [nthSlot_replicate] at hin2
  exact not_LeafIn_empty hin2

/-- Draining the retirement list frees exactly the staged blocks. -/
theorem thmap_gc_pairs {V : Type} (m : Thmap V) :
    freePairs (thmap_gc m).2 = m.gcList ∧
    allocSuccPairs (thmap_gc m).2 = [] ∧ (thmap_gc m).1.gcList = [] := by
  refine ⟨?_, ?_, rfl⟩
  · show freePairs (m.gcList.map fun al => Ev.free al.1 al.2) = m.gcList
    induction m.gcList with
    | nil => rfl
    | cons a l ihl =>
      show freePairs ((Ev.free a.1 a.2) :: l.map fun al => Ev.free al.1 al.2) =
        a :: l
      rw [show freePairs ((Ev.free a.1 a.2) ::
          l.map fun al => Ev.free al.1 al.2) =
          (a.1, a.2) :: freePairs (l.map fun al => Ev.free al.1 al.2)
          from rfl, ihl]
  · show allocSuccPairs (m.gcList.map fun al => Ev.free al.1 al.2) = []
    induction m.gcList with
    | nil => rfl
    | cons a l ihl =>
      show allocSuccPairs ((Ev.free a.1 a.2) ::
        l.map fun al => Ev.free al.1 al.2) = []
      rw [show allocSuccPairs ((Ev.free a.1 a.2) ::
          l.map fun al => Ev.free al.1 al.2) =
          allocSuccPairs (l.map fun al => Ev.free al.1 al.2) from rfl, ihl]

/-- The allocator balance of a full single-key lifecycle on an empty map:
insert, remove, drain — every successful allocation is freed, with its
offset and originally requested length. -/
theorem put_del_gc_balance {V : Type} {H : HashF} {fuel : Nat}
    {m0 m1 m2 : Thmap V} {keyAddr : Nat} {key : Key} {val : V}
    {r1 r2 : Option V} {evs1 evs2 : List Ev}
    (hwf : WFs H 0 m0.root.toSlot)
    (hempty : ∀ k v, ¬ mapsTo m0.root.toSlot k v)
    (hgc0 : m0.gcList = [])
    (hops : ∀ i len, m0.ops i len ≠ 0)
    (h1 : thmap_put H fuel m0 keyAddr key val = some (r1, m1, evs1))
    (h2 : thmap_del H fuel m1 key = some (r2, m2, evs2)) :
    r1 = some val ∧ r2 = some val ∧
    (↑(freePairs (evs1 ++ evs2 ++ (thmap_gc m2).2)) : Multiset (Nat × Nat)) =
      ↑(allocSuccPairs (evs1 ++ evs2 ++ (thmap_gc m2).2)) := by
  obtain ⟨hr1or, hwf1, hmaps1, hops1, hgc1, hflags1, hbase1⟩ :=
    thmap_put_absent hwf (fun v0 => hempty key v0) h1
  have hsome1 : r1.isSome = true := thmap_put_ok hops h1
  have hr1 : r1 = some val := by
    rcases hr1or with h | h
    · rw [h] at hsome1; exact absurd hsome1 (by simp)
    · exact h
  have hmaps1e : ∀ k1 v1, mapsTo m1.root.toSlot k1 v1 ↔
      (k1 = key ∧ v1 = val) := by
    intro k1 v1
    rw [hmaps1 k1 v1, hsome1]
    constructor
    · rintro (⟨-, h⟩ | h)
      · exact h
      · exact absurd h (hempty k1 v1)
    · exact fun h => Or.inl ⟨rfl, h⟩
  have hmt1 : mapsTo m1.root.toSlot key val := (hmaps1e key val).mpr ⟨rfl, rfl⟩
  obtain ⟨hr2, hwf2, hmaps2, hops2, hflags2, hbase2, hacnt2, hgc2, hcons2,
      hfp2, has2, -⟩ := thmap_del_present hwf1 hmt1 h2
  have hempty2 : ∀ k v, ¬ mapsTo m2.root.toSlot k v := by
    intro k v hmt
    obtain ⟨hne, hmt1b⟩ := (hmaps2 k v).mp hmt
    exact hne ((hmaps1e k v).mp hmt1b).1
  -- both the initial and the final root are all-empty, so they own nothing
  have hz0 : ownedL (bcopy m0) m0.root.slots = 0 := by
    obtain ⟨-, hsl⟩ := WFs_root_collapsed hwf hempty
    rw [hsl, ownedL_replicate]
  have hz2 : ownedL (bcopy m1) m2.root.slots = 0 := by
    obtain ⟨-, hsl⟩ := WFs_root_collapsed hwf2 hempty2
    rw [hsl, ownedL_replicate]
  have hbc1 : bcopy m1 = bcopy m0 := by rw [bcopy, bcopy, hflags1]
  -- put conservation: the tree after the insert owns the surplus allocations
  have hput := thmap_put_conserve hwf h1
  rw [hz0, zero_add] at hput
  -- delete conservation: the tree's blocks all moved to the staged list
  rw [hz2, zero_add] at hcons2
  -- and the staged list is exactly the final retirement list
  rw [hgc1, hgc0, show ((↑([] : List (Nat × Nat))) : Multiset (Nat × Nat)) = 0
    from rfl, add_zero] at hgc2
  obtain ⟨hgcF, hgcA, -⟩ := thmap_gc_pairs m2
  refine ⟨hr1, hr2, ?_⟩
  rw [freePairs_append, freePairs_append, allocSuccPairs_append,
    allocSuccPairs_append, hfp2, has2, hgcF, hgcA]
  simp only [List.append_nil]
  rw [show ((↑(freePairs evs1 ++ m2.gcList)) : Multiset (Nat × Nat)) =
    ↑(freePairs evs1) + ↑m2.gcList from rfl]
  rw [hgc2]
  rw [hbc1] at hcons2
  rw [hcons2, ← hput]
  abel

/-- C7: for every key and query state, the slot computed by
`hashval_getslot` equals the specification's algorithm (`specGetslot`):
`nbits = 6 + level*4`, word index `i = nbits >> 5 = ⌊nbits/32⌋`, the hash
word regenerated exactly when the cached index differs from `i`; at level
0 the slot is `hashval & 0x3F`, at deeper levels
`(hashval >> (round_up(nbits,4) & 31)) & 0xF`. -/
theorem claim_C7 (H : HashF) (q : Query) (key : Key) :
    hashval_getslot H q key = specGetslot H q key := by
  simp only [hashval_getslot, specGetslot, ROOT_BITS, LEVEL_BITS,
    HASHVAL_SHIFT, ROOT_MASK, LEVEL_MASK, HASHVAL_MASK,
    Nat.shiftRight_eq_div_pow]
  norm_num

/-- C9: `thmap_create` returns `NULL` for every base pointer with a set
low bit, allocating nothing (empty event list); on success the map holds
a zero-initialised root of fanout 64 (state zero — unlocked, not deleted,
occupancy zero — and parent zero) and the installed allocator, which is
the default pair `dflt` when `ops` is absent. -/
theorem claim_C9 (V : Type) (dflt : Nat → Nat → Nat) (baseptr : Nat)
    (ops : Option (Nat → Nat → Nat)) (flags : Nat) :
    (baseptr &&& 3 ≠ 0 → thmap_create V dflt baseptr ops flags = (none, [])) ∧
    (baseptr &&& 3 = 0 → (ops.getD dflt) 0 THMAP_ROOT_LEN ≠ 0 →
      thmap_create V dflt baseptr ops flags =
        (some ⟨baseptr,
          ⟨0, 0, (ops.getD dflt) 0 THMAP_ROOT_LEN,
            List.replicate ROOT_SIZE Slot.empty⟩,
          flags, ops.getD dflt, 1, []⟩,
         [Ev.alloc THMAP_ROOT_LEN ((ops.getD dflt) 0 THMAP_ROOT_LEN)])) := by
  constructor
  · intro hmis
    rw [thmap_create, if_pos hmis]
  · intro hal hro
    rw [thmap_create, if_neg (by simp [hal]), if_neg hro]

/-- Any insert run preserves well-formedness and can only add keys from
the inserted list. -/
theorem putList_weak {V : Type} {H : HashF} {fuel : Nat} :
    ∀ (items : List (Key × V)) (m mI : Thmap V),
      WFs H 0 m.root.toSlot →
      putList H fuel m items = some mI →
      WFs H 0 mI.root.toSlot ∧ mI.flags = m.flags ∧ mI.gcList = m.gcList ∧
      (∀ k1 v1, mapsTo mI.root.toSlot k1 v1 →
        (k1 ∈ items.map Prod.fst ∨ mapsTo m.root.toSlot k1 v1)) := by
  intro items
  induction items with
  | nil =>
    intro m mI hwf hrun
    have hmn := Option.some_inj.mp hrun
    subst hmn
    exact ⟨hwf, rfl, rfl, fun k1 v1 h => Or.inr h⟩
  | cons kv rest ih =>
    intro m mI hwf hrun
    rw [putList] at hrun
    split at hrun
    · exact absurd hrun (by simp)
    next r1 m1 evs1 heq =>
      by_cases hp : ∃ v0, mapsTo m.root.toSlot kv.1 v0
      · obtain ⟨v0, hmt0⟩ := hp
        obtain ⟨-, hroot1, hops1, hgc1, hflags1, -⟩ :=
          thmap_put_present hwf hmt0 heq
        have hwf1 : WFs H 0 m1.root.toSlot := by rw [hroot1]; exact hwf
        obtain ⟨hwfI, hflagsI, hgcI, hmapsI⟩ := ih m1 mI hwf1 hrun
        refine ⟨hwfI, hflagsI.trans hflags1, hgcI.trans hgc1, ?_⟩
        intro k1 v1 hmt
        rcases hmapsI k1 v1 hmt with h | h
        · exact Or.inl (List.mem_cons_of_mem _ h)
        · rw [hroot1] at h
          exact Or.inr h
      · have habs : ∀ v0, ¬ mapsTo m.root.toSlot kv.1 v0 := by
          intro v0 hmt
          exact hp ⟨v0, hmt⟩
        obtain ⟨-, hwf1, hmaps1, hops1, hgc1, hflags1, -⟩ :=
          thmap_put_absent hwf habs heq
        obtain ⟨hwfI, hflagsI, hgcI, hmapsI⟩ := ih m1 mI hwf1 hrun
        refine ⟨hwfI, hflagsI.trans hflags1, hgcI.trans hgc1, ?_⟩
        intro k1 v1 hmt
        rcases hmapsI k1 v1 hmt with h | h
        · exact Or.inl (List.mem_cons_of_mem _ h)
        · rcases (hmaps1 k1 v1).mp h with ⟨-, rfl, -⟩ | h2
          · exact Or.inl (List.mem_cons_self _ _)
          · exact Or.inr h2

set_option maxHeartbeats 1000000 in
/-- C10 (amended): on a `THMAP_NOCOPY` map whose tree is empty, the insert
performs exactly one allocation — the leaf record — and stores the
caller's key pointer verbatim in the leaf; a following lookup returns the
inserted value; a following delete stages exactly the leaf record for
reclamation, never the caller's key buffer.  (The original claim's
"exactly one allocation" is refuted for non-empty maps by
`claim_C10_counterexample`: a hash collision makes the insert also
allocate expansion nodes.) -/
theorem claim_C10 {V : Type} {H : HashF} {fuel : Nat}
    {m : Thmap V} {keyAddr : Nat} {key : Key} {val : V} {r : Option V}
    {m1 : Thmap V} {evs : List Ev}
    (hnc : ¬ m.flags &&& THMAP_NOCOPY = 0)
    (hst : m.root.st = 0)
    (hroot : m.root.slots = List.replicate ROOT_SIZE Slot.empty)
    (hops : ∀ i len, m.ops i len ≠ 0)
    (hrun : thmap_put H fuel m keyAddr key val = some (r, m1, evs)) :
    r = some val ∧
    evs.countP (fun e => match e with
      | Ev.alloc _ _ => true | _ => false) = 1 ∧
    Ev.alloc THMAP_LEAF_LEN (m.ops m.acnt THMAP_LEAF_LEN) ∈ evs ∧
    LeafIn m1.root.toSlot keyAddr key val (m.ops m.acnt THMAP_LEAF_LEN) ∧
    (∀ f2, heightS m1.root.toSlot ≤ f2 →
      thmap_get H f2 m1 key = some (some val)) ∧
    (∀ f3 r3 m3 evs3, thmap_del H f3 m1 key = some (r3, m3, evs3) →
      r3 = some val ∧
      (↑(stagePairs evs3) : Multiset (Nat × Nat)) =
        {(m.ops m.acnt THMAP_LEAF_LEN, THMAP_LEAF_LEN)}) := by
  have hwf0 : WFs H 0 m.root.toSlot := by
    rw [show m.root.toSlot =
      Slot.inode m.root.st m.root.par m.root.off m.root.slots from rfl,
      hst, hroot]
    exact WFs_fresh_root _ _
  have habs0 : ∀ v0, ¬ mapsTo m.root.toSlot key v0 := by
    intro v0 hmt
    rw [show m.root.toSlot =
      Slot.inode m.root.st m.root.par m.root.off m.root.slots from rfl,
      hroot] at hmt
    exact no_mapsTo_fresh_root _ _ _ _ _ hmt
  obtain ⟨-, hwf1, hmaps1, hops1, hgc1, hflags1, -⟩ :=
    thmap_put_absent hwf0 habs0 hrun
  have hsome : r.isSome = true := thmap_put_ok hops hrun
  -- unfold the single successful path to read off the events and the leaf
  rw [thmap_put] at hrun
  have hc : leaf_create m keyAddr key val =
      (some ⟨keyAddr, key, val, m.ops m.acnt THMAP_LEAF_LEN⟩,
        ({ m with acnt := m.acnt + 1 } : Thmap V),
        [Ev.alloc THMAP_LEAF_LEN (m.ops m.acnt THMAP_LEAF_LEN)]) := by
    rw [leaf_create]
    simp only [allocCall]
    rw [if_neg (hops m.acnt THMAP_LEAF_LEN), if_neg hnc]
  rw [hc] at hrun
  simp only [] at hrun
  cases fuel with
  | zero => exact absurd hrun (by simp [thmap_put_go])
  | succ f =>
    rw [thmap_put_go, hashval_getslot_eq (QOK_init H key 0),
      show (queryInit 0).level = 0 from rfl] at hrun
    try simp only at hrun
    rw [show nthSlot ({ m with acnt := m.acnt + 1 } : Thmap V).root.slots
        (slotAt H key 0) = Slot.empty from by
      show nthSlot m.root.slots (slotAt H key 0) = Slot.empty
      rw [hroot, nthSlot_replicate]] at hrun
    simp only [Option.some_inj, Prod.mk.injEq] at hrun
    obtain ⟨hr, hm1, hevs⟩ := hrun
    have hslt : slotAt H key 0 < m.root.slots.length := by
      rw [hroot, List.length_replicate]
      exact slotAt_lt_fanout H key 0
    refine ⟨hr.symm, ?_, ?_, ?_, ?_, ?_⟩
    · rw [← hevs]
      rfl
    · rw [← hevs]
      exact List.mem_append_left _ (List.mem_singleton_self _)
    · rw [← hm1]
      show LeafIn (Slot.inode _ _ _ (m.root.slots.set (slotAt H key 0)
        (Slot.leaf keyAddr key val (m.ops m.acnt THMAP_LEAF_LEN)))) keyAddr
        key val (m.ops m.acnt THMAP_LEAF_LEN)
      refine .deeper _ _ _ _ (slotAt H key 0) _ _ _ _ ?_
      rw [nthSlot_set_self _ hslt]
      exact .here _ _ _ _
    · intro f2 hf2
      have hmt1 : mapsTo m1.root.toSlot key val := by
        refine (hmaps1 key val).mpr (Or.inl ⟨?_, rfl, rfl⟩)
        rw [← hr]
        rfl
      exact thmap_get_found hwf1 hmt1 hf2
    · intro f3 r3 m3 evs3 hdel
      have hmt1 : mapsTo m1.root.toSlot key val := by
        refine (hmaps1 key val).mpr (Or.inl ⟨?_, rfl, rfl⟩)
        rw [← hr]
        rfl
      obtain ⟨hr3, hwf3, hmaps3, -, -, -, -, -, hcons3, -, -, -⟩ :=
        thmap_del_present hwf1 hmt1 hdel
      refine ⟨hr3, ?_⟩
      have hempty3 : ∀ k v, ¬ mapsTo m3.root.toSlot k v := by
        intro k v hmt
        obtain ⟨hne, hmt2⟩ := (hmaps3 k v).mp hmt
        rcases (hmaps1 k v).mp hmt2 with ⟨-, rfl, -⟩ | h2
        · exact hne rfl
        · rw [show m.root.toSlot = Slot.inode m.root.st m.root.par m.root.off
            m.root.slots from rfl, hroot] at h2
          exact no_mapsTo_fresh_root _ _ _ _ _ h2
      obtain ⟨-, hsl3⟩ := WFs_root_collapsed hwf3 hempty3
      have hz3 : ownedL (bcopy m1) m3.root.slots = 0 := by
        rw [hsl3]
        exact ownedL_replicate _ _
      rw [hz3, zero_add] at hcons3
      rw [hcons3]
      have hbc : bcopy m1 = false := by
        rw [bcopy, hflags1]
        simp [hnc]
      rw [hbc, ← hm1]
      show ownedL false (m.root.slots.set (slotAt H key 0)
        (Slot.leaf keyAddr key val (m.ops m.acnt THMAP_LEAF_LEN))) =
        {(m.ops m.acnt THMAP_LEAF_LEN, THMAP_LEAF_LEN)}
      have hsetO := @ownedL_set V false m.root.slots (slotAt H key 0)
        (Slot.leaf keyAddr key val (m.ops m.acnt THMAP_LEAF_LEN)) hslt
      rw [show nthSlot m.root.slots (slotAt H key 0) = Slot.empty from by
          rw [hroot, nthSlot_replicate],
        show ownedS false (Slot.empty : Slot V) = 0 from rfl, add_zero]
        at hsetO
      rw [hsetO, show ownedL false m.root.slots = 0 from by
          rw [hroot]; exact ownedL_replicate _ _, zero_add]
      rfl

theorem wf_mC0c : WFs Hc 0 mC0c.root.toSlot := WFs_fresh_root 0 4

theorem habs_mC0c : ∀ (k : Key) (v : Nat), ¬ mapsTo mC0c.root.toSlot k v :=
  fun k v => no_mapsTo_fresh_root 0 0 4 k v

theorem hops_opsC : ∀ i len, opsC i len ≠ 0 := by
  intro i len
  simp [opsC]

theorem put1_eq : thmap_put Hc 10 mC0c 11 [3] 5 =
    some (some 5, mC1c, [Ev.alloc 24 8, Ev.alloc 1 12, Ev.lock 4,
      Ev.slotSet 4 3, Ev.unlock 4]) := rfl

theorem wf_mC1c : WFs Hc 0 mC1c.root.toSlot :=
  (thmap_put_absent wf_mC0c (fun v0 => habs_mC0c [3] v0) put1_eq).2.1

theorem maps_mC1c : mapsTo mC1c.root.toSlot [3] 5 :=
  ((thmap_put_absent wf_mC0c (fun v0 => habs_mC0c [3] v0) put1_eq).2.2.1
    [3] 5).mpr (Or.inl ⟨rfl, rfl, rfl⟩)

theorem putp65_eq : putList Hc 10 mC0c [([3], 5), ([65539], 7)] = some mI2 :=
  rfl

theorem pl65_facts : WFs Hc 0 mI2.root.toSlot ∧ mI2.ops = mC0c.ops ∧
    mI2.flags = mC0c.flags ∧ mI2.baseptr = mC0c.baseptr ∧
    (∀ k1 v1, mapsTo mI2.root.toSlot k1 v1 ↔
      ((k1, v1) ∈ [([3], 5), ([65539], 7)] ∨ mapsTo mC0c.root.toSlot k1 v1)) :=
  putList_spec [([3], 5), ([65539], 7)] mC0c mI2 wf_mC0c
    (fun kv _ v0 => habs_mC0c kv.1 v0) (by decide) hops_opsC putp65_eq

theorem maps_mI2_3 : mapsTo mI2.root.toSlot [3] 5 :=
  (pl65_facts.2.2.2.2 [3] 5).mpr (Or.inl (by decide))

theorem maps_mI2_65539 : mapsTo mI2.root.toSlot [65539] 7 :=
  (pl65_facts.2.2.2.2 [65539] 7).mpr (Or.inl (by decide))

theorem del3_eq : thmap_del Hc 10 mI2 [3] =
    some (some 5, m3del, [Ev.lock 28, Ev.slotClear 28 0, Ev.unlock 28,
      Ev.stage 12 1, Ev.stage 8 24]) := rfl

theorem wf_m3del : WFs Hc 0 m3del.root.toSlot :=
  (thmap_del_present pl65_facts.1 maps_mI2_3 del3_eq).2.1

theorem maps_m3del_65539 : mapsTo m3del.root.toSlot [65539] 7 :=
  ((thmap_del_present pl65_facts.1 maps_mI2_3 del3_eq).2.2.1 [65539] 7).mpr
    ⟨by decide, maps_mI2_65539⟩

theorem del65_eq : thmap_del Hc 10 m3del [65539] =
    some (some 7, mF2,
      [Ev.lock 28, Ev.slotClear 28 1,
       Ev.lock 24, Ev.markDeleted 28 2147483648, Ev.unlock 28,
       Ev.slotClear 24 0, Ev.stage 28 144,
       Ev.lock 4, Ev.markDeleted 24 2147483648, Ev.unlock 24,
       Ev.slotClear 4 3, Ev.stage 24 144, Ev.unlock 4,
       Ev.stage 20 1, Ev.stage 16 24]) := rfl

theorem putp2_eq : putList Hc 10 mC0c [([3], 5), ([4099], 7)] = some mN2 :=
  rfl

theorem delp_eq : delList Hc 10 mI2 [[3], [65539]] = some mF2 := rfl

theorem del1_eq : thmap_del Hc 10 mC1c [3] =
    some (some 5, mD1, [Ev.lock 4, Ev.slotClear 4 3, Ev.unlock 4,
      Ev.stage 12 1, Ev.stage 8 24]) := rfl

theorem putz_eq : thmap_put Hc 10 mC0z 11 [3] 5 =
    some (none, mZ1, [Ev.alloc 24 0]) := rfl

theorem wf_mC0z : WFs Hc 0 mC0z.root.toSlot := WFs_fresh_root 0 4

theorem put1n_eq : thmap_put Hc 10 mC0n 11 [3] 5 =
    some (some 5, mC1n, [Ev.alloc 24 8, Ev.lock 4, Ev.slotSet 4 3,
      Ev.unlock 4]) := rfl

theorem deln_eq : thmap_del Hc 10 mC1n [3] =
    some (some 5, mD1n, [Ev.lock 4, Ev.slotClear 4 3, Ev.unlock 4,
      Ev.stage 8 24]) := rfl

/-! ## The claims -/

/-- C1: on a key that is already present (never-failing allocator) the
tree and all other map fields are left unchanged and everything the call
allocated (the pre-allocated leaf) is freed — but the code DIVERGES from
the claimed return value: `val = leaf_free(thmap, leaf)` frees the
PRE-ALLOCATED leaf and yields that leaf's `val`, i.e. the caller's
argument, so `thmap_put` returns the argument value, and whenever the
stored value differs from the argument the call does NOT return the
stored value — the claimed present-key return (and with it the
"different value indicates presence" test) fails. -/
theorem claim_C1 {V : Type} {H : HashF} {fuel : Nat} {m : Thmap V}
    {keyAddr : Nat} {key : Key} {val v0 : V} {r : Option V} {m1 : Thmap V}
    {evs : List Ev}
    (hwf : WFs H 0 m.root.toSlot)
    (hm : mapsTo m.root.toSlot key v0)
    (hops : ∀ i len, m.ops i len ≠ 0)
    (hrun : thmap_put H fuel m keyAddr key val = some (r, m1, evs)) :
    r = some val ∧ m1.root = m.root ∧ m1.ops = m.ops ∧ m1.gcList = m.gcList ∧
    m1.flags = m.flags ∧ m1.baseptr = m.baseptr ∧
    (↑(freePairs evs) : Multiset (Nat × Nat)) = ↑(allocSuccPairs evs) ∧
    (v0 ≠ val → r ≠ some v0) := by
  obtain ⟨hror, hroot1, hops1, hgc1, hflags1, hbase1⟩ :=
    thmap_put_present hwf hm hrun
  have hsome := thmap_put_ok hops hrun
  have hr : r = some val := by
    rcases hror with h | h
    · rw [h] at hsome
      exact absurd hsome (by simp)
    · exact h
  have hcons := thmap_put_conserve hwf hrun
  rw [hroot1] at hcons
  refine ⟨hr, hroot1, hops1, hgc1, hflags1, hbase1, add_left_cancel hcons, ?_⟩
  intro hne heq
  rw [hr] at heq
  exact hne (Option.some_inj.mp heq).symm

theorem claim_C1_witness :
    (some 7 : Option Nat) = some 7 ∧ mP1.root = mC1c.root ∧
    mP1.ops = mC1c.ops ∧ mP1.gcList = mC1c.gcList ∧
    mP1.flags = mC1c.flags ∧ mP1.baseptr = mC1c.baseptr ∧
    (↑(freePairs [Ev.alloc 24 16, Ev.alloc 1 20, Ev.lock 4, Ev.free 20 1,
      Ev.free 16 24, Ev.unlock 4]) : Multiset (Nat × Nat)) =
      ↑(allocSuccPairs [Ev.alloc 24 16, Ev.alloc 1 20, Ev.lock 4,
        Ev.free 20 1, Ev.free 16 24, Ev.unlock 4]) ∧
    ((5 : Nat) ≠ 7 → (some 7 : Option Nat) ≠ some 5) :=
  claim_C1 wf_mC1c maps_mC1c hops_opsC
    (rfl : thmap_put Hc 10 mC1c 13 [3] 7 =
      some (some 7, mP1, [Ev.alloc 24 16, Ev.alloc 1 20, Ev.lock 4,
        Ev.free 20 1, Ev.free 16 24, Ev.unlock 4]))

/-- C2: after a run of inserts with pairwise distinct keys into an empty
map, with every allocation succeeding, a lookup of each inserted key
returns exactly the value it was inserted with, and a lookup of any key
never inserted misses (returns `NULL`). -/
theorem claim_C2 {V : Type} {H : HashF} {fuel : Nat} {m mN : Thmap V}
    {items : List (Key × V)}
    (hwf : WFs H 0 m.root.toSlot)
    (hempty : ∀ k v, ¬ mapsTo m.root.toSlot k v)
    (hnd : (items.map Prod.fst).Nodup)
    (hops : ∀ i len, m.ops i len ≠ 0)
    (hrun : putList H fuel m items = some mN) :
    (∀ kv ∈ items, ∀ f2, heightS mN.root.toSlot ≤ f2 →
      thmap_get H f2 mN kv.1 = some (some kv.2)) ∧
    (∀ k, k ∉ items.map Prod.fst → ∀ f2, heightS mN.root.toSlot ≤ f2 →
      thmap_get H f2 mN k = some none) := by
  obtain ⟨hwfN, -, -, -, hmapsN⟩ := putList_spec items m mN hwf
    (fun kv _ v0 => hempty kv.1 v0) hnd hops hrun
  constructor
  · intro kv hkv f2 hf2
    exact thmap_get_found hwfN
      ((hmapsN kv.1 kv.2).mpr (Or.inl hkv)) hf2
  · intro k hk f2 hf2
    refine thmap_get_none ?_ hf2
    intro v hmt
    rcases (hmapsN k v).mp hmt with h | h
    · exact hk (List.mem_map_of_mem Prod.fst h)
    · exact hempty k v h

set_option maxRecDepth 8000 in
theorem claim_C2_witness :
    thmap_get Hc 2 mN2 [3] = some (some 5) ∧
    thmap_get Hc 2 mN2 [4099] = some (some 7) ∧
    thmap_get Hc 2 mN2 [7] = some none := by
  have h := claim_C2 wf_mC0c habs_mC0c (by decide) hops_opsC putp2_eq
  exact ⟨h.1 ([3], 5) (by decide) 2 (by decide),
    h.1 ([4099], 7) (by decide) 2 (by decide),
    h.2 [7] (by decide) 2 (by decide)⟩

/-- C3: `thmap_del` of a present key returns the stored value and removes
exactly that entry; of an absent key it returns `NULL` and leaves the map
completely unchanged. -/
theorem claim_C3 {V : Type} {H : HashF} {fuel : Nat} {m : Thmap V}
    {key : Key} {r : Option V} {m1 : Thmap V} {evs : List Ev}
    (hwf : WFs H 0 m.root.toSlot)
    (hrun : thmap_del H fuel m key = some (r, m1, evs)) :
    (∀ v, mapsTo m.root.toSlot key v →
      r = some v ∧
      (∀ k1 v1, mapsTo m1.root.toSlot k1 v1 ↔
        (k1 ≠ key ∧ mapsTo m.root.toSlot k1 v1))) ∧
    ((∀ v0, ¬ mapsTo m.root.toSlot key v0) → r = none ∧ m1 = m) := by
  constructor
  · intro v hmt
    obtain ⟨hr, -, hmaps, -, -, -, -, -, -, -, -, -⟩ :=
      thmap_del_present hwf hmt hrun
    exact ⟨hr, hmaps⟩
  · intro habs
    obtain ⟨hr, hm1, -⟩ := thmap_del_absent hwf habs hrun
    exact ⟨hr, hm1⟩

theorem claim_C3_witness :
    (some 5 : Option Nat) = some 5 ∧ ¬ mapsTo mD1.root.toSlot [3] 5 := by
  have h := claim_C3 wf_mC1c del1_eq
  obtain ⟨hr, hmaps⟩ := h.1 5 maps_mC1c
  exact ⟨hr, fun hmt => ((hmaps [3] 5).mp hmt).1 rfl⟩

/-- C4: after any run of inserts followed by the removal of every inserted
key, the tree is structurally a fresh map again — the root state word
(occupancy) is zero and every root slot is zero — and every block the
post-insert tree owned (every intermediate node and leaf it linked) is on
the retirement list. -/
theorem claim_C4 {V : Type} {H : HashF} {fuel fuel2 : Nat}
    {m mI mN : Thmap V} {items : List (Key × V)}
    (hwf : WFs H 0 m.root.toSlot)
    (hempty : ∀ k v, ¬ mapsTo m.root.toSlot k v)
    (hput : putList H fuel m items = some mI)
    (hdel : delList H fuel2 mI (items.map Prod.fst) = some mN) :
    mN.root.st = 0 ∧
    mN.root.slots = List.replicate ROOT_SIZE Slot.empty ∧
    (↑mN.gcList : Multiset (Nat × Nat)) =
      ownedL (bcopy m) mI.root.slots + ↑m.gcList := by
  obtain ⟨hwfI, hflagsI, hgcI, hmapsI⟩ := putList_weak items m mI hwf hput
  obtain ⟨hwfN, -, -, -, hmapsN, hconsN⟩ :=
    delList_spec (items.map Prod.fst) mI mN hwfI hdel
  have hemptyN : ∀ k v, ¬ mapsTo mN.root.toSlot k v := by
    intro k v hmt
    obtain ⟨hnin, hmtI⟩ := hmapsN k v hmt
    rcases hmapsI k v hmtI with h | h
    · exact hnin h
    · exact hempty k v h
  obtain ⟨hst, hsl⟩ := WFs_root_collapsed hwfN hemptyN
  have hbcI : bcopy mI = bcopy m := by rw [bcopy, bcopy, hflagsI]
  rw [hbcI] at hconsN
  refine ⟨hst, hsl, ?_⟩
  rw [hsl, ownedL_replicate, zero_add, hgcI] at hconsN
  exact hconsN

theorem claim_C4_witness :
    mF2.root.st = 0 ∧
    mF2.root.slots = List.replicate ROOT_SIZE Slot.empty ∧
    (↑mF2.gcList : Multiset (Nat × Nat)) =
      ownedL (bcopy mC0c) mI2.root.slots + ↑mC0c.gcList := by
  have h := claim_C4 wf_mC0c habs_mC0c putp65_eq delp_eq
  exact h

/-- C5: the events of a delete that found its key consist of the edge
lock and slot clear, then one contraction block per emptied level — lock
the parent, mark the (already locked, emptied) child DELETED, unlock the
child, clear the parent's slot, and only then stage the child — then the
final unlock and the staging of the removed leaf; and every DELETED mark
records a state word that is locked and has occupancy zero. -/
theorem claim_C5 {V : Type} {H : HashF} {fuel : Nat} {m : Thmap V}
    {key : Key} {v : V} {r : Option V} {m1 : Thmap V} {evs : List Ev}
    (hwf : WFs H 0 m.root.toSlot)
    (hm : mapsTo m.root.toSlot key v)
    (hrun : thmap_del H fuel m key = some (r, m1, evs)) :
    (∃ (c0 s0 : Nat) (blocks : List (Nat × Nat × Nat)) (e : Nat)
        (tail2 : List Ev),
      evs = ([Ev.lock c0, Ev.slotClear c0 s0] ++
        (blocks.flatMap fun b => blockEvs b.1 b.2.1 b.2.2) ++
        [Ev.unlock e]) ++ tail2 ∧
      (∀ ev ∈ tail2, ∃ a len, ev = Ev.stage a len)) ∧
    (∀ o st, Ev.markDeleted o st ∈ evs →
      st &&& NODE_LOCKED ≠ 0 ∧ NODE_COUNT st = 0) := by
  obtain ⟨-, -, -, -, -, -, -, -, -, -, -, htr⟩ :=
    thmap_del_present hwf hm hrun
  obtain ⟨c0, s0, blocks, e, tail2, htr2, htail⟩ := htr
  refine ⟨⟨c0, s0, blocks, e, tail2, htr2, htail⟩, ?_⟩
  intro o st hmem
  rw [htr2] at hmem
  have hL : st = NODE_LOCKED := by
    rcases List.mem_append.mp hmem with h1 | h2
    · rcases List.mem_append.mp h1 with h3 | h4
      · rcases List.mem_append.mp h3 with h5 | h6
        · simp at h5
        · obtain ⟨b, -, hb⟩ := List.mem_flatMap.mp h6
          simp only [blockEvs, List.mem_cons, List.not_mem_nil, or_false]
            at hb
          rcases hb with h | h | h | h | h
          · exact absurd h (by simp)
          · exact (Ev.markDeleted.inj h).2
          · exact absurd h (by simp)
          · exact absurd h (by simp)
          · exact absurd h (by simp)
      · simp at h4
    · obtain ⟨a, len, hev⟩ := htail _ h2
      exact absurd hev (by simp)
  subst hL
  constructor
  · rw [Nat.and_self]
    simp [NODE_LOCKED]
  · rw [NODE_COUNT_eq, show NODE_LOCKED = 2 ^ 31 from rfl]
    norm_num

theorem claim_C5_witness :
    (∃ (c0 s0 : Nat) (blocks : List (Nat × Nat × Nat)) (e : Nat)
        (tail2 : List Ev),
      ([Ev.lock 28, Ev.slotClear 28 1,
        Ev.lock 24, Ev.markDeleted 28 2147483648, Ev.unlock 28,
        Ev.slotClear 24 0, Ev.stage 28 144,
        Ev.lock 4, Ev.markDeleted 24 2147483648, Ev.unlock 24,
        Ev.slotClear 4 3, Ev.stage 24 144, Ev.unlock 4,
        Ev.stage 20 1, Ev.stage 16 24] : List Ev) =
        ([Ev.lock c0, Ev.slotClear c0 s0] ++
          (blocks.flatMap fun b => blockEvs b.1 b.2.1 b.2.2) ++
          [Ev.unlock e]) ++ tail2 ∧
      (∀ ev ∈ tail2, ∃ a len, ev = Ev.stage a len)) ∧
    (∀ o st, Ev.markDeleted o st ∈
        ([Ev.lock 28, Ev.slotClear 28 1,
          Ev.lock 24, Ev.markDeleted 28 2147483648, Ev.unlock 28,
          Ev.slotClear 24 0, Ev.stage 28 144,
          Ev.lock 4, Ev.markDeleted 24 2147483648, Ev.unlock 24,
          Ev.slotClear 4 3, Ev.stage 24 144, Ev.unlock 4,
          Ev.stage 20 1, Ev.stage 16 24] : List Ev) →
      st &&& NODE_LOCKED ≠ 0 ∧ NODE_COUNT st = 0) :=
  claim_C5 wf_m3del maps_m3del_65539 del65_eq

/-- C6: a failing allocator call anywhere inside `thmap_put` (leaf, key
copy, or expansion node) forces the `NULL` return; and a `NULL`-returning
call leaves the key-value entries exactly as they were and keeps the
allocator balanced — the blocks the tree owns afterwards plus everything
freed equal the blocks owned before plus every successful allocation, so
every partially prepared block was freed. -/
theorem claim_C6 {V : Type} {H : HashF} {fuel : Nat} {m : Thmap V}
    {keyAddr : Nat} {key : Key} {val : V} {r : Option V} {m1 : Thmap V}
    {evs : List Ev}
    (hwf : WFs H 0 m.root.toSlot)
    (hrun : thmap_put H fuel m keyAddr key val = some (r, m1, evs)) :
    (∀ l0, Ev.alloc l0 0 ∈ evs → r = none) ∧
    (r = none →
      (∀ k1 v1, mapsTo m1.root.toSlot k1 v1 ↔ mapsTo m.root.toSlot k1 v1) ∧
      ownedL (bcopy m) m1.root.slots + ↑(freePairs evs) =
        ownedL (bcopy m) m.root.slots + ↑(allocSuccPairs evs)) := by
  refine ⟨fun l0 hmem => thmap_put_alloc0 hrun hmem, ?_⟩
  intro hr
  refine ⟨?_, thmap_put_conserve hwf hrun⟩
  by_cases hp : ∃ v0, mapsTo m.root.toSlot key v0
  · obtain ⟨v0, hmt⟩ := hp
    obtain ⟨-, hroot1, -⟩ := thmap_put_present hwf hmt hrun
    intro k1 v1
    rw [show m1.root.toSlot = m.root.toSlot from by rw [hroot1]]
  · have habs : ∀ v0, ¬ mapsTo m.root.toSlot key v0 := fun v0 h => hp ⟨v0, h⟩
    obtain ⟨-, -, hmaps1, -⟩ := thmap_put_absent hwf habs hrun
    intro k1 v1
    rw [hmaps1 k1 v1, hr]
    simp

theorem claim_C6_witness :
    (∀ l0, Ev.alloc l0 0 ∈ [Ev.alloc 24 0] → (none : Option Nat) = none) ∧
    ((none : Option Nat) = none →
      (∀ k1 v1, mapsTo mZ1.root.toSlot k1 v1 ↔ mapsTo mC0z.root.toSlot k1 v1) ∧
      ownedL (bcopy mC0z) mZ1.root.slots + ↑(freePairs [Ev.alloc 24 0]) =
        ownedL (bcopy mC0z) mC0z.root.slots +
          ↑(allocSuccPairs [Ev.alloc 24 0])) :=
  claim_C6 wf_mC0z putz_eq

/-- C8: for a single key on an empty map with a never-failing allocator,
the sequence insert / remove / drain balances the allocator exactly: the
multiset of `(offset, requested length)` pairs freed equals the multiset
successfully allocated — every alloc (leaf record, key copy in copy mode,
expansion nodes) is matched by one free of the originally requested
length. -/
theorem claim_C8 {V : Type} {H : HashF} {fuel : Nat}
    {m0 m1 m2 : Thmap V} {keyAddr : Nat} {key : Key} {val : V}
    {r1 r2 : Option V} {evs1 evs2 : List Ev}
    (hwf : WFs H 0 m0.root.toSlot)
    (hempty : ∀ k v, ¬ mapsTo m0.root.toSlot k v)
    (hgc0 : m0.gcList = [])
    (hops : ∀ i len, m0.ops i len ≠ 0)
    (h1 : thmap_put H fuel m0 keyAddr key val = some (r1, m1, evs1))
    (h2 : thmap_del H fuel m1 key = some (r2, m2, evs2)) :
    r1 = some val ∧ r2 = some val ∧
    (↑(freePairs (evs1 ++ evs2 ++ (thmap_gc m2).2)) : Multiset (Nat × Nat)) =
      ↑(allocSuccPairs (evs1 ++ evs2 ++ (thmap_gc m2).2)) :=
  put_del_gc_balance hwf hempty hgc0 hops h1 h2

theorem claim_C8_witness :
    (some 5 : Option Nat) = some 5 ∧ (some 5 : Option Nat) = some 5 ∧
    (↑(freePairs ([Ev.alloc 24 8, Ev.alloc 1 12, Ev.lock 4, Ev.slotSet 4 3,
        Ev.unlock 4] ++
      [Ev.lock 4, Ev.slotClear 4 3, Ev.unlock 4, Ev.stage 12 1,
        Ev.stage 8 24] ++ (thmap_gc mD1).2)) : Multiset (Nat × Nat)) =
      ↑(allocSuccPairs ([Ev.alloc 24 8, Ev.alloc 1 12, Ev.lock 4,
        Ev.slotSet 4 3, Ev.unlock 4] ++
      [Ev.lock 4, Ev.slotClear 4 3, Ev.unlock 4, Ev.stage 12 1,
        Ev.stage 8 24] ++ (thmap_gc mD1).2)) :=
  claim_C8 wf_mC0c habs_mC0c rfl hops_opsC put1_eq del1_eq

theorem claim_C9_witness :
    thmap_create Nat opsC 1 none 0 = (none, []) ∧
    thmap_create Nat opsC 0 none 0 =
      (some ⟨0, ⟨0, 0, opsC 0 THMAP_ROOT_LEN,
        List.replicate ROOT_SIZE Slot.empty⟩, 0, opsC, 1, []⟩,
       [Ev.alloc THMAP_ROOT_LEN (opsC 0 THMAP_ROOT_LEN)]) :=
  ⟨(claim_C9 Nat opsC 1 none 0).1 (by decide),
   (claim_C9 Nat opsC 0 none 0).2 (by decide) (by decide)⟩

/-- C10's original "exactly one allocation per `thmap_put`" is false for a
reachable `THMAP_NOCOPY` map: after one insert, a colliding second insert
allocates an expansion node besides the leaf (two allocations). -/
theorem claim_C10_counterexample :
    thmap_put Hc 10 mC0n 11 [3] 5 =
      some (some 5, mC1n, [Ev.alloc 24 8, Ev.lock 4, Ev.slotSet 4 3,
        Ev.unlock 4]) ∧
    mC1n.flags &&& THMAP_NOCOPY ≠ 0 ∧ mC1n.baseptr = 0 ∧
    thmap_put Hc 10 mC1n 13 [4099] 7 =
      some (some 7, mC2n,
        [Ev.alloc 24 12, Ev.lock 4, Ev.alloc 144 16, Ev.slotSet 16 0,
         Ev.publish 4 3, Ev.unlock 4, Ev.slotSet 16 1, Ev.unlock 16]) ∧
    ¬ (([Ev.alloc 24 12, Ev.lock 4, Ev.alloc 144 16, Ev.slotSet 16 0,
         Ev.publish 4 3, Ev.unlock 4, Ev.slotSet 16 1,
         Ev.unlock 16].countP fun e => match e with
           | Ev.alloc _ _ => true | _ => false) = 1) :=
  ⟨rfl, by decide, rfl, rfl, by decide⟩

set_option maxRecDepth 8000 in
theorem claim_C10_witness :
    (some 5 : Option Nat) = some 5 ∧
    ([Ev.alloc 24 8, Ev.lock 4, Ev.slotSet 4 3,
        Ev.unlock 4].countP fun e => match e with
          | Ev.alloc _ _ => true | _ => false) = 1 ∧
    LeafIn mC1n.root.toSlot 11 [3] 5 8 ∧
    thmap_get Hc 1 mC1n [3] = some (some 5) ∧
    (↑(stagePairs [Ev.lock 4, Ev.slotClear 4 3, Ev.unlock 4,
      Ev.stage 8 24]) : Multiset (Nat × Nat)) = {(8, 24)} := by
  have h := claim_C10 (V := Nat) (by decide) rfl rfl hops_opsC put1n_eq
  refine ⟨h.1, h.2.1, h.2.2.2.1, h.2.2.2.2.1 1 (by decide), ?_⟩
  exact (h.2.2.2.2.2 10 (some 5) mD1n
    [Ev.lock 4, Ev.slotClear 4 3, Ev.unlock 4, Ev.stage 8 24] deln_eq).2

end ThmapModel
